import Mathlib

/-!
# Mark-and-sweep collector of `garbage_collector.c`

A shallow embedding of the virtual machine of `src/garbage_collector.c`
(objects, root stack, heap registry, `mark`, `markAll`, `sweep`, `gc`,
`push`, `pop`, `newObject`, `pushPair`, `pushINT`, `newVM`) together with
theorems about the properties stated in the specification.

Modelling conventions.

* A pointer is an address, a natural number; `NULL` is address `0`.
* The C heap is a partial map from addresses to objects; `free` removes an
  address from the map, `malloc` adds one.  An access through an address
  that is not in the map (null or freed) is a `fault`.  `malloc` never returns
  address `0`, so no object lives there; registry entries are required to be
  non-null (`chain`).
* `malloc` is not deterministic: the address it returns and the uninitialised
  contents of the block are arguments of the functions that allocate.
* `stackSize` is kept within `0 .. STACK_MAX` by `push` and `pop`; it is modelled
  as a natural number and the stack array as a function on indices.
* The recursion of `mark` and the loop of `sweep` take a fuel argument
  (recursion depth / number of loop tests); running out of it is `timeout`.
* `printf` calls are recorded as messages appended to `out`.
* `int` counters are integers wrapped to 32 bits on every arithmetic step.
* The union of `value` with `head`/`tail` is modelled as three separate
  fields; the code only reads the members that match the type tag.
* Sequences of client calls (the bodies of `test1` .. `test4`) are lists of `Op`
  executed by `run`.
* Statements about counter values are given both for the wrapped arithmetic and, when
  the values are representable as `int`, as plain integer equalities.
-/

namespace GC

/-- Addresses of heap blocks. -/
abbrev Ptr := Nat

/-- The null pointer. -/
def NULL : Ptr := 0

/-- Capacity of the root stack: `#define STACK_MAX 256`. -/
def STACK_MAX : Nat := 256

/-- The enumeration `ObjectType`. -/
inductive ObjectType where
  | OBJ_INT
  | OBJ_PAIR
deriving DecidableEq, Repr

/-- The record `struct sObject`. -/
structure Object where
  type : ObjectType
  marked : Nat
  next : Ptr
  value : Int
  head : Ptr
  tail : Ptr
deriving DecidableEq, Repr

/-- The C heap: which addresses hold an object, and its contents. -/
abbrev Heap := Ptr → Option Object

/-- Store to a heap cell (`none` releases it). -/
def upd (h : Heap) (p : Ptr) (v : Option Object) : Heap :=
  fun q => if q = p then v else h q

/-- Console messages written by the program. -/
inductive Msg where
  | markingObjects
  | enteringGc
  | stackOverflow
  | stackUnderflow
  | gcNeeded
deriving DecidableEq, Repr

/-- The record `VM` together with the heap it points into and the console. -/
structure VM where
  stack : Nat → Ptr
  numObjects : Int
  maxObjects : Int
  stackSize : Nat
  firstObject : Ptr
  heap : Heap
  out : List Msg

/-- Outcome of a computation that may dereference a bad pointer or run out of fuel. -/
inductive Res (α : Type) where
  | ok (a : α)
  | fault
  | timeout

/-- Arithmetic on `int`: two's complement wrap-around to 32 bits. -/
def wrapInt (x : Int) : Int := (x + 2147483648) % 4294967296 - 2147483648

/-- The constructor `newVM`: `raw` is the block handed out by `malloc` (with the
ambient heap and console); only `stackSize` is assigned. -/
def newVM (raw : VM) : VM :=
  { raw with stackSize := 0 }

/-- The function `mark`.  The second component of the result lists, in
execution order, the addresses at which `object->marked = 1` was executed. -/
def mark : Nat → Heap → Ptr → Res (Heap × List Ptr)
  | 0, _, _ => Res.timeout
  | fuel + 1, h, object =>
    match h object with
    | none => Res.fault
    | some o =>
      if o.marked ≠ 0 then Res.ok (h, [])
      else
        let h1 := upd h object (some { o with marked := 1 })
        if o.type = ObjectType.OBJ_PAIR then
          match mark fuel h1 o.head with
          | Res.ok (h2, t1) =>
            match h2 object with
            | none => Res.fault
            | some o2 =>
              match mark fuel h2 o2.tail with
              | Res.ok (h3, t2) => Res.ok (h3, object :: (t1 ++ t2))
              | Res.fault => Res.fault
              | Res.timeout => Res.timeout
          | Res.fault => Res.fault
          | Res.timeout => Res.timeout
        else Res.ok (h1, [object])

/-- The entries `stack[0] .. stack[stackSize-1]`, in loop order. -/
def roots (vm : VM) : List Ptr :=
  (List.range vm.stackSize).map vm.stack

/-- The loop of `markAll` over the root entries. -/
def markList (fuel : Nat) : List Ptr → Heap → Res (Heap × List Ptr)
  | [], h => Res.ok (h, [])
  | r :: rs, h =>
    match mark fuel h r with
    | Res.ok (h1, t1) =>
      match markList fuel rs h1 with
      | Res.ok (h2, t2) => Res.ok (h2, t1 ++ t2)
      | Res.fault => Res.fault
      | Res.timeout => Res.timeout
    | Res.fault => Res.fault
    | Res.timeout => Res.timeout

/-- The function `markAll`; the list is the log of flag assignments.  The message is
printed before the loop; `mark` prints nothing, so the console is the same. -/
def markAll (fuel : Nat) (vm : VM) : Res (VM × List Ptr) :=
  match markList fuel (roots vm) vm.heap with
  | Res.ok (h, t) =>
    Res.ok ({ vm with heap := h, out := vm.out ++ [Msg.markingObjects] }, t)
  | Res.fault => Res.fault
  | Res.timeout => Res.timeout

/-- What an `Object**` can point at: `&vm->firstObject` or `&p->next`. -/
inductive Loc where
  | first
  | next (p : Ptr)
deriving DecidableEq, Repr

/-- Read through an `Object**`. -/
def loadLoc (vm : VM) : Loc → Option Ptr
  | Loc.first => some vm.firstObject
  | Loc.next p =>
    match vm.heap p with
    | some o => some o.next
    | none => none

/-- Write through an `Object**`. -/
def storeLoc (vm : VM) (loc : Loc) (v : Ptr) : VM :=
  match loc with
  | Loc.first => { vm with firstObject := v }
  | Loc.next p =>
    match vm.heap p with
    | some o => { vm with heap := upd vm.heap p (some { o with next := v }) }
    | none => vm

/-- The `while` loop of `sweep`; `object` is the loop variable. -/
def sweepLoop : Nat → VM → Loc → Res VM
  | 0, _, _ => Res.timeout
  | fuel + 1, vm, object =>
    match loadLoc vm object with
    | none => Res.fault
    | some cur =>
      if cur = NULL then Res.ok vm
      else
        match vm.heap cur with
        | none => Res.fault
        | some o =>
          if o.marked = 0 then
            let vm1 := storeLoc vm object o.next
            sweepLoop fuel
              { vm1 with heap := upd vm1.heap cur none,
                         numObjects := wrapInt (vm1.numObjects - 1) }
              object
          else
            sweepLoop fuel
              { vm with heap := upd vm.heap cur (some { o with marked := 0 }) }
              (Loc.next cur)

/-- The function `sweep`. -/
def sweep (fuel : Nat) (vm : VM) : Res VM :=
  sweepLoop fuel vm Loc.first

/-- The function `gc`. -/
def gc (fuel : Nat) (vm : VM) : Res VM :=
  match markAll fuel { vm with out := vm.out ++ [Msg.enteringGc] } with
  | Res.ok (vm1, _) =>
    match sweep fuel vm1 with
    | Res.ok vm2 => Res.ok { vm2 with maxObjects := wrapInt (2 * vm2.numObjects) }
    | Res.fault => Res.fault
    | Res.timeout => Res.timeout
  | Res.fault => Res.fault
  | Res.timeout => Res.timeout

/-- The function `push`. -/
def push (vm : VM) (value : Ptr) : VM :=
  if vm.stackSize = STACK_MAX then
    { vm with out := vm.out ++ [Msg.stackOverflow] }
  else
    { vm with stack := fun i => if i = vm.stackSize then value else vm.stack i,
              stackSize := vm.stackSize + 1 }

/-- The function `pop`: the new state and the returned pointer. -/
def pop (vm : VM) : VM × Ptr :=
  if vm.stackSize = 0 then
    ({ vm with out := vm.out ++ [Msg.stackUnderflow] }, NULL)
  else
    ({ vm with stackSize := vm.stackSize - 1 }, vm.stack (vm.stackSize - 1))

/-- First statement of `newObject`: the collection run when the count has
reached the threshold.  The result is the state in which `malloc` is called. -/
def newObjectGc (fuel : Nat) (vm : VM) : Res VM :=
  if vm.numObjects = vm.maxObjects then
    gc fuel { vm with out := vm.out ++ [Msg.gcNeeded] }
  else Res.ok vm

/-- The statements of `newObject` after the collection test: `a` is the address
returned by `malloc` and `blk` the uninitialised contents of that block; the type
and mark flag are assigned and the block becomes the head of the registry. -/
def allocAt (vm : VM) (type : ObjectType) (a : Ptr) (blk : Object) : VM :=
  { vm with
      heap := upd vm.heap a
        (some { blk with type := type, marked := 0, next := vm.firstObject }),
      firstObject := a,
      numObjects := wrapInt (vm.numObjects + 1) }

/-- The function `newObject`: the collection test, then the allocation; returns
the new state and the address of the new object. -/
def newObject (fuel : Nat) (vm : VM) (type : ObjectType) (a : Ptr) (blk : Object) :
    Res (VM × Ptr) :=
  match newObjectGc fuel vm with
  | Res.ok vm1 => Res.ok (allocAt vm1 type a blk, a)
  | Res.fault => Res.fault
  | Res.timeout => Res.timeout

/-- Assignment `object->tail = v`. -/
def setTail (vm : VM) (object : Ptr) (v : Ptr) : Res VM :=
  match vm.heap object with
  | some o => Res.ok { vm with heap := upd vm.heap object (some { o with tail := v }) }
  | none => Res.fault

/-- Assignment `object->head = v`. -/
def setHead (vm : VM) (object : Ptr) (v : Ptr) : Res VM :=
  match vm.heap object with
  | some o => Res.ok { vm with heap := upd vm.heap object (some { o with head := v }) }
  | none => Res.fault

/-- Assignment `object->value = v`. -/
def setValue (vm : VM) (object : Ptr) (v : Int) : Res VM :=
  match vm.heap object with
  | some o => Res.ok { vm with heap := upd vm.heap object (some { o with value := v }) }
  | none => Res.fault

/-- The function `pushPair`. -/
def pushPair (fuel : Nat) (vm : VM) (a : Ptr) (blk : Object) : Res (VM × Ptr) :=
  match newObject fuel vm ObjectType.OBJ_PAIR a blk with
  | Res.ok (vm1, object) =>
    match setTail (pop vm1).1 object (pop vm1).2 with
    | Res.ok vm2 =>
      match setHead (pop vm2).1 object (pop vm2).2 with
      | Res.ok vm3 => Res.ok (push vm3 object, object)
      | Res.fault => Res.fault
      | Res.timeout => Res.timeout
    | Res.fault => Res.fault
    | Res.timeout => Res.timeout
  | Res.fault => Res.fault
  | Res.timeout => Res.timeout

/-- The function `pushINT`. -/
def pushINT (fuel : Nat) (vm : VM) (val : Int) (a : Ptr) (blk : Object) : Res VM :=
  match newObject fuel vm ObjectType.OBJ_INT a blk with
  | Res.ok (vm1, object) =>
    match setValue vm1 object val with
    | Res.ok vm2 => Res.ok (push vm2 object)
    | Res.fault => Res.fault
    | Res.timeout => Res.timeout
  | Res.fault => Res.fault
  | Res.timeout => Res.timeout

/-! ## Specification vocabulary -/

/-- Whether the object at `q` exists and has a non-zero mark flag. -/
def isMarked (h : Heap) (q : Ptr) : Bool :=
  match h q with
  | some o => o.marked != 0
  | none => false

/-- The heap `h` with the mark flag set to 1 on every object whose address is in `t`. -/
def markSet (h : Heap) (t : List Ptr) : Heap :=
  fun q => if q ∈ t then (h q).map (fun o => { o with marked := 1 }) else h q

/-- The list `l` is the sequence of addresses met when following `next` links
from `p` up to the terminating `NULL`. -/
def chain (h : Heap) : Ptr → List Ptr → Bool
  | p, [] => p == NULL
  | p, q :: l =>
    p == q && p != NULL &&
      match h p with
      | some o => chain h o.next l
      | none => false

/-- The heap registry of `vm` is the list `l` (from `firstObject` through `next`). -/
def Registry (vm : VM) (l : List Ptr) : Prop :=
  chain vm.heap vm.firstObject l = true

/-- Reachability from the roots `rs` through head/tail fields of pairs. -/
inductive Reach (h : Heap) (rs : List Ptr) : Ptr → Prop where
  | root (r : Ptr) : r ∈ rs → Reach h rs r
  | head (q : Ptr) (o : Object) :
      Reach h rs q → h q = some o → o.type = ObjectType.OBJ_PAIR → Reach h rs o.head
  | tail (q : Ptr) (o : Object) :
      Reach h rs q → h q = some o → o.type = ObjectType.OBJ_PAIR → Reach h rs o.tail

/-- Reachability from the root stack of `vm`. -/
def Reachable (vm : VM) (q : Ptr) : Prop :=
  Reach vm.heap (roots vm) q

/-- The head and tail of the object at `p`, when it is a pair, are in `l`. -/
def fieldsIn (h : Heap) (l : List Ptr) (p : Ptr) : Prop :=
  match h p with
  | some o => o.type = ObjectType.OBJ_PAIR → o.head ∈ l ∧ o.tail ∈ l
  | none => True

instance (h : Heap) (l : List Ptr) (p : Ptr) : Decidable (fieldsIn h l p) := by
  unfold fieldsIn
  split <;> infer_instance

/-- Well-formed machine state with registry `l`: the registry is a proper
null-terminated list, the stack is within its capacity, and every root entry
and every field of a registered pair refers to a registered object. -/
def WF (vm : VM) (l : List Ptr) : Prop :=
  Registry vm l ∧ vm.stackSize ≤ STACK_MAX ∧
  (∀ i, i < vm.stackSize → vm.stack i ∈ l) ∧
  (∀ p ∈ l, fieldsIn vm.heap l p)

instance (vm : VM) (l : List Ptr) : Decidable (WF vm l) := by
  unfold WF Registry
  infer_instance

/-- Every registered object has a clear mark flag. -/
def AllClear (vm : VM) (l : List Ptr) : Prop :=
  ∀ p ∈ l, isMarked vm.heap p = false

instance (vm : VM) (l : List Ptr) : Decidable (AllClear vm l) := by
  unfold AllClear
  infer_instance

/-- Same type tag and same payload (value, head and tail). -/
def samePayload (o o' : Object) : Prop :=
  o'.type = o.type ∧ o'.value = o.value ∧ o'.head = o.head ∧ o'.tail = o.tail

/-- The objects at `q` in `h` and `h'` both exist and agree on type and payload. -/
def keeps (h h' : Heap) (q : Ptr) : Prop :=
  ∃ o o', h q = some o ∧ h' q = some o' ∧ samePayload o o'

/-- Postcondition of a marking run from roots `rs` that logged `t`. -/
structure MarkPost (h : Heap) (rs : List Ptr) (h' : Heap) (t : List Ptr) : Prop where
  heap_eq : h' = markSet h t
  fresh : ∀ q ∈ t, isMarked h q = false
  valid : ∀ q ∈ t, (h q).isSome = true
  nodup : t.Nodup
  roots_marked : ∀ r ∈ rs, isMarked h' r = true
  closed : ∀ q ∈ t, ∀ o, h q = some o → o.type = ObjectType.OBJ_PAIR →
    isMarked h' o.head = true ∧ isMarked h' o.tail = true
  reach : ∀ q ∈ t, Reach h rs q

/-- Number of entries of `l` whose object is not marked. -/
def pending (h : Heap) (l : List Ptr) : Nat :=
  l.countP (fun q => !isMarked h q)

/-- Every address of `l` holds an object, and pair fields stay inside `l`. -/
def Valid (h : Heap) (l : List Ptr) : Prop :=
  ∀ q ∈ l, (h q).isSome = true ∧ fieldsIn h l q

/-- The counter after `k` executions of `vm->numObjects--`. -/
def decr : Nat → Int → Int
  | 0, n => n
  | k + 1, n => decr k (wrapInt (n - 1))

/-- Postcondition of the sweep loop started at `loc` in `vm`, where the list
hanging off `loc` is `l`. -/
structure SweepPost (vm : VM) (loc : Loc) (l : List Ptr) (vm' : VM) : Prop where
  stack_eq : vm'.stack = vm.stack
  stackSize_eq : vm'.stackSize = vm.stackSize
  maxObjects_eq : vm'.maxObjects = vm.maxObjects
  out_eq : vm'.out = vm.out
  numObjects_eq : vm'.numObjects = decr (pending vm.heap l) vm.numObjects
  chain_eq : ∃ p', loadLoc vm' loc = some p' ∧
    chain vm'.heap p' (l.filter (isMarked vm.heap)) = true
  first_eq : loc ≠ Loc.first → vm'.firstObject = vm.firstObject
  freed : ∀ q ∈ l, isMarked vm.heap q = false → vm'.heap q = none
  kept : ∀ q ∈ l, isMarked vm.heap q = true →
    ∃ o o', vm.heap q = some o ∧ vm'.heap q = some o' ∧ samePayload o o' ∧ o'.marked = 0
  frame : ∀ q, q ∉ l → loc ≠ Loc.next q → vm'.heap q = vm.heap q
  owner : ∀ q0, loc = Loc.next q0 →
    ∃ o o', vm.heap q0 = some o ∧ vm'.heap q0 = some o' ∧ o' = { o with next := o'.next }

/-- Postcondition of a collection started in the well-formed state `vm` with
registry `l`, ending in `vm'` with registry `l'`. -/
structure GcPost (vm : VM) (l : List Ptr) (vm' : VM) (l' : List Ptr) : Prop where
  stack_eq : vm'.stack = vm.stack
  stackSize_eq : vm'.stackSize = vm.stackSize
  out_eq : vm'.out = vm.out ++ [Msg.enteringGc, Msg.markingObjects]
  numObjects_eq : vm'.numObjects = decr (l.length - l'.length) vm.numObjects
  maxObjects_eq : vm'.maxObjects = wrapInt (2 * vm'.numObjects)
  registry : Registry vm' l'
  sublist : List.Sublist l' l
  mem_iff : ∀ q, q ∈ l' ↔ Reachable vm q
  kept : ∀ q ∈ l', ∃ o o', vm.heap q = some o ∧ vm'.heap q = some o' ∧
    samePayload o o' ∧ o'.marked = 0
  freed : ∀ q ∈ l, q ∉ l' → vm'.heap q = none
  frame : ∀ q, q ∉ l → vm'.heap q = vm.heap q
  wf : WF vm' l'
  clear : AllClear vm' l'
  reach_iff : ∀ q, Reachable vm' q ↔ Reachable vm q

/-! ## Sample machine states -/

/-- A heap with a rooted mutual cycle (3 and 7), a self-referencing pair (4)
and two pairs referencing each other (5 and 6). -/
def exHeap : Heap := fun p =>
  if p = 1 then some ⟨ObjectType.OBJ_INT, 0, 0, 10, 0, 0⟩
  else if p = 2 then some ⟨ObjectType.OBJ_INT, 0, 1, 20, 0, 0⟩
  else if p = 3 then some ⟨ObjectType.OBJ_PAIR, 0, 2, 0, 1, 7⟩
  else if p = 4 then some ⟨ObjectType.OBJ_PAIR, 0, 3, 0, 4, 4⟩
  else if p = 5 then some ⟨ObjectType.OBJ_PAIR, 0, 4, 0, 6, 1⟩
  else if p = 6 then some ⟨ObjectType.OBJ_PAIR, 0, 5, 0, 5, 2⟩
  else if p = 7 then some ⟨ObjectType.OBJ_PAIR, 0, 6, 0, 3, 2⟩
  else none

/-- A machine over `exHeap` whose stack holds the pair 3 and the integer 2, with the
object count at the collection threshold. -/
def exVM : VM where
  stack := fun i => if i = 0 then 3 else 2
  numObjects := 7
  maxObjects := 7
  stackSize := 2
  firstObject := 7
  heap := exHeap
  out := []

/-- The registry of `exVM`. -/
def exReg : List Ptr := [7, 6, 5, 4, 3, 2, 1]

/-- The machine `exVM` with an empty root stack. -/
def exVM0 : VM := { exVM with stackSize := 0 }

instance (vm : VM) (l : List Ptr) : Decidable (Registry vm l) := by
  unfold Registry
  infer_instance

instance (h : Heap) (l : List Ptr) : Decidable (Valid h l) := by
  unfold Valid
  infer_instance

/-- Whether a run ended by dereferencing a null or released pointer. -/
def Res.isFault {α : Type} : Res α → Bool
  | Res.fault => true
  | _ => false

/-- An uninitialised block as `malloc` may return it for a `VM`: arbitrary bytes in
every field. -/
def rawBlock : VM where
  stack := fun _ => 0
  numObjects := 5
  maxObjects := 5
  stackSize := 9
  firstObject := 7
  heap := fun _ => none
  out := []

/-- An uninitialised block as `malloc` may return it for an `Object`. -/
def blk0 : Object := ⟨ObjectType.OBJ_INT, 1, 99, 0, 77, 88⟩

/-- A machine with an empty root stack and an empty registry. -/
def emptyVM : VM where
  stack := fun _ => 0
  numObjects := 0
  maxObjects := 8
  stackSize := 0
  firstObject := NULL
  heap := fun _ => none
  out := []

/-- A machine whose root stack holds the single integer object 1. -/
def oneVM : VM where
  stack := fun _ => 1
  numObjects := 1
  maxObjects := 8
  stackSize := 1
  firstObject := 1
  heap := fun p => if p = 1 then some ⟨ObjectType.OBJ_INT, 0, 0, 10, 0, 0⟩ else none
  out := []

/-- A machine whose root stack is full (256 entries, all the integer object 1). -/
def fullVM : VM := { oneVM with stackSize := 256 }

/-- The sample machine with stale mark flags left on objects 4 and 1. -/
def staleVM : VM := { exVM with heap := markSet exHeap [4, 1] }

/-- The function `freeVM` up to, and not including, the final `free(vm)`: the
stack is emptied and a collection runs. -/
def freeVM (fuel : Nat) (vm : VM) : Res VM :=
  gc fuel { vm with stackSize := 0 }

/-- The sample machine with flags set on objects 6, 5, 3 and 2 only, so that the
first (7), an interior (4) and the last (1) registry entries are unmarked. -/
def sweepVM : VM := { exVM with heap := markSet exHeap [6, 5, 3, 2] }

/-- The sample machine with its two root entries in the other order. -/
def swapVM : VM := { exVM with stack := fun i => if i = 0 then 2 else 3 }

/-- A machine whose object count (1) is above its threshold (0), with the one
registered object not on the stack: the state reached from an empty machine with
threshold 0 by `pushINT` and `pop`. -/
def aboveVM : VM := { oneVM with maxObjects := 0, stackSize := 0 }

/-- A machine with an empty root stack, an empty registry and threshold `thr`. -/
def emptyWith (thr : Int) : VM := { emptyVM with maxObjects := thr }

/-- Calls a client makes on a machine; allocating calls carry what `malloc` returns,
and `setTail` is the direct field assignment `object->tail = v` used by `test4`. -/
inductive Op where
  | pushINT (val : Int) (a : Ptr) (blk : Object)
  | pushPair (a : Ptr) (blk : Object)
  | pop
  | gc
  | setTail (object : Ptr) (v : Ptr)

/-- One call. -/
def step (fuel : Nat) (vm : VM) : Op → Res VM
  | Op.pushINT val a blk => pushINT fuel vm val a blk
  | Op.pushPair a blk =>
    match pushPair fuel vm a blk with
    | Res.ok (vm', _) => Res.ok vm'
    | Res.fault => Res.fault
    | Res.timeout => Res.timeout
  | Op.pop => Res.ok (pop vm).1
  | Op.gc => gc fuel vm
  | Op.setTail object v => setTail vm object v

/-- A sequence of calls, left to right. -/
def run (fuel : Nat) : List Op → VM → Res VM
  | [], vm => Res.ok vm
  | op :: ops, vm =>
    match step fuel vm op with
    | Res.ok vm' => run fuel ops vm'
    | Res.fault => Res.fault
    | Res.timeout => Res.timeout

/-- Whether the call goes through `newObject`. -/
def Op.allocates : Op → Bool
  | Op.pushINT _ _ _ => true
  | Op.pushPair _ _ => true
  | _ => false

/-- Whether the call is one of `pushINT`, `pushPair`, `pop` (no explicit `gc`). -/
def Op.isStackOp : Op → Bool
  | Op.pushINT _ _ _ => true
  | Op.pushPair _ _ => true
  | Op.pop => true
  | _ => false

/-- A well-formed state with clear flags in which every registered object is
reachable from the root stack (nothing to collect). -/
def Tight (vm : VM) (l : List Ptr) : Prop :=
  WF vm l ∧ AllClear vm l ∧ ∀ q ∈ l, Reachable vm q

/-- The calls of `test4` between `newVM` and `freeVM`: the pairs are allocated at `p`
and `q`, the four integers at `a1 .. a4`. -/
def test4Ops (a1 a2 p a3 a4 q : Ptr) (b1 b2 b3 b4 b5 b6 : Object) : List Op :=
  [Op.pushINT 1 a1 b1, Op.pushINT 2 a2 b2, Op.pushPair p b3,
   Op.pushINT 3 a3 b4, Op.pushINT 4 a4 b5, Op.pushPair q b6,
   Op.setTail p q, Op.setTail q p, Op.gc]

/-- The calls of `test1` between `newVM` and `freeVM`. -/
def test1Ops (a1 a2 : Ptr) (b1 b2 : Object) : List Op :=
  [Op.pushINT 1 a1 b1, Op.pushINT 2 a2 b2, Op.gc]

/-- The calls of `test2` between `newVM` and `freeVM`. -/
def test2Ops (a1 a2 : Ptr) (b1 b2 : Object) : List Op :=
  [Op.pushINT 1 a1 b1, Op.pushINT 2 a2 b2, Op.pop, Op.pop, Op.gc]

/-- The calls `ops` issued from `vm` are among `pushINT`, `pushPair`, `pop` and `gc`,
`pushPair` is only called with at least two root entries, and every address returned
by `malloc` is non-null and free at the time of the call. -/
def Admissible (fuel : Nat) : List Op → VM → Prop
  | [], _ => True
  | op :: ops, vm =>
    (match op with
      | Op.pushINT _ a _ =>
        a ≠ NULL ∧ ∀ vm1, newObjectGc fuel vm = Res.ok vm1 → vm1.heap a = none
      | Op.pushPair a _ =>
        2 ≤ vm.stackSize ∧ a ≠ NULL ∧
          ∀ vm1, newObjectGc fuel vm = Res.ok vm1 → vm1.heap a = none
      | Op.pop => True
      | Op.gc => True
      | Op.setTail _ _ => False) ∧
    ∀ vm', step fuel vm op = Res.ok vm' → Admissible fuel ops vm'

/-! ## Marking -/

theorem markSet_nil (h : Heap) : markSet h [] = h := by
  funext q; simp [markSet]

theorem markSet_append (h : Heap) (t1 t2 : List Ptr) :
    markSet (markSet h t1) t2 = markSet h (t1 ++ t2) := by
  funext q
  by_cases h1 : q ∈ t1 <;> by_cases h2 : q ∈ t2 <;> simp [markSet, h1, h2]
  cases h q <;> rfl

theorem upd_mark_eq (h : Heap) (p : Ptr) (o : Object) (hp : h p = some o) :
    upd h p (some { o with marked := 1 }) = markSet h [p] := by
  funext q
  by_cases hq : q = p
  · subst hq; simp [upd, markSet, hp]
  · simp [upd, markSet, hq]

theorem isMarked_markSet (h : Heap) (t : List Ptr) (q : Ptr) :
    isMarked (markSet h t) q = (((h q).isSome && decide (q ∈ t)) || isMarked h q) := by
  by_cases hq : q ∈ t
  · cases hh : h q <;> simp [isMarked, markSet, hq, hh]
  · cases hh : h q <;> simp [isMarked, markSet, hq, hh]

theorem isMarked_mono (h : Heap) (t : List Ptr) (q : Ptr) (hm : isMarked h q = true) :
    isMarked (markSet h t) q = true := by
  rw [isMarked_markSet, hm]; simp

theorem isMarked_false_of_markSet (h : Heap) (t : List Ptr) (q : Ptr)
    (hm : isMarked (markSet h t) q = false) : isMarked h q = false := by
  cases hh : isMarked h q
  · rfl
  · rw [isMarked_mono h t q hh] at hm; exact hm

theorem markSet_isSome (h : Heap) (t : List Ptr) (q : Ptr) :
    (markSet h t q).isSome = (h q).isSome := by
  by_cases hq : q ∈ t <;> cases hh : h q <;> simp [markSet, hq, hh]

theorem markSet_some (h : Heap) (t : List Ptr) (q : Ptr) (o' : Object)
    (hq : markSet h t q = some o') :
    ∃ o, h q = some o ∧ o'.type = o.type ∧ o'.next = o.next ∧ o'.value = o.value ∧
      o'.head = o.head ∧ o'.tail = o.tail := by
  by_cases hm : q ∈ t
  · cases hh : h q with
    | none => simp [markSet, hm, hh] at hq
    | some o =>
      simp [markSet, hm, hh] at hq
      subst hq
      exact ⟨o, rfl, rfl, rfl, rfl, rfl, rfl⟩
  · simp [markSet, hm] at hq
    exact ⟨o', hq, rfl, rfl, rfl, rfl, rfl⟩

theorem markSet_some_of (h : Heap) (t : List Ptr) (q : Ptr) (o : Object)
    (hq : h q = some o) :
    ∃ o', markSet h t q = some o' ∧ o'.type = o.type ∧ o'.next = o.next ∧
      o'.value = o.value ∧ o'.head = o.head ∧ o'.tail = o.tail := by
  by_cases hm : q ∈ t
  · exact ⟨{ o with marked := 1 }, by simp [markSet, hm, hq], rfl, rfl, rfl, rfl, rfl⟩
  · exact ⟨o, by simp [markSet, hm, hq], rfl, rfl, rfl, rfl, rfl⟩

theorem Reach.mono_roots {h : Heap} {rs rs' : List Ptr} {q : Ptr}
    (hsub : ∀ r ∈ rs, Reach h rs' r) (hr : Reach h rs q) : Reach h rs' q := by
  induction hr with
  | root r hr => exact hsub r hr
  | head q o _ hq ht ih => exact Reach.head q o ih hq ht
  | tail q o _ hq ht ih => exact Reach.tail q o ih hq ht

theorem Reach.of_markSet {h : Heap} {t rs : List Ptr} {q : Ptr}
    (hr : Reach (markSet h t) rs q) : Reach h rs q := by
  induction hr with
  | root r hr => exact Reach.root r hr
  | head q o' _ hq ht ih =>
    obtain ⟨o, ho, hty, _, _, hhd, _⟩ := markSet_some h t q o' hq
    rw [hhd]; exact Reach.head q o ih ho (hty ▸ ht)
  | tail q o' _ hq ht ih =>
    obtain ⟨o, ho, hty, _, _, _, htl⟩ := markSet_some h t q o' hq
    rw [htl]; exact Reach.tail q o ih ho (hty ▸ ht)

theorem Reach.to_markSet {h : Heap} {rs : List Ptr} {q : Ptr} (t : List Ptr)
    (hr : Reach h rs q) : Reach (markSet h t) rs q := by
  induction hr with
  | root r hr => exact Reach.root r hr
  | head q o _ hq ht ih =>
    obtain ⟨o', ho, hty, _, _, hhd, _⟩ := markSet_some_of h t q o hq
    rw [← hhd]; exact Reach.head q o' ih ho (hty ▸ ht)
  | tail q o _ hq ht ih =>
    obtain ⟨o', ho, hty, _, _, _, htl⟩ := markSet_some_of h t q o hq
    rw [← htl]; exact Reach.tail q o' ih ho (hty ▸ ht)

theorem MarkPost.skip (h : Heap) (p : Ptr) (hm : isMarked h p = true) :
    MarkPost h [p] h [] where
  heap_eq := (markSet_nil h).symm
  fresh := by simp
  valid := by simp
  nodup := List.nodup_nil
  roots_marked := by simpa using hm
  closed := by simp
  reach := by simp

theorem MarkPost.seq {h h1 h2 : Heap} {rs1 rs2 t1 t2 : List Ptr}
    (m1 : MarkPost h rs1 h1 t1) (m2 : MarkPost h1 rs2 h2 t2) :
    MarkPost h (rs1 ++ rs2) h2 (t1 ++ t2) := by
  have e1 := m1.heap_eq
  have e2 := m2.heap_eq
  subst e1
  subst e2
  refine ⟨markSet_append h t1 t2, ?_, ?_, ?_, ?_, ?_, ?_⟩
  · intro q hq
    rcases List.mem_append.1 hq with hq | hq
    · exact m1.fresh q hq
    · exact isMarked_false_of_markSet h t1 q (m2.fresh q hq)
  · intro q hq
    rcases List.mem_append.1 hq with hq | hq
    · exact m1.valid q hq
    · rw [← markSet_isSome h t1 q]; exact m2.valid q hq
  · refine List.nodup_append.2 ⟨m1.nodup, m2.nodup, ?_⟩
    intro q hq1 hq2
    have hf := m2.fresh q hq2
    rw [isMarked_markSet, m1.valid q hq1] at hf
    simp [hq1] at hf
  · intro r hr
    rcases List.mem_append.1 hr with hr | hr
    · exact isMarked_mono _ t2 r (m1.roots_marked r hr)
    · exact m2.roots_marked r hr
  · intro q hq o ho hty
    rcases List.mem_append.1 hq with hq | hq
    · obtain ⟨a, b⟩ := m1.closed q hq o ho hty
      exact ⟨isMarked_mono _ t2 _ a, isMarked_mono _ t2 _ b⟩
    · obtain ⟨o', ho', hty', _, _, hhd, htl⟩ := markSet_some_of h t1 q o ho
      have := m2.closed q hq o' ho' (hty'.trans hty)
      rwa [hhd, htl] at this
  · intro q hq
    rcases List.mem_append.1 hq with hq | hq
    · exact Reach.mono_roots (fun r hr => Reach.root r (List.mem_append_left _ hr))
        (m1.reach q hq)
    · exact Reach.mono_roots (fun r hr => Reach.root r (List.mem_append_right _ hr))
        (Reach.of_markSet (m2.reach q hq))

theorem MarkPost.leaf (h : Heap) (p : Ptr) (o : Object) (hp : h p = some o)
    (hm : o.marked = 0) (hnp : o.type ≠ ObjectType.OBJ_PAIR) :
    MarkPost h [p] (markSet h [p]) [p] where
  heap_eq := rfl
  fresh := by simp [isMarked, hp, hm]
  valid := by simp [hp]
  nodup := List.nodup_singleton p
  roots_marked := by simp [isMarked_markSet, hp]
  closed := by
    intro q hq o' ho' hty
    simp at hq
    subst hq
    rw [hp] at ho'
    cases ho'
    exact absurd hty hnp
  reach := by
    intro q hq
    exact Reach.root q hq

theorem MarkPost.node {h h3 : Heap} {p : Ptr} {o : Object} {t : List Ptr}
    (hp : h p = some o) (hm : o.marked = 0) (hty : o.type = ObjectType.OBJ_PAIR)
    (m : MarkPost (markSet h [p]) [o.head, o.tail] h3 t) :
    MarkPost h [p] h3 (p :: t) := by
  have hpm : isMarked (markSet h [p]) p = true := by simp [isMarked_markSet, hp]
  have e := m.heap_eq
  subst e
  have hheap : markSet (markSet h [p]) t = markSet h (p :: t) := markSet_append h [p] t
  refine ⟨hheap, ?_, ?_, ?_, ?_, ?_, ?_⟩
  · intro q hq
    rcases List.mem_cons.1 hq with hq | hq
    · subst hq; simp [isMarked, hp, hm]
    · exact isMarked_false_of_markSet h [p] q (m.fresh q hq)
  · intro q hq
    rcases List.mem_cons.1 hq with hq | hq
    · subst hq; simp [hp]
    · rw [← markSet_isSome h [p] q]; exact m.valid q hq
  · refine List.nodup_cons.2 ⟨?_, m.nodup⟩
    intro hq
    have := m.fresh p hq
    rw [hpm] at this
    exact Bool.noConfusion this
  · intro r hr
    simp at hr
    subst hr
    exact isMarked_mono _ t r hpm
  · intro q hq o' ho' hty'
    rcases List.mem_cons.1 hq with hq | hq
    · subst hq
      rw [hp] at ho'
      cases ho'
      exact ⟨m.roots_marked _ (by simp), m.roots_marked _ (by simp)⟩
    · obtain ⟨o2, ho2, hty2, _, _, hhd, htl⟩ := markSet_some_of h [p] q o' ho'
      have := m.closed q hq o2 ho2 (hty2.trans hty')
      rwa [hhd, htl] at this
  · intro q hq
    rcases List.mem_cons.1 hq with hq | hq
    · subst hq; exact Reach.root q (by simp)
    · refine Reach.mono_roots ?_ (Reach.of_markSet (m.reach q hq))
      intro r hr
      simp at hr
      rcases hr with hr | hr
      · subst hr; exact Reach.head p o (Reach.root p (by simp)) hp hty
      · subst hr; exact Reach.tail p o (Reach.root p (by simp)) hp hty

theorem mark_post : ∀ (fuel : Nat) (h : Heap) (p : Ptr) (h' : Heap) (t : List Ptr),
    mark fuel h p = Res.ok (h', t) → MarkPost h [p] h' t := by
  intro fuel
  induction fuel with
  | zero => intro h p h' t hm; simp [mark] at hm
  | succ fuel ih =>
    intro h p h' t hm
    unfold mark at hm
    cases hp : h p with
    | none => simp [hp] at hm
    | some o =>
      simp only [hp] at hm
      by_cases hmk : o.marked = 0
      · simp only [hmk, ne_eq, not_true_eq_false, if_false] at hm
        rw [upd_mark_eq h p o hp] at hm
        by_cases hty : o.type = ObjectType.OBJ_PAIR
        · simp only [hty, if_true] at hm
          cases h1 : mark fuel (markSet h [p]) o.head with
          | fault => simp [h1] at hm
          | timeout => simp [h1] at hm
          | ok r1 =>
            obtain ⟨h2, t1⟩ := r1
            simp only [h1] at hm
            have m1 := ih _ _ _ _ h1
            obtain ⟨o2, ho2, _, _, _, _, htl⟩ := markSet_some_of h [p] p o hp
            have e1 := m1.heap_eq
            obtain ⟨o3, ho3, _, _, _, _, htl3⟩ := markSet_some_of (markSet h [p]) t1 p o2 ho2
            rw [← e1] at ho3
            simp only [ho3] at hm
            cases h2e : mark fuel h2 o3.tail with
            | fault => simp [h2e] at hm
            | timeout => simp [h2e] at hm
            | ok r2 =>
              obtain ⟨h3, t2⟩ := r2
              simp only [h2e, Res.ok.injEq, Prod.mk.injEq] at hm
              obtain ⟨e3, et⟩ := hm
              subst e3
              subst et
              have m2 := ih _ _ _ _ h2e
              rw [htl3, htl] at m2
              exact MarkPost.node hp hmk hty (MarkPost.seq m1 m2)
        · simp only [hty, if_false, Res.ok.injEq, Prod.mk.injEq] at hm
          obtain ⟨e3, et⟩ := hm
          subst e3
          subst et
          exact MarkPost.leaf h p o hp hmk hty
      · simp only [ne_eq, hmk, not_false_eq_true, if_true, Res.ok.injEq, Prod.mk.injEq] at hm
        obtain ⟨e3, et⟩ := hm
        subst e3
        subst et
        exact MarkPost.skip h p (by simp [isMarked, hp, hmk])

theorem markList_post : ∀ (fuel : Nat) (rs : List Ptr) (h h' : Heap) (t : List Ptr),
    markList fuel rs h = Res.ok (h', t) → MarkPost h rs h' t := by
  intro fuel rs
  induction rs with
  | nil =>
    intro h h' t hm
    simp only [markList, Res.ok.injEq, Prod.mk.injEq] at hm
    obtain ⟨e1, e2⟩ := hm
    subst e1
    subst e2
    exact ⟨(markSet_nil h).symm, by simp, by simp, List.nodup_nil, by simp, by simp, by simp⟩
  | cons r rs ih =>
    intro h h' t hm
    unfold markList at hm
    cases h1 : mark fuel h r with
    | fault => simp [h1] at hm
    | timeout => simp [h1] at hm
    | ok r1 =>
      obtain ⟨h1', t1⟩ := r1
      simp only [h1] at hm
      cases h2 : markList fuel rs h1' with
      | fault => simp [h2] at hm
      | timeout => simp [h2] at hm
      | ok r2 =>
        obtain ⟨h2', t2⟩ := r2
        simp only [h2, Res.ok.injEq, Prod.mk.injEq] at hm
        obtain ⟨e1, e2⟩ := hm
        subst e1
        subst e2
        exact MarkPost.seq (mark_post fuel h r h1' t1 h1) (ih h1' _ t2 h2)

/-! ## Termination of marking -/

theorem isMarked_congr {h h' : Heap} {q : Ptr} (e : h q = h' q) :
    isMarked h q = isMarked h' q := by
  simp [isMarked, e]

theorem pending_le_length (h : Heap) (l : List Ptr) : pending h l ≤ l.length :=
  List.countP_le_length _

theorem pending_markSet_le (h : Heap) (t l : List Ptr) :
    pending (markSet h t) l ≤ pending h l := by
  induction l with
  | nil => simp [pending]
  | cons q l ih =>
    simp only [pending, List.countP_cons] at *
    cases hq : isMarked h q
    · cases isMarked (markSet h t) q <;> simp <;> omega
    · rw [isMarked_mono h t q hq]; simpa using ih

theorem pending_markSet_lt (h : Heap) (p : Ptr) (l : List Ptr) (hp : p ∈ l)
    (hv : (h p).isSome = true) (hm : isMarked h p = false) :
    pending (markSet h [p]) l < pending h l := by
  induction l with
  | nil => simp at hp
  | cons q l ih =>
    have hle := pending_markSet_le h [p] l
    simp only [pending, List.countP_cons] at *
    by_cases hqp : q = p
    · subst hqp
      have : isMarked (markSet h [q]) q = true := by simp [isMarked_markSet, hv]
      rw [this, hm]; simp; omega
    · have hp' : p ∈ l := by
        rcases List.mem_cons.1 hp with e | e
        · exact absurd e.symm hqp
        · exact e
      have := ih hp'
      cases hq : isMarked h q
      · cases isMarked (markSet h [p]) q <;> simp <;> omega
      · rw [isMarked_mono h [p] q hq]; simpa using this

theorem Valid.marked {h : Heap} {l : List Ptr} (hv : Valid h l) (t : List Ptr) :
    Valid (markSet h t) l := by
  intro q hq
  obtain ⟨a, b⟩ := hv q hq
  refine ⟨by rw [markSet_isSome]; exact a, ?_⟩
  unfold fieldsIn at b ⊢
  cases hh : markSet h t q with
  | none => trivial
  | some o' =>
    obtain ⟨o, ho, hty, _, _, hhd, htl⟩ := markSet_some h t q o' hh
    simp only [ho] at b
    intro hp
    rw [hhd, htl]
    exact b (hty ▸ hp)

theorem Valid.fields {h : Heap} {l : List Ptr} (hv : Valid h l) {q : Ptr} {o : Object}
    (hq : q ∈ l) (ho : h q = some o) (hty : o.type = ObjectType.OBJ_PAIR) :
    o.head ∈ l ∧ o.tail ∈ l := by
  have := (hv q hq).2
  unfold fieldsIn at this
  simp only [ho] at this
  exact this hty

theorem mark_total (l : List Ptr) : ∀ (fuel : Nat) (h : Heap) (p : Ptr),
    Valid h l → p ∈ l → pending h l < fuel →
    ∃ t, mark fuel h p = Res.ok (markSet h t, t) := by
  intro fuel
  induction fuel with
  | zero => intro h p _ _ hf; omega
  | succ fuel ih =>
    intro h p hv hp hf
    unfold mark
    have hsome := (hv p hp).1
    cases hpo : h p with
    | none => simp [hpo] at hsome
    | some o =>
      simp only []
      by_cases hmk : o.marked = 0
      · simp only [hmk, ne_eq, not_true_eq_false, if_false]
        rw [upd_mark_eq h p o hpo]
        have hlt := pending_markSet_lt h p l hp hsome (by simp [isMarked, hpo, hmk])
        by_cases hty : o.type = ObjectType.OBJ_PAIR
        · simp only [hty, if_true]
          obtain ⟨hhd, htl⟩ := hv.fields hp hpo hty
          have hv1 := hv.marked [p]
          obtain ⟨t1, e1⟩ := ih (markSet h [p]) o.head hv1 hhd (by omega)
          simp only [e1]
          obtain ⟨o2, ho2, _, _, _, _, htl2⟩ := markSet_some_of h [p] p o hpo
          obtain ⟨o3, ho3, _, _, _, _, htl3⟩ := markSet_some_of (markSet h [p]) t1 p o2 ho2
          simp only [ho3]
          have hle := pending_markSet_le (markSet h [p]) t1 l
          obtain ⟨t2, e2⟩ := ih (markSet (markSet h [p]) t1) o3.tail (hv1.marked t1)
            (by rw [htl3, htl2]; exact htl) (by omega)
          simp only [e2]
          refine ⟨p :: (t1 ++ t2), ?_⟩
          rw [markSet_append, markSet_append]
          rfl
        · simp only [hty, if_false]
          exact ⟨[p], rfl⟩
      · simp only [ne_eq, hmk, not_false_eq_true, if_true]
        exact ⟨[], by rw [markSet_nil]⟩

theorem markList_total (l : List Ptr) (fuel : Nat) : ∀ (rs : List Ptr) (h : Heap),
    Valid h l → (∀ r ∈ rs, r ∈ l) → pending h l < fuel →
    ∃ t, markList fuel rs h = Res.ok (markSet h t, t) := by
  intro rs
  induction rs with
  | nil => intro h _ _ _; exact ⟨[], by simp [markList, markSet_nil]⟩
  | cons r rs ih =>
    intro h hv hrs hf
    unfold markList
    obtain ⟨t1, e1⟩ := mark_total l fuel h r hv (hrs r (by simp)) hf
    simp only [e1]
    have hle := pending_markSet_le h t1 l
    obtain ⟨t2, e2⟩ := ih (markSet h t1) (hv.marked t1)
      (fun x hx => hrs x (List.mem_cons_of_mem _ hx)) (by omega)
    simp only [e2]
    exact ⟨t1 ++ t2, by rw [markSet_append]⟩

/-! ## The registry list -/

theorem chain_nil_iff (h : Heap) (p : Ptr) : chain h p [] = true ↔ p = NULL := by
  simp [chain]

theorem chain_cons_iff (h : Heap) (p q : Ptr) (l : List Ptr) :
    chain h p (q :: l) = true ↔
      p = q ∧ p ≠ NULL ∧ ∃ o, h p = some o ∧ chain h o.next l = true := by
  cases hp : h p with
  | none => simp [chain, hp]
  | some o => simp [chain, hp, and_assoc]

theorem chain_congr {h h' : Heap} : ∀ (l : List Ptr) (p : Ptr),
    (∀ q ∈ l, ∃ o o', h q = some o ∧ h' q = some o' ∧ o'.next = o.next) →
    chain h p l = true → chain h' p l = true := by
  intro l
  induction l with
  | nil => intro p _ hc; simpa [chain] using hc
  | cons q l ih =>
    intro p hl hc
    rw [chain_cons_iff] at hc ⊢
    obtain ⟨e, hn, o, ho, hc⟩ := hc
    subst e
    obtain ⟨o1, o2, h1, h2, hnext⟩ := hl p (by simp)
    rw [ho] at h1
    cases h1
    refine ⟨rfl, hn, o2, h2, ?_⟩
    rw [hnext]
    exact ih _ (fun x hx => hl x (List.mem_cons_of_mem _ hx)) hc

theorem chain_congr_eq {h h' : Heap} (l : List Ptr) (p : Ptr)
    (hl : ∀ q ∈ l, h' q = h q) (hc : chain h p l = true) : chain h' p l = true := by
  induction l generalizing p with
  | nil => simpa [chain] using hc
  | cons q l ih =>
    rw [chain_cons_iff] at hc ⊢
    obtain ⟨e, hn, o, ho, hc⟩ := hc
    subst e
    exact ⟨rfl, hn, o, by rw [hl p (by simp)]; exact ho,
      ih _ (fun x hx => hl x (List.mem_cons_of_mem _ hx)) hc⟩

theorem chain_mem {h : Heap} : ∀ (l : List Ptr) (p q : Ptr),
    chain h p l = true → q ∈ l → q ≠ NULL ∧ (h q).isSome = true := by
  intro l
  induction l with
  | nil => intro p q _ hq; simp at hq
  | cons x l ih =>
    intro p q hc hq
    rw [chain_cons_iff] at hc
    obtain ⟨e, hn, o, ho, hc⟩ := hc
    subst e
    rcases List.mem_cons.1 hq with e | e
    · subst e; exact ⟨hn, by simp [ho]⟩
    · exact ih _ q hc e

theorem chain_unique {h : Heap} : ∀ (l l' : List Ptr) (p : Ptr),
    chain h p l = true → chain h p l' = true → l = l' := by
  intro l
  induction l with
  | nil =>
    intro l' p hc hc'
    rw [chain_nil_iff] at hc
    cases l' with
    | nil => rfl
    | cons x l' =>
      rw [chain_cons_iff] at hc'
      exact absurd hc hc'.2.1
  | cons x l ih =>
    intro l' p hc hc'
    rw [chain_cons_iff] at hc
    obtain ⟨e, hn, o, ho, hc⟩ := hc
    cases l' with
    | nil =>
      rw [chain_nil_iff] at hc'
      exact absurd hc' hn
    | cons y l' =>
      rw [chain_cons_iff] at hc'
      obtain ⟨e', _, o', ho', hc'⟩ := hc'
      rw [ho] at ho'
      cases ho'
      rw [← e, ← e', ih l' _ hc hc']

theorem chain_from_mem {h : Heap} : ∀ (l : List Ptr) (p q : Ptr),
    chain h p l = true → q ∈ l →
    ∃ l2, chain h q l2 = true ∧ l2.length ≤ l.length := by
  intro l
  induction l with
  | nil => intro p q _ hq; simp at hq
  | cons x l ih =>
    intro p q hc hq
    have hc0 := hc
    rw [chain_cons_iff] at hc
    obtain ⟨e, hn, o, ho, hc⟩ := hc
    subst e
    rcases List.mem_cons.1 hq with e | e
    · subst e; exact ⟨q :: l, hc0, le_refl _⟩
    · obtain ⟨l2, h2, hlen⟩ := ih _ q hc e
      exact ⟨l2, h2, by simp; omega⟩

theorem chain_nodup {h : Heap} : ∀ (l : List Ptr) (p : Ptr),
    chain h p l = true → l.Nodup := by
  intro l
  induction l with
  | nil => intro _ _; exact List.nodup_nil
  | cons x l ih =>
    intro p hc
    have hc0 := hc
    rw [chain_cons_iff] at hc
    obtain ⟨e, hn, o, ho, hc⟩ := hc
    subst e
    refine List.nodup_cons.2 ⟨?_, ih _ hc⟩
    intro hmem
    obtain ⟨l2, h2, hlen⟩ := chain_from_mem l _ p hc hmem
    have := chain_unique _ _ _ h2 hc0
    subst this
    simp at hlen

/-! ## Sweeping -/

@[simp] theorem storeLoc_stack (vm : VM) (loc : Loc) (v : Ptr) :
    (storeLoc vm loc v).stack = vm.stack := by
  cases loc with
  | first => rfl
  | next p => simp only [storeLoc]; split <;> rfl

@[simp] theorem storeLoc_stackSize (vm : VM) (loc : Loc) (v : Ptr) :
    (storeLoc vm loc v).stackSize = vm.stackSize := by
  cases loc with
  | first => rfl
  | next p => simp only [storeLoc]; split <;> rfl

@[simp] theorem storeLoc_maxObjects (vm : VM) (loc : Loc) (v : Ptr) :
    (storeLoc vm loc v).maxObjects = vm.maxObjects := by
  cases loc with
  | first => rfl
  | next p => simp only [storeLoc]; split <;> rfl

@[simp] theorem storeLoc_numObjects (vm : VM) (loc : Loc) (v : Ptr) :
    (storeLoc vm loc v).numObjects = vm.numObjects := by
  cases loc with
  | first => rfl
  | next p => simp only [storeLoc]; split <;> rfl

@[simp] theorem storeLoc_out (vm : VM) (loc : Loc) (v : Ptr) :
    (storeLoc vm loc v).out = vm.out := by
  cases loc with
  | first => rfl
  | next p => simp only [storeLoc]; split <;> rfl

theorem storeLoc_firstObject (vm : VM) (loc : Loc) (v : Ptr) (hl : loc ≠ Loc.first) :
    (storeLoc vm loc v).firstObject = vm.firstObject := by
  cases loc with
  | first => exact absurd rfl hl
  | next p => simp only [storeLoc]; split <;> rfl

theorem storeLoc_heap_other (vm : VM) (loc : Loc) (v : Ptr) (q : Ptr)
    (hq : loc ≠ Loc.next q) : (storeLoc vm loc v).heap q = vm.heap q := by
  cases loc with
  | first => rfl
  | next p =>
    have hne : q ≠ p := fun e => hq (by rw [e])
    simp only [storeLoc]
    split
    · simp [upd, hne]
    · rfl

theorem storeLoc_heap_owner (vm : VM) (q0 : Ptr) (v : Ptr) (o : Object)
    (ho : vm.heap q0 = some o) :
    (storeLoc vm (Loc.next q0) v).heap q0 = some { o with next := v } := by
  simp [storeLoc, ho, upd]

theorem loadLoc_storeLoc (vm : VM) (loc : Loc) (v p : Ptr) (hl : loadLoc vm loc = some p) :
    loadLoc (storeLoc vm loc v) loc = some v := by
  cases loc with
  | first => rfl
  | next q0 =>
    cases ho : vm.heap q0 with
    | none => simp [loadLoc, ho] at hl
    | some o => simp [loadLoc, storeLoc_heap_owner vm q0 v o ho]

theorem loadLoc_congr (vm vm' : VM) (loc : Loc)
    (hf : loc = Loc.first → vm'.firstObject = vm.firstObject)
    (hh : ∀ q0, loc = Loc.next q0 → vm'.heap q0 = vm.heap q0) :
    loadLoc vm' loc = loadLoc vm loc := by
  cases loc with
  | first => simp [loadLoc, hf rfl]
  | next q0 => simp [loadLoc, hh q0 rfl]

theorem loadLoc_owner (vm : VM) (q0 p : Ptr) (hl : loadLoc vm (Loc.next q0) = some p) :
    ∃ o, vm.heap q0 = some o ∧ o.next = p := by
  cases ho : vm.heap q0 with
  | none => simp [loadLoc, ho] at hl
  | some o => simp [loadLoc, ho] at hl; exact ⟨o, rfl, hl⟩

theorem pending_congr {h h' : Heap} (l : List Ptr) (hl : ∀ q ∈ l, h' q = h q) :
    pending h' l = pending h l := by
  unfold pending
  apply List.countP_congr
  intro q hq
  rw [isMarked_congr (hl q hq)]

theorem filter_isMarked_congr {h h' : Heap} (l : List Ptr) (hl : ∀ q ∈ l, h' q = h q) :
    l.filter (isMarked h') = l.filter (isMarked h) := by
  apply List.filter_congr
  intro q hq
  rw [isMarked_congr (hl q hq)]

theorem sweepLoop_nil (fuel : Nat) (vm : VM) (loc : Loc) (p : Ptr)
    (hload : loadLoc vm loc = some p) (hc : chain vm.heap p [] = true) (hf : 0 < fuel) :
    ∃ vm', sweepLoop fuel vm loc = Res.ok vm' ∧ SweepPost vm loc [] vm' := by
  cases fuel with
  | zero => omega
  | succ f =>
    have hp : p = NULL := (chain_nil_iff _ _).1 hc
    refine ⟨vm, by simp [sweepLoop, hload, hp], ?_⟩
    refine ⟨rfl, rfl, rfl, rfl, by simp [pending, decr], ⟨p, hload, by simpa using hc⟩,
      fun _ => rfl, by simp, by simp, fun _ _ _ => rfl, ?_⟩
    intro q0 e
    subst e
    obtain ⟨o, ho, _⟩ := loadLoc_owner vm q0 p hload
    exact ⟨o, o, ho, ho, rfl⟩

theorem SweepPost.free_step {vm vm' : VM} {loc : Loc} {p : Ptr} {o : Object} {l1 : List Ptr}
    (hload : loadLoc vm loc = some p) (hp : vm.heap p = some o) (hm : o.marked = 0)
    (hpl : p ∉ l1) (hown : ∀ q0, loc = Loc.next q0 → q0 ∉ p :: l1)
    (post : SweepPost
      { storeLoc vm loc o.next with
        heap := upd (storeLoc vm loc o.next).heap p none,
        numObjects := wrapInt ((storeLoc vm loc o.next).numObjects - 1) } loc l1 vm') :
    SweepPost vm loc (p :: l1) vm' := by
  have hlocp : loc ≠ Loc.next p := fun e => hown p e (by simp)
  have hheap : ∀ q, q ≠ p → loc ≠ Loc.next q →
      upd (storeLoc vm loc o.next).heap p none q = vm.heap q := by
    intro q hq hl
    simp only [upd, hq, if_false]
    exact storeLoc_heap_other vm loc _ q hl
  have hheapl : ∀ q ∈ l1, upd (storeLoc vm loc o.next).heap p none q = vm.heap q := by
    intro q hq
    refine hheap q (fun e => hpl (e ▸ hq)) ?_
    intro e
    exact hown q e (List.mem_cons_of_mem _ hq)
  have hpm : isMarked vm.heap p = false := by simp [isMarked, hp, hm]
  obtain ⟨e1, e2, e3, e4, e5, e6, e7, e8, e9, e10, e11⟩ := post
  simp only [storeLoc_stack, storeLoc_stackSize, storeLoc_maxObjects, storeLoc_out,
    storeLoc_numObjects] at e1 e2 e3 e4 e5
  refine ⟨e1, e2, e3, e4, ?_, ?_, ?_, ?_, ?_, ?_, ?_⟩
  · rw [e5, pending_congr l1 hheapl]
    simp [pending, List.countP_cons, hpm, decr]
  · obtain ⟨p', hl', hc'⟩ := e6
    refine ⟨p', hl', ?_⟩
    rw [filter_isMarked_congr l1 hheapl] at hc'
    simpa [List.filter_cons, hpm] using hc'
  · intro hl
    rw [e7 hl]
    exact storeLoc_firstObject vm loc _ hl
  · intro q hq hmq
    rcases List.mem_cons.1 hq with e | e
    · subst e
      rw [e10 q hpl hlocp]
      simp [upd]
    · exact e8 q e (by rw [isMarked_congr (hheapl q e)]; exact hmq)
  · intro q hq hmq
    rcases List.mem_cons.1 hq with e | e
    · subst e; rw [hpm] at hmq; exact Bool.noConfusion hmq
    · obtain ⟨o1, o2, h1, h2, h3⟩ := e9 q e (by rw [isMarked_congr (hheapl q e)]; exact hmq)
      exact ⟨o1, o2, by rw [← hheapl q e]; exact h1, h2, h3⟩
  · intro q hq hl
    rw [e10 q (fun hq1 => hq (List.mem_cons_of_mem _ hq1)) hl]
    exact hheap q (fun e => hq (by simp [e])) hl
  · intro q0 e
    obtain ⟨o1, o2, h1, h2, h3⟩ := e11 q0 e
    subst e
    obtain ⟨oq, hoq, _⟩ := loadLoc_owner vm q0 p hload
    have hne : q0 ≠ p := fun e => hlocp (by rw [e])
    simp only [upd, hne, if_false] at h1
    rw [storeLoc_heap_owner vm q0 _ oq hoq] at h1
    cases h1
    exact ⟨oq, o2, hoq, h2, h3⟩

theorem SweepPost.keep_step {vm vm' : VM} {loc : Loc} {p : Ptr} {o : Object} {l1 : List Ptr}
    (hload : loadLoc vm loc = some p) (hp : vm.heap p = some o) (hm : o.marked ≠ 0)
    (hnull : p ≠ NULL)
    (hpl : p ∉ l1) (hown : ∀ q0, loc = Loc.next q0 → q0 ∉ p :: l1)
    (post : SweepPost
      { vm with heap := upd vm.heap p (some { o with marked := 0 }) } (Loc.next p) l1 vm') :
    SweepPost vm loc (p :: l1) vm' := by
  have hlocp : loc ≠ Loc.next p := fun e => hown p e (by simp)
  have hheap : ∀ q, q ≠ p → upd vm.heap p (some { o with marked := 0 }) q = vm.heap q := by
    intro q hq
    simp only [upd, hq, if_false]
  have hheapl : ∀ q ∈ l1, upd vm.heap p (some { o with marked := 0 }) q = vm.heap q :=
    fun q hq => hheap q (fun e => hpl (e ▸ hq))
  have hpm : isMarked vm.heap p = true := by simp [isMarked, hp, hm]
  obtain ⟨e1, e2, e3, e4, e5, e6, e7, e8, e9, e10, e11⟩ := post
  simp only at e1 e2 e3 e4 e5
  obtain ⟨o1, o2, h1, h2, h3⟩ := e11 p rfl
  simp only [upd, if_true] at h1
  cases h1
  have hfirst : vm'.firstObject = vm.firstObject := e7 (by simp)
  have hother : ∀ q, q ∉ l1 → q ≠ p → vm'.heap q = vm.heap q := by
    intro q hq hne
    rw [e10 q hq (by simpa using hne.symm)]
    exact hheap q hne
  refine ⟨e1, e2, e3, e4, ?_, ?_, ?_, ?_, ?_, ?_, ?_⟩
  · rw [e5, pending_congr l1 hheapl]
    simp [pending, List.countP_cons, hpm]
  · refine ⟨p, ?_, ?_⟩
    · rw [← hload]
      apply loadLoc_congr
      · intro _; exact hfirst
      · intro q0 e
        have hq0 := hown q0 e
        exact hother q0 (fun h => hq0 (List.mem_cons_of_mem _ h)) (fun h => hq0 (by simp [h]))
    · obtain ⟨p', hl', hc'⟩ := e6
      rw [filter_isMarked_congr l1 hheapl] at hc'
      simp only [List.filter_cons, hpm, if_true]
      rw [chain_cons_iff]
      refine ⟨rfl, hnull, o2, h2, ?_⟩
      simp only [loadLoc, h2, Option.some.injEq] at hl'
      rw [hl']
      exact hc'
  · intro _; exact hfirst
  · intro q hq hmq
    rcases List.mem_cons.1 hq with e | e
    · subst e; rw [hpm] at hmq; exact Bool.noConfusion hmq
    · exact e8 q e (by rw [isMarked_congr (hheapl q e)]; exact hmq)
  · intro q hq hmq
    rcases List.mem_cons.1 hq with e | e
    · subst e
      refine ⟨o, o2, hp, h2, ?_, ?_⟩
      · rw [h3]; exact ⟨rfl, rfl, rfl, rfl⟩
      · rw [h3]
    · obtain ⟨o3, o4, h4, h5, h6⟩ := e9 q e (by rw [isMarked_congr (hheapl q e)]; exact hmq)
      exact ⟨o3, o4, by rw [← hheapl q e]; exact h4, h5, h6⟩
  · intro q hq _
    exact hother q (fun h => hq (List.mem_cons_of_mem _ h)) (fun h => hq (by simp [h]))
  · intro q0 e
    have hq0 := hown q0 e
    obtain ⟨oq, hoq, _⟩ := loadLoc_owner vm q0 p (e ▸ hload)
    refine ⟨oq, oq, hoq, ?_, rfl⟩
    rw [hother q0 (fun h => hq0 (List.mem_cons_of_mem _ h)) (fun h => hq0 (by simp [h]))]
    exact hoq

theorem sweepLoop_spec : ∀ (l : List Ptr) (fuel : Nat) (vm : VM) (loc : Loc) (p : Ptr),
    loadLoc vm loc = some p → chain vm.heap p l = true →
    (∀ q0, loc = Loc.next q0 → q0 ∉ l) → l.length < fuel →
    ∃ vm', sweepLoop fuel vm loc = Res.ok vm' ∧ SweepPost vm loc l vm' := by
  intro l
  induction l with
  | nil =>
    intro fuel vm loc p hload hc _ hf
    exact sweepLoop_nil fuel vm loc p hload hc (by simpa using hf)
  | cons x l1 ih =>
    intro fuel vm loc p hload hc hown hf
    have hnd := chain_nodup _ _ hc
    rw [chain_cons_iff] at hc
    obtain ⟨e, hnull, o, hp, hc1⟩ := hc
    subst e
    have hpl : p ∉ l1 := (List.nodup_cons.1 hnd).1
    cases fuel with
    | zero => omega
    | succ f =>
      have hf1 : l1.length < f := by simp at hf; omega
      unfold sweepLoop
      simp only [hload, hnull, if_false, hp]
      have hlocp : loc ≠ Loc.next p := fun e => hown p e (by simp)
      by_cases hm : o.marked = 0
      · simp only [hm, if_true]
        have hl2 : loadLoc
            { storeLoc vm loc o.next with
              heap := upd (storeLoc vm loc o.next).heap p none,
              numObjects := wrapInt ((storeLoc vm loc o.next).numObjects - 1) } loc
            = some o.next := by
          rw [← loadLoc_storeLoc vm loc o.next p hload]
          apply loadLoc_congr
          · intro _; rfl
          · intro q0 e
            have hne : q0 ≠ p := fun h => hlocp (by rw [e, h])
            simp [upd, hne]
        have hc2 : chain (upd (storeLoc vm loc o.next).heap p none) o.next l1 = true := by
          apply chain_congr_eq l1 _ _ hc1
          intro q hq
          have hne : q ≠ p := fun e => hpl (e ▸ hq)
          simp only [upd, hne, if_false]
          exact storeLoc_heap_other vm loc _ q
            (fun e => hown q e (List.mem_cons_of_mem _ hq))
        obtain ⟨vm', hrun, post⟩ := ih f _ loc o.next hl2 hc2
          (fun q0 e h => hown q0 e (List.mem_cons_of_mem _ h)) hf1
        exact ⟨vm', hrun, SweepPost.free_step hload hp hm hpl hown post⟩
      · simp only [hm, if_false]
        have hl2 : loadLoc { vm with heap := upd vm.heap p (some { o with marked := 0 }) }
            (Loc.next p) = some o.next := by
          simp [loadLoc, upd]
        have hc2 : chain (upd vm.heap p (some { o with marked := 0 })) o.next l1 = true := by
          apply chain_congr_eq l1 _ _ hc1
          intro q hq
          have hne : q ≠ p := fun e => hpl (e ▸ hq)
          simp only [upd, hne, if_false]
        obtain ⟨vm', hrun, post⟩ := ih f _ (Loc.next p) o.next hl2 hc2
          (fun q0 e h => by cases e; exact hpl h) hf1
        exact ⟨vm', hrun, SweepPost.keep_step hload hp hm hnull hpl hown post⟩

/-! ## The collection cycle -/

theorem mem_roots (vm : VM) (r : Ptr) :
    r ∈ roots vm ↔ ∃ i, i < vm.stackSize ∧ vm.stack i = r := by
  simp [roots]

theorem WF.valid {vm : VM} {l : List Ptr} (hw : WF vm l) : Valid vm.heap l := by
  intro q hq
  exact ⟨(chain_mem l _ q hw.1 hq).2, hw.2.2.2 q hq⟩

theorem WF.roots_in {vm : VM} {l : List Ptr} (hw : WF vm l) : ∀ r ∈ roots vm, r ∈ l := by
  intro r hr
  obtain ⟨i, hi, e⟩ := (mem_roots vm r).1 hr
  exact e ▸ hw.2.2.1 i hi

theorem WF.reach_in {vm : VM} {l : List Ptr} (hw : WF vm l) {q : Ptr}
    (hr : Reachable vm q) : q ∈ l := by
  induction hr with
  | root r hr => exact hw.roots_in r hr
  | head q o _ hq ht ih => exact (hw.valid.fields ih hq ht).1
  | tail q o _ hq ht ih => exact (hw.valid.fields ih hq ht).2

theorem marked_iff_logged {h : Heap} {l t : List Ptr} (hc : ∀ q ∈ l, isMarked h q = false)
    {q : Ptr} (hq : q ∈ l) (hm : isMarked (markSet h t) q = true) : q ∈ t := by
  rw [isMarked_markSet, hc q hq] at hm
  simp at hm
  exact hm.2

theorem reach_logged {vm : VM} {l t : List Ptr} (hw : WF vm l) (hc : AllClear vm l)
    (mp : MarkPost vm.heap (roots vm) (markSet vm.heap t) t) {q : Ptr}
    (hr : Reachable vm q) : q ∈ t := by
  induction hr with
  | root r hr => exact marked_iff_logged hc (hw.roots_in r hr) (mp.roots_marked r hr)
  | head q o hq0 hq ht ih =>
    exact marked_iff_logged hc (hw.reach_in (Reach.head q o hq0 hq ht))
      (mp.closed q ih o hq ht).1
  | tail q o hq0 hq ht ih =>
    exact marked_iff_logged hc (hw.reach_in (Reach.tail q o hq0 hq ht))
      (mp.closed q ih o hq ht).2

theorem markAll_spec {vm : VM} {l : List Ptr} {fuel : Nat} (hw : WF vm l)
    (hf : l.length < fuel) :
    ∃ t, markAll fuel vm =
        Res.ok ({ vm with heap := markSet vm.heap t,
                          out := vm.out ++ [Msg.markingObjects] }, t) ∧
      MarkPost vm.heap (roots vm) (markSet vm.heap t) t := by
  obtain ⟨t, ht⟩ := markList_total l fuel (roots vm) vm.heap hw.valid hw.roots_in
    (lt_of_le_of_lt (pending_le_length _ _) hf)
  exact ⟨t, by simp [markAll, ht], markList_post _ _ _ _ _ ht⟩

theorem chain_markSet {h : Heap} (t l : List Ptr) (p : Ptr) (hc : chain h p l = true) :
    chain (markSet h t) p l = true := by
  apply chain_congr l p _ hc
  intro q hq
  have := (chain_mem l p q hc hq).2
  cases ho : h q with
  | none => simp [ho] at this
  | some o =>
    obtain ⟨o', ho', _, hn, _⟩ := markSet_some_of h t q o ho
    exact ⟨o, o', rfl, ho', hn⟩

theorem length_sub_filter (l : List Ptr) (f : Ptr → Bool) :
    l.countP (fun q => !f q) = l.length - (l.filter f).length := by
  have := List.length_eq_countP_add_countP f l
  rw [← List.countP_eq_length_filter]
  have e : (fun q => !f q) = (fun a => decide ¬f a = true) := by
    funext q; cases f q <;> simp
  rw [e]
  omega

theorem gc_spec {vm : VM} {l : List Ptr} {fuel : Nat} (hw : WF vm l) (hc : AllClear vm l)
    (hf : l.length < fuel) :
    ∃ vm' l', gc fuel vm = Res.ok vm' ∧ GcPost vm l vm' l' := by
  have hw0 : WF { vm with out := vm.out ++ [Msg.enteringGc] } l := hw
  obtain ⟨t, hmark, mp⟩ := markAll_spec hw0 hf
  have mp : MarkPost vm.heap (roots vm) (markSet vm.heap t) t := mp
  have hchain : chain (markSet vm.heap t) vm.firstObject l = true :=
    chain_markSet t l _ hw.1
  obtain ⟨vm2, hsweep, sp⟩ := sweepLoop_spec l fuel
    { vm with heap := markSet vm.heap t,
              out := vm.out ++ [Msg.enteringGc] ++ [Msg.markingObjects] }
    Loc.first vm.firstObject rfl hchain (by simp) hf
  have hlog : ∀ q, q ∈ t ↔ Reachable vm q :=
    fun q => ⟨mp.reach q, reach_logged hw hc mp⟩
  have hmk : ∀ q ∈ l, (isMarked (markSet vm.heap t) q = true ↔ Reachable vm q) := by
    intro q hq
    constructor
    · intro hm; exact (hlog q).1 (marked_iff_logged hc hq hm)
    · intro hr
      rw [isMarked_markSet, (hw.valid q hq).1]
      simp [(hlog q).2 hr]
  have hmem : ∀ q, q ∈ l.filter (isMarked (markSet vm.heap t)) ↔ Reachable vm q := by
    intro q
    rw [List.mem_filter]
    constructor
    · rintro ⟨hq, hm⟩; exact (hmk q hq).1 hm
    · intro hr; exact ⟨hw.reach_in hr, (hmk q (hw.reach_in hr)).2 hr⟩
  obtain ⟨p', hp', hreg⟩ := sp.chain_eq
  simp only [loadLoc, Option.some.injEq] at hp'
  subst hp'
  have hkept : ∀ q ∈ l.filter (isMarked (markSet vm.heap t)),
      ∃ o o', vm.heap q = some o ∧ vm2.heap q = some o' ∧ samePayload o o' ∧
        o'.marked = 0 := by
    intro q hq
    obtain ⟨hql, hm⟩ := List.mem_filter.1 hq
    obtain ⟨o1, o', h1, h2, h3, h4⟩ := sp.kept q hql hm
    obtain ⟨o, ho, a, _, b, c, d⟩ := markSet_some vm.heap t q o1 h1
    exact ⟨o, o', ho, h2, ⟨h3.1.trans a, h3.2.1.trans b, h3.2.2.1.trans c,
      h3.2.2.2.trans d⟩, h4⟩
  have hreach : ∀ q, Reach vm2.heap (roots vm) q ↔ Reachable vm q := by
    intro q
    constructor
    · intro hr
      induction hr with
      | root r hr => exact Reach.root r hr
      | head q o' _ hq ht ih =>
        obtain ⟨o, o2, h1, h2, h3, _⟩ := hkept q ((hmem q).2 ih)
        rw [hq] at h2
        cases h2
        rw [h3.2.2.1]
        exact Reach.head q o ih h1 (h3.1 ▸ ht)
      | tail q o' _ hq ht ih =>
        obtain ⟨o, o2, h1, h2, h3, _⟩ := hkept q ((hmem q).2 ih)
        rw [hq] at h2
        cases h2
        rw [h3.2.2.2]
        exact Reach.tail q o ih h1 (h3.1 ▸ ht)
    · intro hr
      induction hr with
      | root r hr => exact Reach.root r hr
      | head q o hq0 hq ht ih =>
        obtain ⟨o1, o2, h1, h2, h3, _⟩ := hkept q ((hmem q).2 hq0)
        rw [hq] at h1
        cases h1
        rw [← h3.2.2.1]
        exact Reach.head q o2 ih h2 (h3.1.symm ▸ ht)
      | tail q o hq0 hq ht ih =>
        obtain ⟨o1, o2, h1, h2, h3, _⟩ := hkept q ((hmem q).2 hq0)
        rw [hq] at h1
        cases h1
        rw [← h3.2.2.2]
        exact Reach.tail q o2 ih h2 (h3.1.symm ▸ ht)
  have hroots : roots { vm2 with maxObjects := wrapInt (2 * vm2.numObjects) } = roots vm := by
    simp [roots, sp.stack_eq, sp.stackSize_eq]
  refine ⟨{ vm2 with maxObjects := wrapInt (2 * vm2.numObjects) },
    l.filter (isMarked (markSet vm.heap t)), ?_, ?_⟩
  · have hmark2 : markAll fuel { vm with out := vm.out ++ [Msg.enteringGc] } =
        Res.ok ({ vm with heap := markSet vm.heap t,
                          out := vm.out ++ [Msg.enteringGc] ++ [Msg.markingObjects] }, t) :=
      hmark
    simp only [gc, hmark2, sweep, hsweep]
  · refine ⟨sp.stack_eq, sp.stackSize_eq, ?_, ?_, rfl, hreg, List.filter_sublist _, hmem,
      hkept, ?_, ?_, ⟨hreg, ?_, ?_, ?_⟩, ?_, ?_⟩
    · simp [sp.out_eq]
    · have := sp.numObjects_eq
      simp only [pending] at this
      rw [length_sub_filter] at this
      exact this
    · intro q hq hnq
      apply sp.freed q hq
      cases hm : isMarked (markSet vm.heap t) q
      · rfl
      · exact absurd (List.mem_filter.2 ⟨hq, hm⟩) hnq
    · intro q hq
      have h1 : vm2.heap q = markSet vm.heap t q := sp.frame q hq (by simp)
      have h2 : q ∉ t := fun h => hq (hw.reach_in ((hlog q).1 h))
      show vm2.heap q = vm.heap q
      rw [h1]
      simp [markSet, h2]
    · show vm2.stackSize ≤ STACK_MAX
      rw [sp.stackSize_eq]; exact hw.2.1
    · intro i hi
      have hi' : i < vm.stackSize := by
        have : vm2.stackSize = vm.stackSize := sp.stackSize_eq
        exact this ▸ hi
      show vm2.stack i ∈ _
      rw [sp.stack_eq]
      exact (hmem _).2 (Reach.root _ ((mem_roots vm _).2 ⟨i, hi', rfl⟩))
    · intro q hq
      obtain ⟨o, o', h1, h2, h3, _⟩ := hkept q hq
      show fieldsIn vm2.heap _ q
      unfold fieldsIn
      simp only [h2]
      intro hty
      rw [h3.2.2.1, h3.2.2.2]
      have hr := (hmem q).1 hq
      have hty' : o.type = ObjectType.OBJ_PAIR := h3.1 ▸ hty
      exact ⟨(hmem _).2 (Reach.head q o hr h1 hty'), (hmem _).2 (Reach.tail q o hr h1 hty')⟩
    · intro q hq
      obtain ⟨o, o', _, h2, _, h4⟩ := hkept q hq
      show isMarked vm2.heap q = false
      simp [isMarked, h2, h4]
    · intro q
      unfold Reachable
      rw [hroots]
      exact hreach q

theorem reach_within {h : Heap} {rs S : List Ptr} (hr : ∀ r ∈ rs, r ∈ S)
    (hs : ∀ q ∈ S, fieldsIn h S q) {q : Ptr} (hq : Reach h rs q) : q ∈ S := by
  induction hq with
  | root r hmem => exact hr r hmem
  | head q o _ ho ht ih =>
    have := hs q ih
    unfold fieldsIn at this
    simp only [ho] at this
    exact (this ht).1
  | tail q o _ ho ht ih =>
    have := hs q ih
    unfold fieldsIn at this
    simp only [ho] at this
    exact (this ht).2

theorem sweepLoop_mono : ∀ (f : Nat) (vm : VM) (loc : Loc) (r : VM),
    sweepLoop f vm loc = Res.ok r → sweepLoop (f + 1) vm loc = Res.ok r := by
  intro f
  induction f with
  | zero => intro vm loc r h; simp [sweepLoop] at h
  | succ f ih =>
    intro vm loc r h
    rw [sweepLoop] at h ⊢
    cases hl : loadLoc vm loc with
    | none => simp [hl] at h
    | some cur =>
      simp only [hl] at h ⊢
      by_cases hc : cur = NULL
      · simpa [hc] using h
      · simp only [hc, if_false] at h ⊢
        cases ho : vm.heap cur with
        | none => simp [ho] at h
        | some o =>
          simp only [ho] at h ⊢
          by_cases hm : o.marked = 0
          · simp only [hm, if_true] at h ⊢; exact ih _ _ _ h
          · simp only [hm, if_false] at h ⊢; exact ih _ _ _ h

theorem sweepLoop_mono_add (f k : Nat) (vm : VM) (loc : Loc) (r : VM)
    (h : sweepLoop f vm loc = Res.ok r) : sweepLoop (f + k) vm loc = Res.ok r := by
  induction k with
  | zero => exact h
  | succ k ih => exact sweepLoop_mono _ _ _ _ ih

theorem sweep_post_of_ok {vm vm2 : VM} {l : List Ptr} {fuel : Nat}
    (hreg : chain vm.heap vm.firstObject l = true) (hrun : sweep fuel vm = Res.ok vm2) :
    SweepPost vm Loc.first l vm2 := by
  obtain ⟨vm3, hrun3, sp⟩ := sweepLoop_spec l (fuel + (l.length + 1)) vm Loc.first
    vm.firstObject rfl hreg (by simp) (by omega)
  have := sweepLoop_mono_add fuel (l.length + 1) vm Loc.first vm2 hrun
  rw [this] at hrun3
  cases hrun3
  exact sp

theorem markAll_ok {vm vm1 : VM} {t : List Ptr} {fuel : Nat}
    (hrun : markAll fuel vm = Res.ok (vm1, t)) :
    vm1 = { vm with heap := markSet vm.heap t, out := vm.out ++ [Msg.markingObjects] } ∧
      MarkPost vm.heap (roots vm) (markSet vm.heap t) t := by
  unfold markAll at hrun
  cases hm : markList fuel (roots vm) vm.heap with
  | fault => simp [hm] at hrun
  | timeout => simp [hm] at hrun
  | ok r =>
    obtain ⟨h1, t1⟩ := r
    simp only [hm, Res.ok.injEq, Prod.mk.injEq] at hrun
    obtain ⟨e1, e2⟩ := hrun
    subst e2
    have mp := markList_post _ _ _ _ _ hm
    have e := mp.heap_eq
    subst e
    exact ⟨e1.symm, mp⟩

theorem gc_ok {vm vm' : VM} {fuel : Nat} (hrun : gc fuel vm = Res.ok vm') :
    ∃ t vm2, MarkPost vm.heap (roots vm) (markSet vm.heap t) t ∧
      sweep fuel { vm with heap := markSet vm.heap t,
                           out := vm.out ++ [Msg.enteringGc] ++ [Msg.markingObjects] }
        = Res.ok vm2 ∧
      vm' = { vm2 with maxObjects := wrapInt (2 * vm2.numObjects) } := by
  unfold gc at hrun
  cases hm : markAll fuel { vm with out := vm.out ++ [Msg.enteringGc] } with
  | fault => simp [hm] at hrun
  | timeout => simp [hm] at hrun
  | ok r =>
    obtain ⟨vm1, t⟩ := r
    obtain ⟨e1, mp⟩ := markAll_ok hm
    subst e1
    simp only [hm] at hrun
    generalize hs : sweep fuel _ = rs at hrun
    cases rs with
    | fault => simp at hrun
    | timeout => simp at hrun
    | ok vm2 =>
      simp only [Res.ok.injEq] at hrun
      exact ⟨t, vm2, mp, hs, hrun.symm⟩

theorem gc_clear_of_ok {vm vm' : VM} {l : List Ptr} {fuel : Nat} (hreg : Registry vm l)
    (hrun : gc fuel vm = Res.ok vm') : ∃ l', Registry vm' l' ∧ AllClear vm' l' := by
  obtain ⟨t, vm2, _, hs, e⟩ := gc_ok hrun
  subst e
  have sp := sweep_post_of_ok (l := l) (chain_markSet t l _ hreg) hs
  obtain ⟨p', hp', hc'⟩ := sp.chain_eq
  simp only [loadLoc, Option.some.injEq] at hp'
  subst hp'
  refine ⟨_, hc', ?_⟩
  intro q hq
  obtain ⟨hql, hm⟩ := List.mem_filter.1 hq
  obtain ⟨o1, o', _, h2, _, h4⟩ := sp.kept q hql hm
  show isMarked vm2.heap q = false
  simp [isMarked, h2, h4]

theorem gc_total {vm : VM} {l : List Ptr} {fuel : Nat} (hw : WF vm l)
    (hf : l.length < fuel) : ∃ vm', gc fuel vm = Res.ok vm' := by
  have hw0 : WF { vm with out := vm.out ++ [Msg.enteringGc] } l := hw
  obtain ⟨t, hmark, _⟩ := markAll_spec hw0 hf
  obtain ⟨vm2, hsweep, _⟩ := sweepLoop_spec l fuel
    { vm with heap := markSet vm.heap t,
              out := vm.out ++ [Msg.enteringGc] ++ [Msg.markingObjects] }
    Loc.first vm.firstObject rfl (chain_markSet t l _ hw.1) (by simp) hf
  have hmark2 : markAll fuel { vm with out := vm.out ++ [Msg.enteringGc] } =
      Res.ok ({ vm with heap := markSet vm.heap t,
                        out := vm.out ++ [Msg.enteringGc] ++ [Msg.markingObjects] }, t) :=
    hmark
  exact ⟨{ vm2 with maxObjects := wrapInt (2 * vm2.numObjects) },
    by simp only [gc, hmark2, sweep, hsweep]⟩

/-! ## Claims about the collection cycle -/

/-- C1 (reachability preservation): in a well-formed state with all mark flags
clear, `gc` returns, leaves the root stack unchanged, and every object that was
reachable from the root stack is still in the heap registry, has the same type and
payload, and is still reachable. -/
theorem gc_preserves_reachable (vm : VM) (l : List Ptr) (fuel : Nat)
    (hw : WF vm l) (hc : AllClear vm l) (hf : l.length < fuel) :
    ∃ vm' l', gc fuel vm = Res.ok vm' ∧ Registry vm' l' ∧
      vm'.stack = vm.stack ∧ vm'.stackSize = vm.stackSize ∧
      ∀ q, Reachable vm q → q ∈ l' ∧ keeps vm.heap vm'.heap q ∧ Reachable vm' q := by
  obtain ⟨vm', l', hrun, post⟩ := gc_spec hw hc hf
  refine ⟨vm', l', hrun, post.registry, post.stack_eq, post.stackSize_eq, ?_⟩
  intro q hq
  have hmem := (post.mem_iff q).2 hq
  obtain ⟨o, o', h1, h2, h3, _⟩ := post.kept q hmem
  exact ⟨hmem, ⟨o, o', h1, h2, h3⟩, (post.reach_iff q).2 hq⟩

/-- Witness for C1 on the sample machine (rooted mutual cycle plus garbage). -/
theorem gc_preserves_reachable_witness :
    ∃ vm' l', gc 8 exVM = Res.ok vm' ∧ Registry vm' l' ∧
      vm'.stack = exVM.stack ∧ vm'.stackSize = exVM.stackSize ∧
      ∀ q, Reachable exVM q → q ∈ l' ∧ keeps exVM.heap vm'.heap q ∧ Reachable vm' q :=
  gc_preserves_reachable exVM exReg 8 (by decide) (by decide) (by decide)

/-- C2 (unreachable reclamation): in a well-formed state with all mark flags clear,
`gc` returns and every registered object that is not reachable from the root stack
is absent from the registry afterwards and its storage has been released. -/
theorem gc_reclaims_unreachable (vm : VM) (l : List Ptr) (fuel : Nat)
    (hw : WF vm l) (hc : AllClear vm l) (hf : l.length < fuel) :
    ∃ vm' l', gc fuel vm = Res.ok vm' ∧ Registry vm' l' ∧
      ∀ q ∈ l, ¬ Reachable vm q → q ∉ l' ∧ vm'.heap q = none := by
  obtain ⟨vm', l', hrun, post⟩ := gc_spec hw hc hf
  refine ⟨vm', l', hrun, post.registry, ?_⟩
  intro q hq hnr
  have hnm : q ∉ l' := fun h => hnr ((post.mem_iff q).1 h)
  exact ⟨hnm, post.freed q hq hnm⟩

/-- Witness for C2 on the sample machine: the self-referencing pair 4 and the
mutually referencing pairs 5 and 6 are unreachable and are released. -/
theorem gc_reclaims_unreachable_witness :
    (¬ Reachable exVM 4 ∧ ¬ Reachable exVM 5 ∧ ¬ Reachable exVM 6) ∧
    ∃ vm' l', gc 8 exVM = Res.ok vm' ∧ Registry vm' l' ∧
      ∀ q ∈ exReg, ¬ Reachable exVM q → q ∉ l' ∧ vm'.heap q = none := by
  have hin : ∀ q, Reachable exVM q → q ∈ [3, 7, 1, 2] := fun q hq =>
    reach_within (S := [3, 7, 1, 2]) (by decide) (by decide) hq
  refine ⟨⟨fun h => ?_, fun h => ?_, fun h => ?_⟩,
    gc_reclaims_unreachable exVM exReg 8 (by decide) (by decide) (by decide)⟩
  · exact absurd (hin 4 h) (by decide)
  · exact absurd (hin 5 h) (by decide)
  · exact absurd (hin 6 h) (by decide)

/-- C3 (safe reclamation): after `gc` on a well-formed state with clear flags the
registry has no repeated entry, every root entry and every field of a registered
pair refers to a registered, allocated object, and no such reference points at an
object that was removed. -/
theorem gc_no_dangling (vm : VM) (l : List Ptr) (fuel : Nat)
    (hw : WF vm l) (hc : AllClear vm l) (hf : l.length < fuel) :
    ∃ vm' l', gc fuel vm = Res.ok vm' ∧ Registry vm' l' ∧ l'.Nodup ∧
      (∀ q ∈ l', (vm'.heap q).isSome = true) ∧
      (∀ i, i < vm'.stackSize → vm'.stack i ∈ l') ∧
      (∀ p ∈ l', ∀ o, vm'.heap p = some o → o.type = ObjectType.OBJ_PAIR →
        o.head ∈ l' ∧ o.tail ∈ l') ∧
      (∀ q ∈ l, q ∉ l' → vm'.heap q = none ∧
        (∀ i, i < vm'.stackSize → vm'.stack i ≠ q) ∧
        (∀ p ∈ l', ∀ o, vm'.heap p = some o → o.type = ObjectType.OBJ_PAIR →
          o.head ≠ q ∧ o.tail ≠ q)) := by
  obtain ⟨vm', l', hrun, post⟩ := gc_spec hw hc hf
  have hfields : ∀ p ∈ l', ∀ o, vm'.heap p = some o → o.type = ObjectType.OBJ_PAIR →
      o.head ∈ l' ∧ o.tail ∈ l' := fun p hp o ho hty => post.wf.valid.fields hp ho hty
  refine ⟨vm', l', hrun, post.registry, chain_nodup _ _ post.registry,
    fun q hq => (post.wf.valid q hq).1, post.wf.2.2.1, hfields, ?_⟩
  intro q hq hnq
  refine ⟨post.freed q hq hnq, ?_, ?_⟩
  · intro i hi e
    exact hnq (e ▸ post.wf.2.2.1 i hi)
  · intro p hp o ho hty
    obtain ⟨a, b⟩ := hfields p hp o ho hty
    exact ⟨fun e => hnq (e ▸ a), fun e => hnq (e ▸ b)⟩

/-- Witness for C3 on the sample machine. -/
theorem gc_no_dangling_witness :
    ∃ vm' l', gc 8 exVM = Res.ok vm' ∧ Registry vm' l' ∧ l'.Nodup ∧
      (∀ q ∈ l', (vm'.heap q).isSome = true) ∧
      (∀ i, i < vm'.stackSize → vm'.stack i ∈ l') ∧
      (∀ p ∈ l', ∀ o, vm'.heap p = some o → o.type = ObjectType.OBJ_PAIR →
        o.head ∈ l' ∧ o.tail ∈ l') ∧
      (∀ q ∈ exReg, q ∉ l' → vm'.heap q = none ∧
        (∀ i, i < vm'.stackSize → vm'.stack i ≠ q) ∧
        (∀ p ∈ l', ∀ o, vm'.heap p = some o → o.type = ObjectType.OBJ_PAIR →
          o.head ≠ q ∧ o.tail ≠ q)) :=
  gc_no_dangling exVM exReg 8 (by decide) (by decide) (by decide)

/-! ## Stack operations and allocation -/

@[simp] theorem pop_heap (vm : VM) : (pop vm).1.heap = vm.heap := by
  unfold pop; split <;> rfl

@[simp] theorem pop_firstObject (vm : VM) : (pop vm).1.firstObject = vm.firstObject := by
  unfold pop; split <;> rfl

@[simp] theorem pop_numObjects (vm : VM) : (pop vm).1.numObjects = vm.numObjects := by
  unfold pop; split <;> rfl

@[simp] theorem pop_maxObjects (vm : VM) : (pop vm).1.maxObjects = vm.maxObjects := by
  unfold pop; split <;> rfl

@[simp] theorem pop_stack (vm : VM) : (pop vm).1.stack = vm.stack := by
  unfold pop; split <;> rfl

@[simp] theorem push_heap (vm : VM) (v : Ptr) : (push vm v).heap = vm.heap := by
  unfold push; split <;> rfl

@[simp] theorem push_firstObject (vm : VM) (v : Ptr) :
    (push vm v).firstObject = vm.firstObject := by
  unfold push; split <;> rfl

@[simp] theorem push_numObjects (vm : VM) (v : Ptr) :
    (push vm v).numObjects = vm.numObjects := by
  unfold push; split <;> rfl

@[simp] theorem push_maxObjects (vm : VM) (v : Ptr) :
    (push vm v).maxObjects = vm.maxObjects := by
  unfold push; split <;> rfl

theorem upd_upd (h : Heap) (a : Ptr) (v w : Option Object) :
    upd (upd h a v) a w = upd h a w := by
  funext q; by_cases hq : q = a <;> simp [upd, hq]

@[simp] theorem upd_same (h : Heap) (a : Ptr) (v : Option Object) : upd h a v a = v := by
  simp [upd]

theorem upd_other (h : Heap) (a q : Ptr) (v : Option Object) (hq : q ≠ a) :
    upd h a v q = h q := by
  simp [upd, hq]

theorem setTail_ok {vm : VM} {p : Ptr} {o : Object} (v : Ptr) (h : vm.heap p = some o) :
    setTail vm p v = Res.ok { vm with heap := upd vm.heap p (some { o with tail := v }) } := by
  simp [setTail, h]

theorem setHead_ok {vm : VM} {p : Ptr} {o : Object} (v : Ptr) (h : vm.heap p = some o) :
    setHead vm p v = Res.ok { vm with heap := upd vm.heap p (some { o with head := v }) } := by
  simp [setHead, h]

theorem setValue_ok {vm : VM} {p : Ptr} {o : Object} (v : Int) (h : vm.heap p = some o) :
    setValue vm p v = Res.ok { vm with heap := upd vm.heap p (some { o with value := v }) } := by
  simp [setValue, h]

theorem pushPair_eq (fuel : Nat) (vm vm1 : VM) (a : Ptr) (blk : Object)
    (h1 : newObjectGc fuel vm = Res.ok vm1) (h2 : 2 ≤ vm1.stackSize)
    (h3 : vm1.stackSize ≤ STACK_MAX) :
    pushPair fuel vm a blk = Res.ok
      ({ vm1 with
          stack := fun i => if i = vm1.stackSize - 2 then a else vm1.stack i,
          stackSize := vm1.stackSize - 1,
          heap := upd vm1.heap a
            (some { blk with type := ObjectType.OBJ_PAIR, marked := 0,
                             next := vm1.firstObject,
                             head := vm1.stack (vm1.stackSize - 2),
                             tail := vm1.stack (vm1.stackSize - 1) }),
          firstObject := a,
          numObjects := wrapInt (vm1.numObjects + 1) }, a) := by
  have e1 : vm1.stackSize ≠ 0 := by omega
  have e2 : vm1.stackSize - 1 ≠ 0 := by omega
  have e3 : vm1.stackSize - 2 ≠ STACK_MAX := by omega
  have e4 : vm1.stackSize - 1 - 1 = vm1.stackSize - 2 := by omega
  have e5 : vm1.stackSize - 2 + 1 = vm1.stackSize - 1 := by omega
  simp [pushPair, newObject, allocAt, h1, setTail, setHead, pop, push, e1, e2, e3, e4, e5, upd_upd]

theorem pushPair_ok {fuel : Nat} {vm vm' : VM} {a p : Ptr} {blk : Object}
    (h : pushPair fuel vm a blk = Res.ok (vm', p)) :
    ∃ vm1 x y, newObjectGc fuel vm = Res.ok vm1 ∧ p = a ∧ vm'.firstObject = a ∧
      vm'.heap = upd vm1.heap a
        (some { blk with type := ObjectType.OBJ_PAIR, marked := 0,
                         next := vm1.firstObject, head := x, tail := y }) := by
  unfold pushPair newObject at h
  cases h1 : newObjectGc fuel vm with
  | fault => simp [h1] at h
  | timeout => simp [h1] at h
  | ok vm1 =>
    simp only [h1] at h
    simp [setTail, setHead, allocAt] at h
    obtain ⟨e1, e2⟩ := h
    subst e1
    subst e2
    exact ⟨vm1, _, _, rfl, rfl, by simp, by simp [upd_upd]; rfl⟩

theorem pushPair_total {fuel : Nat} {vm vm1 : VM} (a : Ptr) (blk : Object)
    (h1 : newObjectGc fuel vm = Res.ok vm1) :
    ∃ vm', pushPair fuel vm a blk = Res.ok (vm', a) := by
  unfold pushPair newObject
  simp [h1, setTail, setHead, allocAt]

theorem pushINT_ok {fuel : Nat} {vm vm' : VM} {a : Ptr} {val : Int} {blk : Object}
    (h : pushINT fuel vm val a blk = Res.ok vm') :
    ∃ vm1, newObjectGc fuel vm = Res.ok vm1 ∧ vm'.firstObject = a ∧
      vm'.heap = upd vm1.heap a
        (some { blk with type := ObjectType.OBJ_INT, marked := 0,
                         next := vm1.firstObject, value := val }) := by
  unfold pushINT newObject at h
  cases h1 : newObjectGc fuel vm with
  | fault => simp [h1] at h
  | timeout => simp [h1] at h
  | ok vm1 =>
    simp only [h1] at h
    have hA : (allocAt vm1 ObjectType.OBJ_INT a blk).heap a =
        some { blk with type := ObjectType.OBJ_INT, marked := 0, next := vm1.firstObject } := by
      simp [allocAt]
    rw [setValue_ok _ hA] at h
    simp only [Res.ok.injEq] at h
    subst h
    exact ⟨vm1, rfl, by simp [allocAt], by simp [allocAt, upd_upd]⟩

theorem pushINT_total {fuel : Nat} {vm vm1 : VM} (a : Ptr) (val : Int) (blk : Object)
    (h1 : newObjectGc fuel vm = Res.ok vm1) :
    ∃ vm', pushINT fuel vm val a blk = Res.ok vm' := by
  unfold pushINT newObject
  simp [h1, setValue, allocAt]

theorem alloc_inv {h : Heap} {f a : Ptr} {l : List Ptr} {o : Object}
    (hc : chain h f l = true) (hcl : ∀ q ∈ l, isMarked h q = false)
    (ha : a ≠ NULL) (hfree : h a = none) (hn : o.next = f) (hm : o.marked = 0) :
    chain (upd h a (some o)) a (a :: l) = true ∧
      ∀ q ∈ a :: l, isMarked (upd h a (some o)) q = false := by
  have hal : a ∉ l := by
    intro hmem
    have := (chain_mem l f a hc hmem).2
    rw [hfree] at this
    exact Bool.noConfusion this
  have hne : ∀ q ∈ l, q ≠ a := fun q hq e => hal (e ▸ hq)
  constructor
  · rw [chain_cons_iff]
    refine ⟨rfl, ha, o, upd_same _ _ _, ?_⟩
    rw [hn]
    exact chain_congr_eq l f (fun q hq => upd_other _ _ _ _ (hne q hq)) hc
  · intro q hq
    rcases List.mem_cons.1 hq with e | e
    · subst e; simp [isMarked, hm]
    · rw [isMarked_congr (upd_other h a q (some o) (hne q e))]
      exact hcl q e

theorem newObjectGc_cases {fuel : Nat} {vm vm1 : VM}
    (h : newObjectGc fuel vm = Res.ok vm1) :
    (vm.numObjects ≠ vm.maxObjects ∧ vm1 = vm) ∨
    (vm.numObjects = vm.maxObjects ∧
      gc fuel { vm with out := vm.out ++ [Msg.gcNeeded] } = Res.ok vm1) := by
  unfold newObjectGc at h
  by_cases hn : vm.numObjects = vm.maxObjects
  · rw [if_pos hn] at h
    exact Or.inr ⟨hn, h⟩
  · rw [if_neg hn] at h
    cases h
    exact Or.inl ⟨hn, rfl⟩

theorem newObjectGc_clear {fuel : Nat} {vm vm1 : VM} {l : List Ptr}
    (hreg : Registry vm l) (hc : AllClear vm l)
    (h : newObjectGc fuel vm = Res.ok vm1) :
    ∃ l1, Registry vm1 l1 ∧ AllClear vm1 l1 := by
  rcases newObjectGc_cases h with ⟨_, e⟩ | ⟨_, hg⟩
  · subst e; exact ⟨l, hreg, hc⟩
  · have hreg' : Registry { vm with out := vm.out ++ [Msg.gcNeeded] } l := hreg
    exact gc_clear_of_ok hreg' hg

theorem newObjectGc_total {fuel : Nat} {vm : VM} {l : List Ptr} (hw : WF vm l)
    (hf : l.length < fuel) : ∃ vm1, newObjectGc fuel vm = Res.ok vm1 := by
  unfold newObjectGc
  by_cases hn : vm.numObjects = vm.maxObjects
  · rw [if_pos hn]
    have hw' : WF { vm with out := vm.out ++ [Msg.gcNeeded] } l := hw
    exact gc_total hw' hf
  · rw [if_neg hn]
    exact ⟨vm, rfl⟩

theorem newObject_ok {fuel : Nat} {vm vm' : VM} {ty : ObjectType} {a p : Ptr} {blk : Object}
    (h : newObject fuel vm ty a blk = Res.ok (vm', p)) :
    ∃ vm1, newObjectGc fuel vm = Res.ok vm1 ∧ p = a ∧ vm' = allocAt vm1 ty a blk := by
  unfold newObject at h
  cases h1 : newObjectGc fuel vm with
  | fault => simp [h1] at h
  | timeout => simp [h1] at h
  | ok vm1 =>
    simp only [h1, Res.ok.injEq, Prod.mk.injEq] at h
    exact ⟨vm1, rfl, h.2.symm, h.1.symm⟩

theorem push_inv (vm : VM) (l : List Ptr) (v : Ptr) (hreg : Registry vm l)
    (hc : AllClear vm l) : Registry (push vm v) l ∧ AllClear (push vm v) l := by
  unfold Registry AllClear
  rw [push_heap, push_firstObject]
  exact ⟨hreg, hc⟩

theorem pop_inv (vm : VM) (l : List Ptr) (hreg : Registry vm l)
    (hc : AllClear vm l) : Registry (pop vm).1 l ∧ AllClear (pop vm).1 l := by
  unfold Registry AllClear
  rw [pop_heap, pop_firstObject]
  exact ⟨hreg, hc⟩

/-- C4 (mark flags are scratch state): for a machine whose registry is the list `l`,
whenever `gc` returns every object left in the registry has a clear flag, whatever
the flags were before; `gc` does return on well-formed states; and "all registered
flags are clear" is preserved by `newObject`, `pushINT`, `pushPair`, `push` and
`pop`, which return on well-formed states. -/
theorem mark_flags_scratch (vm : VM) (l : List Ptr) (hreg : Registry vm l) :
    (∀ fuel vm', gc fuel vm = Res.ok vm' → ∃ l', Registry vm' l' ∧ AllClear vm' l') ∧
    (WF vm l → ∀ fuel, l.length < fuel →
      (∃ vm', gc fuel vm = Res.ok vm') ∧
      (∀ ty a blk, ∃ r, newObject fuel vm ty a blk = Res.ok r) ∧
      (∀ val a blk, ∃ r, pushINT fuel vm val a blk = Res.ok r) ∧
      (∀ a blk, ∃ r, pushPair fuel vm a blk = Res.ok r)) ∧
    (AllClear vm l →
      (∀ fuel ty a blk vm' p, a ≠ NULL →
        (∀ vm1, newObjectGc fuel vm = Res.ok vm1 → vm1.heap a = none) →
        newObject fuel vm ty a blk = Res.ok (vm', p) →
        ∃ l', Registry vm' l' ∧ AllClear vm' l') ∧
      (∀ fuel val a blk vm', a ≠ NULL →
        (∀ vm1, newObjectGc fuel vm = Res.ok vm1 → vm1.heap a = none) →
        pushINT fuel vm val a blk = Res.ok vm' →
        ∃ l', Registry vm' l' ∧ AllClear vm' l') ∧
      (∀ fuel a blk vm' p, a ≠ NULL →
        (∀ vm1, newObjectGc fuel vm = Res.ok vm1 → vm1.heap a = none) →
        pushPair fuel vm a blk = Res.ok (vm', p) →
        ∃ l', Registry vm' l' ∧ AllClear vm' l') ∧
      (∀ v, Registry (push vm v) l ∧ AllClear (push vm v) l) ∧
      (Registry (pop vm).1 l ∧ AllClear (pop vm).1 l)) := by
  refine ⟨fun fuel vm' h => gc_clear_of_ok hreg h, ?_, ?_⟩
  · intro hw fuel hf
    obtain ⟨vm1, h1⟩ := newObjectGc_total hw hf
    refine ⟨gc_total hw hf, ?_, ?_, ?_⟩
    · intro ty a blk
      exact ⟨(allocAt vm1 ty a blk, a), by simp only [newObject, h1]⟩
    · intro val a blk
      obtain ⟨r, hr⟩ := pushINT_total a val blk h1
      exact ⟨r, hr⟩
    · intro a blk
      obtain ⟨r, hr⟩ := pushPair_total a blk h1
      exact ⟨_, hr⟩
  · intro hc
    refine ⟨?_, ?_, ?_, fun v => push_inv vm l v hreg hc, pop_inv vm l hreg hc⟩
    · intro fuel ty a blk vm' p ha hfresh hrun
      obtain ⟨vm1, h1, _, e⟩ := newObject_ok hrun
      subst e
      obtain ⟨l1, hr1, hc1⟩ := newObjectGc_clear hreg hc h1
      obtain ⟨x, y⟩ := alloc_inv (o := { blk with
        type := ty, marked := 0, next := vm1.firstObject }) hr1 hc1 ha (hfresh vm1 h1) rfl rfl
      exact ⟨a :: l1, x, y⟩
    · intro fuel val a blk vm' ha hfresh hrun
      obtain ⟨vm1, h1, e1, e2⟩ := pushINT_ok hrun
      obtain ⟨l1, hr1, hc1⟩ := newObjectGc_clear hreg hc h1
      obtain ⟨x, y⟩ := alloc_inv (o := { blk with
        type := ObjectType.OBJ_INT, marked := 0, next := vm1.firstObject, value := val })
        hr1 hc1 ha (hfresh vm1 h1) rfl rfl
      refine ⟨a :: l1, ?_, ?_⟩
      · unfold Registry; rw [e1, e2]; exact x
      · unfold AllClear; rw [e2]; exact y
    · intro fuel a blk vm' p ha hfresh hrun
      obtain ⟨vm1, hd, tl, h1, _, e1, e2⟩ := pushPair_ok hrun
      obtain ⟨l1, hr1, hc1⟩ := newObjectGc_clear hreg hc h1
      obtain ⟨x, y⟩ := alloc_inv (o := { blk with
        type := ObjectType.OBJ_PAIR, marked := 0, next := vm1.firstObject,
        head := hd, tail := tl }) hr1 hc1 ha (hfresh vm1 h1) rfl rfl
      refine ⟨a :: l1, ?_, ?_⟩
      · unfold Registry; rw [e1, e2]; exact x
      · unfold AllClear; rw [e2]; exact y

/-- Witness for C4: the sample machine with stale flags on two objects is collected
and every object left in the registry has a clear flag. -/
theorem mark_flags_scratch_witness :
    isMarked staleVM.heap 4 = true ∧
    ∃ vm' l', gc 8 staleVM = Res.ok vm' ∧ Registry vm' l' ∧ AllClear vm' l' := by
  have h := mark_flags_scratch staleVM exReg (by decide)
  obtain ⟨vm', hrun⟩ := (h.2.1 (by decide) 8 (by decide)).1
  obtain ⟨l', a, b⟩ := h.1 8 vm' hrun
  exact ⟨by decide, vm', l', hrun, a, b⟩

/-- C5 (termination on cycles): on a finite object graph `l` in which every address
holds an object and pair fields stay inside `l` (cycles allowed, flags arbitrary),
`mark` from any object and `markAll` from any root stack into `l` return once the
recursion budget exceeds the number of objects; the log of flag assignments has no
repetition, every logged object had a clear flag before and a set flag after, and
nothing but the flags of the logged objects changes. -/
theorem mark_terminates (h : Heap) (l : List Ptr) (fuel : Nat)
    (hv : Valid h l) (hf : l.length < fuel) :
    (∀ p ∈ l, ∃ h' t, mark fuel h p = Res.ok (h', t) ∧ t.Nodup ∧
      (∀ q ∈ t, isMarked h q = false ∧ isMarked h' q = true) ∧ h' = markSet h t) ∧
    (∀ vm : VM, vm.heap = h → (∀ i, i < vm.stackSize → vm.stack i ∈ l) →
      ∃ vm' t, markAll fuel vm = Res.ok (vm', t) ∧ t.Nodup ∧
        (∀ q ∈ t, isMarked h q = false ∧ isMarked vm'.heap q = true) ∧
        vm'.heap = markSet h t) := by
  have hp : pending h l < fuel := lt_of_le_of_lt (pending_le_length _ _) hf
  have hset : ∀ t : List Ptr, (∀ q ∈ t, (h q).isSome = true) →
      ∀ q ∈ t, isMarked (markSet h t) q = true := by
    intro t ht q hq
    rw [isMarked_markSet, ht q hq]
    simp [hq]
  constructor
  · intro p hpl
    obtain ⟨t, ht⟩ := mark_total l fuel h p hv hpl hp
    have mp := mark_post _ _ _ _ _ ht
    exact ⟨_, t, ht, mp.nodup, fun q hq => ⟨mp.fresh q hq, hset t mp.valid q hq⟩, rfl⟩
  · intro vm e hst
    subst e
    have hroots : ∀ r ∈ roots vm, r ∈ l := by
      intro r hr
      obtain ⟨i, hi, e⟩ := (mem_roots vm r).1 hr
      exact e ▸ hst i hi
    obtain ⟨t, ht⟩ := markList_total l fuel (roots vm) vm.heap hv hroots hp
    have mp := markList_post _ _ _ _ _ ht
    refine ⟨{ vm with heap := markSet vm.heap t, out := vm.out ++ [Msg.markingObjects] },
      t, by simp [markAll, ht], mp.nodup,
      fun q hq => ⟨mp.fresh q hq, hset t mp.valid q hq⟩, rfl⟩

/-- Witness for C5 on the sample heap, which has a self-referencing pair (4), two
garbage pairs referencing each other (5, 6) and a rooted mutual cycle (3, 7). -/
theorem mark_terminates_witness :
    (∀ p ∈ exReg, ∃ h' t, mark 8 exHeap p = Res.ok (h', t) ∧ t.Nodup ∧
      (∀ q ∈ t, isMarked exHeap q = false ∧ isMarked h' q = true) ∧
      h' = markSet exHeap t) ∧
    (∀ vm : VM, vm.heap = exHeap → (∀ i, i < vm.stackSize → vm.stack i ∈ exReg) →
      ∃ vm' t, markAll 8 vm = Res.ok (vm', t) ∧ t.Nodup ∧
        (∀ q ∈ t, isMarked exHeap q = false ∧ isMarked vm'.heap q = true) ∧
        vm'.heap = markSet exHeap t) :=
  mark_terminates exHeap exReg 8 (by decide) (by decide)

/-- C6 (create), evaluated on the code: `newVM` assigns `stackSize` only, so the
registry head and the counters of the new machine are whatever the block returned
by `malloc` held; on the sample block the head is the dangling address 7, the object
count is 5, and the first `pushINT` dereferences the dangling head. -/
theorem newVM_leaves_registry_unset :
    (∀ raw : VM, (newVM raw).stackSize = 0 ∧ (newVM raw).firstObject = raw.firstObject ∧
      (newVM raw).numObjects = raw.numObjects ∧ (newVM raw).maxObjects = raw.maxObjects) ∧
    (newVM rawBlock).firstObject = 7 ∧ (newVM rawBlock).firstObject ≠ NULL ∧
    (newVM rawBlock).numObjects = 5 ∧
    Res.isFault (pushINT 3 (newVM rawBlock) 1 1 blk0) = true := by
  refine ⟨fun raw => ⟨rfl, rfl, rfl, rfl⟩, rfl, by decide, rfl, by decide⟩

/-- C7 (pushPair underflow), evaluated on the code: with an empty root stack
`pushPair` still allocates a pair, links it at the head of the registry, stores
`NULL` in both fields and pushes it (stack size 0 becomes 1); with one entry that
entry is consumed into the tail, the head is `NULL`, and the pair replaces it.  A
following `gc` dereferences the null field. -/
theorem pushPair_underflow_allocates :
    (∃ vm', pushPair 1 emptyVM 1 blk0 = Res.ok (vm', 1) ∧
      emptyVM.stackSize = 0 ∧ emptyVM.firstObject = NULL ∧
      vm'.stackSize = 1 ∧ vm'.stack 0 = 1 ∧ vm'.firstObject = 1 ∧ vm'.numObjects = 1 ∧
      vm'.heap 1 = some ⟨ObjectType.OBJ_PAIR, 0, NULL, 0, NULL, NULL⟩ ∧
      vm'.out = [Msg.stackUnderflow, Msg.stackUnderflow] ∧
      Res.isFault (gc 5 vm') = true) ∧
    (∃ vm', pushPair 2 oneVM 2 blk0 = Res.ok (vm', 2) ∧
      oneVM.stackSize = 1 ∧ oneVM.stack 0 = 1 ∧ oneVM.firstObject = 1 ∧
      vm'.stackSize = 1 ∧ vm'.stack 0 = 2 ∧ vm'.firstObject = 2 ∧ vm'.numObjects = 2 ∧
      vm'.heap 2 = some ⟨ObjectType.OBJ_PAIR, 0, 1, 0, NULL, 1⟩ ∧
      vm'.out = [Msg.stackUnderflow] ∧
      Res.isFault (gc 5 vm') = true) := by
  constructor
  · exact ⟨_, rfl, rfl, rfl, rfl, rfl, rfl, rfl, rfl, rfl, by decide⟩
  · exact ⟨_, rfl, rfl, rfl, rfl, rfl, rfl, rfl, rfl, rfl, rfl, by decide⟩

/-- C8 (stack error atomicity): `push` on a full stack only reports overflow and
`pop` on an empty stack only reports underflow and returns `NULL`; every field of
the machine and the heap are unchanged.  Otherwise `push` stores the value at index
`stackSize` and increments `stackSize`, and `pop` returns the entry at index
`stackSize - 1` and decrements `stackSize`; nothing else changes and nothing is
reported. -/
theorem push_pop_atomic (vm : VM) (value : Ptr) :
    (vm.stackSize = STACK_MAX →
      (push vm value).stack = vm.stack ∧ (push vm value).stackSize = vm.stackSize ∧
      (push vm value).out = vm.out ++ [Msg.stackOverflow]) ∧
    (vm.stackSize = 0 →
      (pop vm).2 = NULL ∧ (pop vm).1.stackSize = vm.stackSize ∧
      (pop vm).1.out = vm.out ++ [Msg.stackUnderflow]) ∧
    (vm.stackSize ≠ STACK_MAX →
      (push vm value).stack vm.stackSize = value ∧
      (∀ i, i ≠ vm.stackSize → (push vm value).stack i = vm.stack i) ∧
      (push vm value).stackSize = vm.stackSize + 1 ∧ (push vm value).out = vm.out) ∧
    (vm.stackSize ≠ 0 →
      (pop vm).2 = vm.stack (vm.stackSize - 1) ∧
      (pop vm).1.stackSize = vm.stackSize - 1 ∧ (pop vm).1.out = vm.out) ∧
    ((pop vm).1.stack = vm.stack ∧ (pop vm).1.heap = vm.heap ∧
      (pop vm).1.firstObject = vm.firstObject ∧ (pop vm).1.numObjects = vm.numObjects ∧
      (pop vm).1.maxObjects = vm.maxObjects) ∧
    ((push vm value).heap = vm.heap ∧ (push vm value).firstObject = vm.firstObject ∧
      (push vm value).numObjects = vm.numObjects ∧
      (push vm value).maxObjects = vm.maxObjects) := by
  refine ⟨?_, ?_, ?_, ?_, ⟨pop_stack vm, pop_heap vm, pop_firstObject vm, pop_numObjects vm,
    pop_maxObjects vm⟩, ⟨push_heap vm value, push_firstObject vm value,
    push_numObjects vm value, push_maxObjects vm value⟩⟩
  · intro h
    simp [push, h]
  · intro h
    simp [pop, h]
  · intro h
    unfold push
    rw [if_neg h]
    exact ⟨by simp, fun i hi => by simp [hi], rfl, rfl⟩
  · intro h
    simp [pop, h]

/-- Witness for C8: a full stack, an empty stack, and a stack with one entry. -/
theorem push_pop_atomic_witness :
    ((push fullVM 5).stack = fullVM.stack ∧ (push fullVM 5).stackSize = 256 ∧
      (push fullVM 5).out = [Msg.stackOverflow]) ∧
    ((pop emptyVM).2 = NULL ∧ (pop emptyVM).1.stackSize = 0 ∧
      (pop emptyVM).1.out = [Msg.stackUnderflow]) ∧
    ((push oneVM 5).stack 1 = 5 ∧ (push oneVM 5).stackSize = 2) ∧
    ((pop oneVM).2 = 1 ∧ (pop oneVM).1.stackSize = 0) := by
  have hf := (push_pop_atomic fullVM 5).1 (by decide)
  have he := (push_pop_atomic emptyVM 5).2.1 (by decide)
  have hp := (push_pop_atomic oneVM 5).2.2.1 (by decide)
  have hq := (push_pop_atomic oneVM 5).2.2.2.1 (by decide)
  exact ⟨⟨hf.1, hf.2.1, hf.2.2⟩, ⟨he.1, he.2.1, he.2.2⟩, ⟨hp.1, hp.2.2.1⟩, ⟨hq.1, hq.2.1⟩⟩

/-! ## Pair construction -/

theorem newObjectGc_spec {fuel : Nat} {vm : VM} {l : List Ptr} (hw : WF vm l)
    (hc : AllClear vm l) (hf : l.length < fuel) :
    ∃ vm1 l1, newObjectGc fuel vm = Res.ok vm1 ∧ WF vm1 l1 ∧ AllClear vm1 l1 ∧
      vm1.stack = vm.stack ∧ vm1.stackSize = vm.stackSize ∧
      (∀ q, Reachable vm q → q ∈ l1 ∧ keeps vm.heap vm1.heap q) := by
  by_cases hn : vm.numObjects = vm.maxObjects
  · have hw' : WF { vm with out := vm.out ++ [Msg.gcNeeded] } l := hw
    have hc' : AllClear { vm with out := vm.out ++ [Msg.gcNeeded] } l := hc
    obtain ⟨vm1, l1, hrun, post⟩ := gc_spec hw' hc' hf
    refine ⟨vm1, l1, by unfold newObjectGc; rw [if_pos hn]; exact hrun, post.wf, post.clear,
      post.stack_eq, post.stackSize_eq, ?_⟩
    intro q hq
    have hmem := (post.mem_iff q).2 hq
    obtain ⟨o, o', h1, h2, h3, _⟩ := post.kept q hmem
    exact ⟨hmem, o, o', h1, h2, h3⟩
  · refine ⟨vm, l, by unfold newObjectGc; rw [if_neg hn], hw, hc, rfl, rfl, ?_⟩
    intro q hq
    have hmem := hw.reach_in hq
    have := (hw.valid q hmem).1
    cases ho : vm.heap q with
    | none => simp [ho] at this
    | some o => exact ⟨hmem, o, o, ho, ho, rfl, rfl, rfl, rfl⟩

/-- C9 (pushPair field order and stack effect): on a well-formed state with clear
flags and at least two root entries, `pushPair` returns the address obtained from
`malloc`; the object there is a pair whose head is the entry below the top and whose
tail is the top entry; it is the new registry head; the stack has one entry less, the
pair is its new top, and the entries below the two operands are unchanged. -/
theorem pushPair_field_order (vm : VM) (l : List Ptr) (fuel : Nat) (a : Ptr) (blk : Object)
    (hw : WF vm l) (hc : AllClear vm l) (hf : l.length < fuel) (h2 : 2 ≤ vm.stackSize) :
    ∃ vm' o, pushPair fuel vm a blk = Res.ok (vm', a) ∧ vm'.firstObject = a ∧
      vm'.heap a = some o ∧ o.type = ObjectType.OBJ_PAIR ∧
      o.head = vm.stack (vm.stackSize - 2) ∧ o.tail = vm.stack (vm.stackSize - 1) ∧
      vm'.stackSize = vm.stackSize - 1 ∧ vm'.stack (vm.stackSize - 2) = a ∧
      ∀ i, i < vm.stackSize - 2 → vm'.stack i = vm.stack i := by
  obtain ⟨vm1, l1, h1, hw1, _, hst, hsz, _⟩ := newObjectGc_spec hw hc hf
  have hrun := pushPair_eq fuel vm vm1 a blk h1 (hsz ▸ h2) hw1.2.1
  refine ⟨_, _, hrun, rfl, upd_same _ _ _, rfl, ?_, ?_, ?_, ?_, ?_⟩
  · simp [hst, hsz]
  · simp [hst, hsz]
  · simp [hsz]
  · simp [hsz]
  · intro i hi
    have : i ≠ vm.stackSize - 2 := by omega
    simp [hst, hsz, this]

/-- Witness for C9 on the sample machine: the stack holds 3 below 2, the count is at
the threshold so a collection runs first, and `malloc` reuses address 4. -/
theorem pushPair_field_order_witness :
    ∃ vm' o, pushPair 8 exVM 4 blk0 = Res.ok (vm', 4) ∧ vm'.firstObject = 4 ∧
      vm'.heap 4 = some o ∧ o.type = ObjectType.OBJ_PAIR ∧
      o.head = 3 ∧ o.tail = 2 ∧
      vm'.stackSize = 1 ∧ vm'.stack 0 = 4 ∧
      ∀ i, i < 0 → vm'.stack i = exVM.stack i :=
  pushPair_field_order exVM exReg 8 4 blk0 (by decide) (by decide) (by decide) (by decide)

theorem fieldsIn_cons {h : Heap} {l : List Ptr} {p : Ptr} (a : Ptr)
    (hf : fieldsIn h l p) : fieldsIn h (a :: l) p := by
  unfold fieldsIn at hf ⊢
  cases ho : h p with
  | none => trivial
  | some o =>
    simp only [ho] at hf
    intro hty
    exact ⟨List.mem_cons_of_mem _ (hf hty).1, List.mem_cons_of_mem _ (hf hty).2⟩

theorem fieldsIn_congr {h h' : Heap} {l : List Ptr} {p : Ptr} (e : h' p = h p)
    (hf : fieldsIn h l p) : fieldsIn h' l p := by
  unfold fieldsIn at hf ⊢
  rw [e]
  exact hf

theorem pushPair_spec {vm : VM} {l : List Ptr} {fuel : Nat} (a : Ptr) (blk : Object)
    (hw : WF vm l) (hc : AllClear vm l) (hf : l.length < fuel) (h2 : 2 ≤ vm.stackSize)
    (ha : a ≠ NULL) (hfresh : ∀ vm1, newObjectGc fuel vm = Res.ok vm1 → vm1.heap a = none) :
    ∃ vm1 l1 vm', newObjectGc fuel vm = Res.ok vm1 ∧
      pushPair fuel vm a blk = Res.ok (vm', a) ∧
      WF vm1 l1 ∧ AllClear vm1 l1 ∧ a ∉ l1 ∧
      WF vm' (a :: l1) ∧ AllClear vm' (a :: l1) ∧
      vm'.heap a = some { blk with
        type := ObjectType.OBJ_PAIR, marked := 0, next := vm1.firstObject,
        head := vm.stack (vm.stackSize - 2), tail := vm.stack (vm.stackSize - 1) } ∧
      (∀ q, q ≠ a → vm'.heap q = vm1.heap q) ∧
      vm'.out = vm1.out ∧ vm'.maxObjects = vm1.maxObjects ∧
      vm'.numObjects = wrapInt (vm1.numObjects + 1) ∧ vm'.firstObject = a ∧
      (∀ q, Reachable vm q → q ∈ l1 ∧ keeps vm.heap vm1.heap q) := by
  obtain ⟨vm1, l1, h1, hw1, hc1, hst, hsz, hkeep⟩ := newObjectGc_spec hw hc hf
  have hrun := pushPair_eq fuel vm vm1 a blk h1 (hsz ▸ h2) hw1.2.1
  have hal : a ∉ l1 := by
    intro hmem
    have := (hw1.valid a hmem).1
    rw [hfresh vm1 h1] at this
    exact Bool.noConfusion this
  obtain ⟨hreg, hclear⟩ := alloc_inv (o := { blk with
    type := ObjectType.OBJ_PAIR, marked := 0, next := vm1.firstObject,
    head := vm1.stack (vm1.stackSize - 2), tail := vm1.stack (vm1.stackSize - 1) })
    hw1.1 hc1 ha (hfresh vm1 h1) rfl rfl
  have hx : vm1.stack (vm1.stackSize - 2) ∈ l1 := hw1.2.2.1 _ (by omega)
  have hy : vm1.stack (vm1.stackSize - 1) ∈ l1 := hw1.2.2.1 _ (by omega)
  refine ⟨vm1, l1, _, h1, hrun, hw1, hc1, hal, ⟨hreg, ?_, ?_, ?_⟩, hclear, ?_,
    fun q hq => upd_other _ _ _ _ hq, rfl, rfl, rfl, rfl, hkeep⟩
  · show vm1.stackSize - 1 ≤ STACK_MAX
    have := hw1.2.1
    omega
  · intro i hi
    show (if i = vm1.stackSize - 2 then a else vm1.stack i) ∈ a :: l1
    by_cases e : i = vm1.stackSize - 2
    · simp [e]
    · rw [if_neg e]
      have hi' : i < vm1.stackSize - 1 := hi
      exact List.mem_cons_of_mem _ (hw1.2.2.1 i (by omega))
  · intro p hp
    rcases List.mem_cons.1 hp with e | e
    · subst e
      unfold fieldsIn
      simp only [upd_same]
      intro _
      exact ⟨List.mem_cons_of_mem _ hx, List.mem_cons_of_mem _ hy⟩
    · have hne : p ≠ a := fun e' => hal (e' ▸ e)
      exact fieldsIn_congr (upd_other _ _ _ _ hne) (fieldsIn_cons a (hw1.2.2.2 p e))
  · show upd vm1.heap a _ a = _
    rw [upd_same, hst, hsz]

/-- C10 (no premature reclamation during pair construction): on a well-formed state
with clear flags and at least two root entries, whether or not the allocation inside
`pushPair` runs a collection, the two operands and every object reachable from them
are in the registry after `pushPair`, with unchanged type and payload, and they are
the head and tail of the new pair.  After `newObject` has returned, only the stack
and the fields of the new pair change: nothing is printed and no other heap cell,
counter or registry link is touched, so no collection runs between the pops and the
field assignments; when the count is at the threshold exactly one collection is
reported, before the allocation. -/
theorem pushPair_keeps_operands (vm : VM) (l : List Ptr) (fuel : Nat) (a : Ptr)
    (blk : Object) (hw : WF vm l) (hc : AllClear vm l) (hf : l.length < fuel)
    (h2 : 2 ≤ vm.stackSize) (ha : a ≠ NULL)
    (hfresh : ∀ vm1, newObjectGc fuel vm = Res.ok vm1 → vm1.heap a = none) :
    ∃ vm0 vm' l' o,
      newObject fuel vm ObjectType.OBJ_PAIR a blk = Res.ok (vm0, a) ∧
      pushPair fuel vm a blk = Res.ok (vm', a) ∧
      Registry vm' l' ∧ vm'.heap a = some o ∧
      o.head = vm.stack (vm.stackSize - 2) ∧ o.tail = vm.stack (vm.stackSize - 1) ∧
      (∀ q, Reach vm.heap [vm.stack (vm.stackSize - 2), vm.stack (vm.stackSize - 1)] q →
        q ≠ a ∧ q ∈ l' ∧ keeps vm.heap vm'.heap q) ∧
      vm'.out = vm0.out ∧ vm'.firstObject = vm0.firstObject ∧
      vm'.numObjects = vm0.numObjects ∧ vm'.maxObjects = vm0.maxObjects ∧
      (∀ q, q ≠ a → vm'.heap q = vm0.heap q) ∧
      (vm.numObjects = vm.maxObjects →
        vm'.out = vm.out ++ [Msg.gcNeeded, Msg.enteringGc, Msg.markingObjects]) ∧
      (vm.numObjects ≠ vm.maxObjects → vm'.out = vm.out) := by
  obtain ⟨vm1, l1, vm', h1, hrun, hw1, _, hal, hw', _, hheap, hother, hout, hmax, hnum,
    hfirst, hkeep⟩ := pushPair_spec a blk hw hc hf h2 ha hfresh
  have hsub : ∀ r ∈ [vm.stack (vm.stackSize - 2), vm.stack (vm.stackSize - 1)],
      Reach vm.heap (roots vm) r := by
    intro r hr
    simp only [List.mem_cons, List.mem_singleton, List.not_mem_nil, or_false] at hr
    rcases hr with e | e
    · exact Reach.root r ((mem_roots vm r).2 ⟨vm.stackSize - 2, by omega, e.symm⟩)
    · exact Reach.root r ((mem_roots vm r).2 ⟨vm.stackSize - 1, by omega, e.symm⟩)
  refine ⟨allocAt vm1 ObjectType.OBJ_PAIR a blk, vm', a :: l1, _, by simp only [newObject, h1],
    hrun, hw'.1, hheap, rfl, rfl, ?_, hout, hfirst, hnum, hmax, ?_, ?_, ?_⟩
  · intro q hq
    obtain ⟨hmem, o, o', e1, e2, e3⟩ := hkeep q (Reach.mono_roots hsub hq)
    have hne : q ≠ a := fun e => hal (e ▸ hmem)
    exact ⟨hne, List.mem_cons_of_mem _ hmem, o, o', e1, by rw [hother q hne]; exact e2, e3⟩
  · intro q hq
    rw [hother q hq]
    exact (upd_other _ _ _ _ hq).symm
  · intro hn
    rcases newObjectGc_cases h1 with ⟨hne, _⟩ | ⟨_, hg⟩
    · exact absurd hn hne
    · have hwg : WF { vm with out := vm.out ++ [Msg.gcNeeded] } l := hw
      have hcg : AllClear { vm with out := vm.out ++ [Msg.gcNeeded] } l := hc
      obtain ⟨vm2, l2, hrun2, post⟩ := gc_spec hwg hcg hf
      rw [hrun2] at hg
      cases hg
      rw [hout, post.out_eq]
      simp
  · intro hn
    rcases newObjectGc_cases h1 with ⟨_, e⟩ | ⟨he, _⟩
    · rw [hout, e]
    · exact absurd he hn

/-- Witness for C10 on the sample machine: the count is at the threshold, so the
allocation inside `pushPair` collects first, and `malloc` reuses address 4, which
that collection released. -/
theorem pushPair_keeps_operands_witness :
    exVM.numObjects = exVM.maxObjects ∧
    ∃ vm0 vm' l' o,
      newObject 8 exVM ObjectType.OBJ_PAIR 4 blk0 = Res.ok (vm0, 4) ∧
      pushPair 8 exVM 4 blk0 = Res.ok (vm', 4) ∧
      Registry vm' l' ∧ vm'.heap 4 = some o ∧
      o.head = 3 ∧ o.tail = 2 ∧
      (∀ q, Reach exVM.heap [3, 2] q → q ≠ 4 ∧ q ∈ l' ∧ keeps exVM.heap vm'.heap q) ∧
      vm'.out = vm0.out ∧ vm'.firstObject = vm0.firstObject ∧
      vm'.numObjects = vm0.numObjects ∧ vm'.maxObjects = vm0.maxObjects ∧
      (∀ q, q ≠ 4 → vm'.heap q = vm0.heap q) ∧
      (exVM.numObjects = exVM.maxObjects →
        vm'.out = exVM.out ++ [Msg.gcNeeded, Msg.enteringGc, Msg.markingObjects]) ∧
      (exVM.numObjects ≠ exVM.maxObjects → vm'.out = exVM.out) := by
  have hfresh : ∀ vm1, newObjectGc 8 exVM = Res.ok vm1 → vm1.heap 4 = none := by
    intro vm1 h
    have e : (match newObjectGc 8 exVM with
      | Res.ok v => v.heap 4
      | _ => none) = none := by decide
    rw [h] at e
    exact e
  exact ⟨rfl, pushPair_keeps_operands exVM exReg 8 4 blk0 (by decide) (by decide) (by decide)
    (by decide) (by decide) hfresh⟩

/-! ## Round trip, teardown, sweep and mark in isolation -/

/-- C16 (LIFO round trip): when the stack is not full, `pop` right after
`push vm x` returns `x`, restores `stackSize` and every entry below the top, prints
nothing, and neither operation touches the heap, the registry head or the counters. -/
theorem push_pop_roundtrip (vm : VM) (x : Ptr) (h : vm.stackSize < STACK_MAX) :
    (pop (push vm x)).2 = x ∧
    (pop (push vm x)).1.stackSize = vm.stackSize ∧
    (∀ i, i < vm.stackSize → (pop (push vm x)).1.stack i = vm.stack i) ∧
    (pop (push vm x)).1.heap = vm.heap ∧
    (pop (push vm x)).1.firstObject = vm.firstObject ∧
    (pop (push vm x)).1.numObjects = vm.numObjects ∧
    (pop (push vm x)).1.maxObjects = vm.maxObjects ∧
    (pop (push vm x)).1.out = vm.out ∧
    (push vm x).heap = vm.heap ∧ (push vm x).firstObject = vm.firstObject ∧
    (push vm x).numObjects = vm.numObjects ∧ (push vm x).maxObjects = vm.maxObjects := by
  have hne : vm.stackSize ≠ STACK_MAX := Nat.ne_of_lt h
  have hp : push vm x =
      { vm with stack := fun i => if i = vm.stackSize then x else vm.stack i,
                stackSize := vm.stackSize + 1 } := by
    unfold push
    rw [if_neg hne]
  rw [hp]
  refine ⟨by simp [pop], by simp [pop], ?_, by simp [pop], by simp [pop], by simp [pop],
    by simp [pop], by simp [pop], rfl, rfl, rfl, rfl⟩
  intro i hi
  have : i ≠ vm.stackSize := Nat.ne_of_lt hi
  simp [pop, this]

/-- Witness for C16 on the machine with one root entry. -/
theorem push_pop_roundtrip_witness :
    (pop (push oneVM 5)).2 = 5 ∧
    (pop (push oneVM 5)).1.stackSize = oneVM.stackSize ∧
    (∀ i, i < oneVM.stackSize → (pop (push oneVM 5)).1.stack i = oneVM.stack i) ∧
    (pop (push oneVM 5)).1.heap = oneVM.heap ∧
    (pop (push oneVM 5)).1.firstObject = oneVM.firstObject ∧
    (pop (push oneVM 5)).1.numObjects = oneVM.numObjects ∧
    (pop (push oneVM 5)).1.maxObjects = oneVM.maxObjects ∧
    (pop (push oneVM 5)).1.out = oneVM.out ∧
    (push oneVM 5).heap = oneVM.heap ∧ (push oneVM 5).firstObject = oneVM.firstObject ∧
    (push oneVM 5).numObjects = oneVM.numObjects ∧
    (push oneVM 5).maxObjects = oneVM.maxObjects :=
  push_pop_roundtrip oneVM 5 (by decide)

theorem not_reach_nil (h : Heap) (q : Ptr) : ¬ Reach h [] q := by
  intro hr
  induction hr with
  | root r hr => simp at hr
  | head _ _ _ _ _ ih => exact ih
  | tail _ _ _ _ _ ih => exact ih

theorem roots_stackSize_zero (vm : VM) : roots { vm with stackSize := 0 } = [] := by
  simp [roots]

/-- C14 (teardown reclaims everything): on a well-formed state with clear flags,
whatever the stack and the object graph hold, the state `freeVM` reaches before it
releases the machine has an empty root stack and an empty registry, and every
object that was registered has been released. -/
theorem freeVM_reclaims_all (vm : VM) (l : List Ptr) (fuel : Nat)
    (hw : WF vm l) (hc : AllClear vm l) (hf : l.length < fuel) :
    ∃ vm', freeVM fuel vm = Res.ok vm' ∧ vm'.stackSize = 0 ∧
      vm'.firstObject = NULL ∧ Registry vm' [] ∧ ∀ q ∈ l, vm'.heap q = none := by
  have hw0 : WF { vm with stackSize := 0 } l :=
    ⟨hw.1, Nat.zero_le _, fun i hi => absurd hi (Nat.not_lt_zero i), hw.2.2.2⟩
  have hc0 : AllClear { vm with stackSize := 0 } l := hc
  obtain ⟨vm', l', hrun, post⟩ := gc_spec hw0 hc0 hf
  have hnil : l' = [] := by
    apply List.eq_nil_iff_forall_not_mem.2
    intro q hq
    have hr := (post.mem_iff q).1 hq
    unfold Reachable at hr
    rw [roots_stackSize_zero] at hr
    exact not_reach_nil _ _ hr
  subst hnil
  refine ⟨vm', hrun, post.stackSize_eq, (chain_nil_iff _ _).1 post.registry, post.registry, ?_⟩
  intro q hq
  exact post.freed q hq (by simp)

/-- Witness for C14 on the sample machine, whose graph has rooted and unrooted cycles. -/
theorem freeVM_reclaims_all_witness :
    ∃ vm', freeVM 8 exVM = Res.ok vm' ∧ vm'.stackSize = 0 ∧
      vm'.firstObject = NULL ∧ Registry vm' [] ∧ ∀ q ∈ exReg, vm'.heap q = none :=
  freeVM_reclaims_all exVM exReg 8 (by decide) (by decide) (by decide)

theorem wrapInt_eq (x : Int) (h1 : -2147483648 ≤ x) (h2 : x < 2147483648) :
    wrapInt x = x := by
  unfold wrapInt
  omega

theorem decr_eq : ∀ (k : Nat) (n : Int),
    -2147483648 ≤ n - (k : Int) → n < 2147483648 → decr k n = n - (k : Int) := by
  intro k
  induction k with
  | zero => intro n _ _; simp [decr]
  | succ k ih =>
    intro n h1 h2
    have hk : ((k + 1 : Nat) : Int) = (k : Int) + 1 := by push_cast; ring
    rw [hk] at h1 ⊢
    have hw : wrapInt (n - 1) = n - 1 := wrapInt_eq _ (by omega) (by omega)
    simp only [decr]
    rw [hw, ih (n - 1) (by omega) (by omega)]
    ring

/-- C18 (sweep is a filter): for a registry list `l` with arbitrary flags, `sweep`
returns; the registry becomes the sublist of `l` of the objects whose flag was set,
in the same order; each of them keeps type and payload and has its flag cleared; the
others are released; cells outside the registry, the stack and the threshold are
unchanged; `numObjects` has been decremented once per removed object (so it has
decreased by exactly that number whenever the `int` does not overflow).  If no flag
was set the registry is empty, and if all were set the registry is `l` again. -/
theorem sweep_is_filter (vm : VM) (l : List Ptr) (fuel : Nat)
    (hreg : Registry vm l) (hf : l.length < fuel) :
    ∃ vm', sweep fuel vm = Res.ok vm' ∧
      Registry vm' (l.filter (isMarked vm.heap)) ∧
      (∀ q ∈ l, isMarked vm.heap q = true →
        ∃ o o', vm.heap q = some o ∧ vm'.heap q = some o' ∧ samePayload o o' ∧
          o'.marked = 0) ∧
      (∀ q ∈ l, isMarked vm.heap q = false → vm'.heap q = none) ∧
      (∀ q, q ∉ l → vm'.heap q = vm.heap q) ∧
      vm'.stack = vm.stack ∧ vm'.stackSize = vm.stackSize ∧
      vm'.maxObjects = vm.maxObjects ∧
      vm'.numObjects =
        decr (l.length - (l.filter (isMarked vm.heap)).length) vm.numObjects ∧
      (-2147483648 ≤
          vm.numObjects - ((l.length - (l.filter (isMarked vm.heap)).length : Nat) : Int) →
        vm.numObjects < 2147483648 →
        vm'.numObjects =
          vm.numObjects - ((l.length - (l.filter (isMarked vm.heap)).length : Nat) : Int)) ∧
      ((∀ q ∈ l, isMarked vm.heap q = false) →
        vm'.firstObject = NULL ∧ Registry vm' []) ∧
      ((∀ q ∈ l, isMarked vm.heap q = true) → Registry vm' l) := by
  obtain ⟨vm', hrun, sp⟩ := sweepLoop_spec l fuel vm Loc.first vm.firstObject rfl hreg
    (by simp) hf
  obtain ⟨p', hp', hc'⟩ := sp.chain_eq
  simp only [loadLoc, Option.some.injEq] at hp'
  subst hp'
  have hnum : vm'.numObjects =
      decr (l.length - (l.filter (isMarked vm.heap)).length) vm.numObjects := by
    have := sp.numObjects_eq
    simp only [pending] at this
    rw [length_sub_filter] at this
    exact this
  have hreg' : Registry vm' (l.filter (isMarked vm.heap)) := hc'
  refine ⟨vm', hrun, hreg', sp.kept, sp.freed, fun q hq => sp.frame q hq (by simp),
    sp.stack_eq, sp.stackSize_eq, sp.maxObjects_eq, hnum, ?_, ?_, ?_⟩
  · intro h1 h2
    rw [hnum]
    exact decr_eq _ _ h1 h2
  · intro hall
    have hnil : l.filter (isMarked vm.heap) = [] := by
      apply List.filter_eq_nil_iff.2
      intro q hq
      rw [hall q hq]
      exact Bool.noConfusion
    rw [hnil] at hreg'
    exact ⟨(chain_nil_iff _ _).1 hreg', hreg'⟩
  · intro hall
    have hself : l.filter (isMarked vm.heap) = l := List.filter_eq_self.2 hall
    rw [hself] at hreg'
    exact hreg'

/-- Witness for C18: in the sample registry the first, an interior and the last entry
are unmarked and the other four are marked. -/
theorem sweep_is_filter_witness :
    exReg.filter (isMarked sweepVM.heap) = [6, 5, 3, 2] ∧
    ∃ vm', sweep 8 sweepVM = Res.ok vm' ∧
      Registry vm' (exReg.filter (isMarked sweepVM.heap)) ∧
      (∀ q ∈ exReg, isMarked sweepVM.heap q = true →
        ∃ o o', sweepVM.heap q = some o ∧ vm'.heap q = some o' ∧ samePayload o o' ∧
          o'.marked = 0) ∧
      (∀ q ∈ exReg, isMarked sweepVM.heap q = false → vm'.heap q = none) ∧
      (∀ q, q ∉ exReg → vm'.heap q = sweepVM.heap q) ∧
      vm'.stack = sweepVM.stack ∧ vm'.stackSize = sweepVM.stackSize ∧
      vm'.maxObjects = sweepVM.maxObjects ∧
      vm'.numObjects =
        decr (exReg.length - (exReg.filter (isMarked sweepVM.heap)).length)
          sweepVM.numObjects ∧
      (-2147483648 ≤ sweepVM.numObjects -
          ((exReg.length - (exReg.filter (isMarked sweepVM.heap)).length : Nat) : Int) →
        sweepVM.numObjects < 2147483648 →
        vm'.numObjects = sweepVM.numObjects -
          ((exReg.length - (exReg.filter (isMarked sweepVM.heap)).length : Nat) : Int)) ∧
      ((∀ q ∈ exReg, isMarked sweepVM.heap q = false) →
        vm'.firstObject = NULL ∧ Registry vm' []) ∧
      ((∀ q ∈ exReg, isMarked sweepVM.heap q = true) → Registry vm' exReg) :=
  ⟨by decide, sweep_is_filter sweepVM exReg 8 (by decide) (by decide)⟩

/-- C19 (mark computes exactly the reachable set and touches nothing else): on a
well-formed state with clear flags `markAll` returns; afterwards a registered object
has `marked == 1` if it is reachable from the root stack and `marked == 0` if it is
not; type, `next` link, value, head and tail of every object, the cells outside the
registry, the registry head and list, the stack and both counters are unchanged. -/
theorem markAll_exact (vm : VM) (l : List Ptr) (fuel : Nat)
    (hw : WF vm l) (hc : AllClear vm l) (hf : l.length < fuel) :
    ∃ vm' t, markAll fuel vm = Res.ok (vm', t) ∧
      (∀ q ∈ l, ∃ o o', vm.heap q = some o ∧ vm'.heap q = some o' ∧
        (Reachable vm q → o'.marked = 1) ∧ (¬ Reachable vm q → o'.marked = 0) ∧
        (o'.marked = 1 ↔ Reachable vm q) ∧
        o'.type = o.type ∧ o'.next = o.next ∧ o'.value = o.value ∧
        o'.head = o.head ∧ o'.tail = o.tail) ∧
      (∀ q, q ∉ l → vm'.heap q = vm.heap q) ∧
      Registry vm' l ∧ vm'.firstObject = vm.firstObject ∧
      vm'.stack = vm.stack ∧ vm'.stackSize = vm.stackSize ∧
      vm'.numObjects = vm.numObjects ∧ vm'.maxObjects = vm.maxObjects := by
  obtain ⟨t, hrun, mp⟩ := markAll_spec hw hf
  have hlog : ∀ q, q ∈ t ↔ Reachable vm q :=
    fun q => ⟨mp.reach q, reach_logged hw hc mp⟩
  refine ⟨_, t, hrun, ?_, ?_, chain_markSet t l _ hw.1, rfl, rfl, rfl, rfl, rfl⟩
  · intro q hq
    have hsome := (hw.valid q hq).1
    cases ho : vm.heap q with
    | none => simp [ho] at hsome
    | some o =>
      have hm0 : o.marked = 0 := by
        have := hc q hq
        simpa [isMarked, ho] using this
      by_cases hr : Reachable vm q
      · have hqt := (hlog q).2 hr
        refine ⟨o, { o with marked := 1 }, rfl, by simp [markSet, hqt, ho], fun _ => rfl,
          fun hn => absurd hr hn, ⟨fun _ => hr, fun _ => rfl⟩, rfl, rfl, rfl, rfl, rfl⟩
      · have hqt : q ∉ t := fun h => hr ((hlog q).1 h)
        refine ⟨o, o, rfl, by simp [markSet, hqt, ho], fun h => absurd h hr,
          fun _ => hm0, ⟨fun h => ?_, fun h => absurd h hr⟩, rfl, rfl, rfl, rfl, rfl⟩
        rw [hm0] at h
        exact absurd h (by decide)
  · intro q hq
    have hqt : q ∉ t := fun h => hq (hw.reach_in ((hlog q).1 h))
    simp [markSet, hqt]

/-- Witness for C19 on the sample machine. -/
theorem markAll_exact_witness :
    ∃ vm' t, markAll 8 exVM = Res.ok (vm', t) ∧
      (∀ q ∈ exReg, ∃ o o', exVM.heap q = some o ∧ vm'.heap q = some o' ∧
        (Reachable exVM q → o'.marked = 1) ∧ (¬ Reachable exVM q → o'.marked = 0) ∧
        (o'.marked = 1 ↔ Reachable exVM q) ∧
        o'.type = o.type ∧ o'.next = o.next ∧ o'.value = o.value ∧
        o'.head = o.head ∧ o'.tail = o.tail) ∧
      (∀ q, q ∉ exReg → vm'.heap q = exVM.heap q) ∧
      Registry vm' exReg ∧ vm'.firstObject = exVM.firstObject ∧
      vm'.stack = exVM.stack ∧ vm'.stackSize = exVM.stackSize ∧
      vm'.numObjects = exVM.numObjects ∧ vm'.maxObjects = exVM.maxObjects :=
  markAll_exact exVM exReg 8 (by decide) (by decide) (by decide)

/-! ## Root order -/

theorem sublist_eq_filter {l' l : List Ptr} (hs : List.Sublist l' l) (hn : l.Nodup) :
    l' = l.filter (fun x => decide (x ∈ l')) := by
  induction hs with
  | slnil => rfl
  | @cons l1 l2 a hs ih =>
    have ha : a ∉ l1 := fun h => (List.nodup_cons.1 hn).1 (hs.subset h)
    rw [List.filter_cons]
    simp only [ha, decide_False, Bool.false_eq_true, if_false]
    exact ih (List.nodup_cons.1 hn).2
  | @cons₂ l1 l2 a hs ih =>
    have ha : a ∉ l2 := (List.nodup_cons.1 hn).1
    rw [List.filter_cons]
    simp only [List.mem_cons, true_or, decide_True, if_true]
    congr 1
    have hcongr : l2.filter (fun x => decide (x = a ∨ x ∈ l1)) =
        l2.filter (fun x => decide (x ∈ l1)) := by
      apply List.filter_congr
      intro x hx
      have hxa : x ≠ a := fun e => ha (e ▸ hx)
      simp [hxa]
    rw [hcongr]
    exact ih (List.nodup_cons.1 hn).2

theorem sublist_unique {l1 l2 l : List Ptr} (h1 : List.Sublist l1 l)
    (h2 : List.Sublist l2 l) (hn : l.Nodup) (hm : ∀ x, x ∈ l1 ↔ x ∈ l2) : l1 = l2 := by
  rw [sublist_eq_filter h1 hn, sublist_eq_filter h2 hn]
  apply List.filter_congr
  intro x _
  simp [hm x]

theorem chain_first_next {h h' : Heap} : ∀ (l : List Ptr) (p p' : Ptr),
    chain h p l = true → chain h' p' l = true →
    p = p' ∧ ∀ q ∈ l, ∀ o o', h q = some o → h' q = some o' → o.next = o'.next := by
  intro l
  induction l with
  | nil =>
    intro p p' hc hc'
    rw [chain_nil_iff] at hc hc'
    exact ⟨hc.trans hc'.symm, by simp⟩
  | cons x l ih =>
    intro p p' hc hc'
    have hnd := chain_nodup _ _ hc
    rw [chain_cons_iff] at hc hc'
    obtain ⟨e, _, o, ho, hc⟩ := hc
    obtain ⟨e', _, o', ho', hc'⟩ := hc'
    subst e
    subst e'
    obtain ⟨hn, hrest⟩ := ih _ _ hc hc'
    refine ⟨rfl, ?_⟩
    intro q hq o1 o1' h1 h1'
    rcases List.mem_cons.1 hq with e | e
    · subst e
      rw [ho] at h1
      rw [ho'] at h1'
      cases h1
      cases h1'
      exact hn
    · exact hrest q e o1 o1' h1 h1'

theorem object_ext {o o' : Object} (h1 : o'.type = o.type) (h2 : o'.marked = o.marked)
    (h3 : o'.next = o.next) (h4 : o'.value = o.value) (h5 : o'.head = o.head)
    (h6 : o'.tail = o.tail) : o' = o := by
  cases o
  cases o'
  simp only at h1 h2 h3 h4 h5 h6
  subst h1 h2 h3 h4 h5 h6
  rfl

theorem reach_perm {h : Heap} {rs rs' : List Ptr} (hp : List.Perm rs rs') (q : Ptr) :
    Reach h rs q ↔ Reach h rs' q :=
  ⟨Reach.mono_roots (fun r hr => Reach.root r (hp.subset hr)),
   Reach.mono_roots (fun r hr => Reach.root r (hp.symm.subset hr))⟩

theorem length_roots (vm : VM) : (roots vm).length = vm.stackSize := by
  simp [roots]

/-- C15 (root order irrelevance): two well-formed states with clear flags that have
the same heap, registry head and counters and whose root stacks hold the same entries
in a different order are collected to the same heap (same surviving objects, same
registry order and links, same payloads, flags clear), the same registry head, the
same `numObjects` and the same `maxObjects` (whatever the thresholds were before). -/
theorem gc_root_order_irrelevant (vm1 vm2 : VM) (l : List Ptr) (fuel : Nat)
    (hw : WF vm1 l) (hc : AllClear vm1 l) (hf : l.length < fuel)
    (hheap : vm2.heap = vm1.heap) (hfirst : vm2.firstObject = vm1.firstObject)
    (hnum : vm2.numObjects = vm1.numObjects)
    (hperm : List.Perm (roots vm2) (roots vm1)) :
    ∃ r1 r2 l', gc fuel vm1 = Res.ok r1 ∧ gc fuel vm2 = Res.ok r2 ∧
      Registry r1 l' ∧ Registry r2 l' ∧ AllClear r1 l' ∧ AllClear r2 l' ∧
      r1.heap = r2.heap ∧ r1.firstObject = r2.firstObject ∧
      r1.numObjects = r2.numObjects ∧ r1.maxObjects = r2.maxObjects := by
  have hsz : vm2.stackSize = vm1.stackSize := by
    rw [← length_roots vm2, ← length_roots vm1]
    exact hperm.length_eq
  have hw2 : WF vm2 l := by
    refine ⟨?_, hsz ▸ hw.2.1, ?_, ?_⟩
    · unfold Registry
      rw [hheap, hfirst]
      exact hw.1
    · intro i hi
      have : vm2.stack i ∈ roots vm2 := (mem_roots vm2 _).2 ⟨i, hi, rfl⟩
      exact hw.roots_in _ (hperm.subset this)
    · rw [hheap]
      exact hw.2.2.2
  have hc2 : AllClear vm2 l := by
    unfold AllClear
    rw [hheap]
    exact hc
  obtain ⟨r1, l1, hrun1, p1⟩ := gc_spec hw hc hf
  obtain ⟨r2, l2, hrun2, p2⟩ := gc_spec hw2 hc2 hf
  have hreach : ∀ q, Reachable vm2 q ↔ Reachable vm1 q := by
    intro q
    unfold Reachable
    rw [hheap]
    exact reach_perm hperm q
  have hl : l2 = l1 := by
    apply sublist_unique p2.sublist p1.sublist (chain_nodup _ _ hw.1)
    intro x
    rw [p2.mem_iff, p1.mem_iff]
    exact hreach x
  subst hl
  obtain ⟨hf12, hnext⟩ := chain_first_next l2 _ _ p1.registry p2.registry
  have hn12 : r1.numObjects = r2.numObjects := by
    rw [p1.numObjects_eq, p2.numObjects_eq, hnum]
  refine ⟨r1, r2, l2, hrun1, hrun2, p1.registry, p2.registry, p1.clear, p2.clear, ?_,
    hf12, hn12, ?_⟩
  · funext q
    by_cases hq : q ∈ l
    · by_cases hq' : q ∈ l2
      · obtain ⟨o1, o1', a1, b1, c1, d1⟩ := p1.kept q hq'
        obtain ⟨o2, o2', a2, b2, c2, d2⟩ := p2.kept q hq'
        rw [hheap, a1] at a2
        cases a2
        rw [b1, b2]
        congr 1
        exact object_ext (c1.1.trans c2.1.symm) (d1.trans d2.symm)
          (hnext q hq' o1' o2' b1 b2) (c1.2.1.trans c2.2.1.symm)
          (c1.2.2.1.trans c2.2.2.1.symm) (c1.2.2.2.trans c2.2.2.2.symm)
      · rw [p1.freed q hq hq', p2.freed q hq hq']
    · rw [p1.frame q hq, p2.frame q hq, hheap]
  · rw [p1.maxObjects_eq, p2.maxObjects_eq, hn12]

/-- Witness for C15: the sample machine with roots 3, 2 and with roots 2, 3. -/
theorem gc_root_order_irrelevant_witness :
    roots exVM = [3, 2] ∧ roots swapVM = [2, 3] ∧
    ∃ r1 r2 l', gc 8 exVM = Res.ok r1 ∧ gc 8 swapVM = Res.ok r2 ∧
      Registry r1 l' ∧ Registry r2 l' ∧ AllClear r1 l' ∧ AllClear r2 l' ∧
      r1.heap = r2.heap ∧ r1.firstObject = r2.firstObject ∧
      r1.numObjects = r2.numObjects ∧ r1.maxObjects = r2.maxObjects :=
  ⟨by decide, by decide, gc_root_order_irrelevant exVM swapVM exReg 8 (by decide) (by decide)
    (by decide) rfl rfl rfl (List.Perm.swap 3 2 [])⟩

/-! ## Allocation trigger and threshold -/

/-- On `aboveVM` the count (1) is above the threshold (0) and `newObject` allocates
directly: nothing is printed, the unreachable object 1 is still allocated afterwards,
and the result is not that of collecting first. -/
theorem aboveVM_no_collection :
    aboveVM.numObjects ≥ aboveVM.maxObjects ∧ WF aboveVM [1] ∧ AllClear aboveVM [1] ∧
    ¬ Reachable aboveVM 1 ∧
    newObject 5 aboveVM ObjectType.OBJ_INT 2 blk0 =
      Res.ok (allocAt aboveVM ObjectType.OBJ_INT 2 blk0, 2) ∧
    (allocAt aboveVM ObjectType.OBJ_INT 2 blk0).out = [] ∧
    (allocAt aboveVM ObjectType.OBJ_INT 2 blk0).heap 1 ≠ none ∧
    ¬ ∃ vm1, gc 5 { aboveVM with out := aboveVM.out ++ [Msg.gcNeeded] } = Res.ok vm1 ∧
        newObject 5 aboveVM ObjectType.OBJ_INT 2 blk0 =
          Res.ok (allocAt vm1 ObjectType.OBJ_INT 2 blk0, 2) := by
  have hnew : newObject 5 aboveVM ObjectType.OBJ_INT 2 blk0 =
      Res.ok (allocAt aboveVM ObjectType.OBJ_INT 2 blk0, 2) := rfl
  refine ⟨by decide, by decide, by decide, ?_, hnew, rfl, by decide, ?_⟩
  · intro hr
    unfold Reachable at hr
    exact not_reach_nil _ _ hr
  · rintro ⟨vm1, hgc, hrun⟩
    rw [hnew] at hrun
    have e : (match gc 5 { aboveVM with out := aboveVM.out ++ [Msg.gcNeeded] } with
      | Res.ok v => v.heap 1
      | _ => none) = none := by decide
    rw [hgc] at e
    simp only [Res.ok.injEq, Prod.mk.injEq, and_true] at hrun
    have h1 : (allocAt aboveVM ObjectType.OBJ_INT 2 blk0).heap 1 =
        (allocAt vm1 ObjectType.OBJ_INT 2 blk0).heap 1 := by rw [hrun]
    have h2 : (allocAt vm1 ObjectType.OBJ_INT 2 blk0).heap 1 = vm1.heap 1 := by
      simp [allocAt, upd]
    have e' : vm1.heap 1 = none := e
    rw [h2, e'] at h1
    revert h1
    decide

theorem chain_alloc {h : Heap} {f a : Ptr} {l : List Ptr} {o : Object}
    (hc : chain h f l = true) (ha : a ≠ NULL) (hfree : h a = none) (hn : o.next = f) :
    chain (upd h a (some o)) a (a :: l) = true := by
  have hne : ∀ q ∈ l, q ≠ a := by
    intro q hq e
    have := (chain_mem l f q hc hq).2
    rw [e, hfree] at this
    exact Bool.noConfusion this
  rw [chain_cons_iff]
  refine ⟨rfl, ha, o, upd_same _ _ _, ?_⟩
  rw [hn]
  exact chain_congr_eq l f (fun q hq => upd_other _ _ _ _ (hne q hq)) hc

/-- On a well-formed state `newObject` runs a full collection before allocating
when `numObjects == maxObjects` and runs none otherwise (also when the count is
above the threshold); in both cases it then stores the requested type
and `marked = 0` in the block, links it as the new registry head in front of the
previous head, leaves every other cell alone and increments `numObjects` (an `int`)
by one. -/
theorem newObject_branches (vm : VM) (l : List Ptr) (fuel : Nat) (ty : ObjectType)
    (a : Ptr) (blk : Object) (hw : WF vm l) (hf : l.length < fuel) :
    (vm.numObjects = vm.maxObjects →
      ∃ vm1, gc fuel { vm with out := vm.out ++ [Msg.gcNeeded] } = Res.ok vm1 ∧
        newObject fuel vm ty a blk = Res.ok (allocAt vm1 ty a blk, a)) ∧
    (vm.numObjects ≠ vm.maxObjects →
      newObject fuel vm ty a blk = Res.ok (allocAt vm ty a blk, a)) ∧
    (∃ vm1 vm', newObjectGc fuel vm = Res.ok vm1 ∧
      newObject fuel vm ty a blk = Res.ok (vm', a) ∧
      vm'.firstObject = a ∧
      vm'.heap a = some { blk with type := ty, marked := 0, next := vm1.firstObject } ∧
      (∀ q, q ≠ a → vm'.heap q = vm1.heap q) ∧
      vm'.stack = vm1.stack ∧ vm'.stackSize = vm1.stackSize ∧
      vm'.maxObjects = vm1.maxObjects ∧ vm'.out = vm1.out ∧
      vm'.numObjects = wrapInt (vm1.numObjects + 1) ∧
      (-2147483648 ≤ vm1.numObjects → vm1.numObjects < 2147483647 →
        vm'.numObjects = vm1.numObjects + 1) ∧
      (∀ l1, Registry vm1 l1 → a ≠ NULL → vm1.heap a = none → Registry vm' (a :: l1))) := by
  refine ⟨?_, ?_, ?_⟩
  · intro hn
    have hw' : WF { vm with out := vm.out ++ [Msg.gcNeeded] } l := hw
    obtain ⟨vm1, hgc⟩ := gc_total hw' hf
    refine ⟨vm1, hgc, ?_⟩
    unfold newObject newObjectGc
    rw [if_pos hn, hgc]
  · intro hn
    unfold newObject newObjectGc
    rw [if_neg hn]
  · obtain ⟨vm1, h1⟩ := newObjectGc_total hw hf
    refine ⟨vm1, allocAt vm1 ty a blk, h1, by simp only [newObject, h1], rfl,
      upd_same _ _ _, fun q hq => upd_other _ _ _ _ hq, rfl, rfl, rfl, rfl, rfl, ?_, ?_⟩
    · intro h1 h2
      exact wrapInt_eq _ (by omega) (by omega)
    · intro l1 hreg ha hfree
      exact chain_alloc hreg ha hfree rfl

/-- On the sample machine the count equals the threshold, so a collection runs
first. -/
theorem newObject_branches_example :
    exVM.numObjects = exVM.maxObjects ∧
    ∃ vm1, gc 8 { exVM with out := exVM.out ++ [Msg.gcNeeded] } = Res.ok vm1 ∧
      newObject 8 exVM ObjectType.OBJ_INT 9 blk0 =
        Res.ok (allocAt vm1 ObjectType.OBJ_INT 9 blk0, 9) :=
  ⟨rfl, (newObject_branches exVM exReg 8 ObjectType.OBJ_INT 9 blk0 (by decide)
    (by decide)).1 rfl⟩

theorem newObjectGc_skip (fuel : Nat) (vm : VM) (h : vm.numObjects ≠ vm.maxObjects) :
    newObjectGc fuel vm = Res.ok vm := by
  unfold newObjectGc
  rw [if_neg h]

theorem push_out_count (vm : VM) (v : Ptr) (m : Msg) (hm : m ≠ Msg.stackOverflow) :
    (push vm v).out.count m = vm.out.count m := by
  unfold push
  split
  · simp [List.count_append, List.count_singleton, hm.symm]
  · rfl

theorem pop_out_count (vm : VM) (m : Msg) (hm : m ≠ Msg.stackUnderflow) :
    (pop vm).1.out.count m = vm.out.count m := by
  unfold pop
  split
  · simp [List.count_append, List.count_singleton, hm.symm]
  · rfl

theorem step_no_gc (fuel : Nat) (vm : VM) (op : Op) (hop : op.isStackOp = true)
    (hne : op.allocates = true → vm.numObjects ≠ vm.maxObjects) :
    ∃ vm', step fuel vm op = Res.ok vm' ∧ vm'.maxObjects = vm.maxObjects ∧
      vm'.numObjects =
        (if op.allocates = true then wrapInt (vm.numObjects + 1) else vm.numObjects) ∧
      ∀ m, m ≠ Msg.stackOverflow → m ≠ Msg.stackUnderflow →
        vm'.out.count m = vm.out.count m := by
  cases op with
  | pushINT val a blk =>
    have h1 := newObjectGc_skip fuel vm (hne rfl)
    simp only [step, pushINT, newObject, h1]
    simp only [setValue, allocAt, upd_same, Res.ok.injEq, exists_eq_left', push_maxObjects,
      push_numObjects, Op.allocates, if_true, true_and]
    intro m h1 _
    rw [push_out_count _ _ _ h1]
  | pushPair a blk =>
    have h1 := newObjectGc_skip fuel vm (hne rfl)
    simp only [step, pushPair, newObject, h1]
    simp only [setTail, setHead, allocAt, upd_same, pop_heap, Res.ok.injEq,
      exists_eq_left', push_maxObjects, push_numObjects, pop_maxObjects, pop_numObjects,
      Op.allocates, if_true, true_and]
    intro m h1 h2
    rw [push_out_count _ _ _ h1]
    simp only
    rw [pop_out_count _ _ h2]
    simp only
    rw [pop_out_count _ _ h2]
  | pop =>
    refine ⟨_, rfl, pop_maxObjects vm, by simp [Op.allocates], ?_⟩
    intro m _ h2
    exact pop_out_count vm m h2
  | gc => simp [Op.isStackOp] at hop
  | setTail _ _ => simp [Op.isStackOp] at hop

theorem run_no_gc (fuel : Nat) : ∀ (ops : List Op) (vm : VM),
    (∀ op ∈ ops, op.isStackOp = true) → 0 ≤ vm.numObjects →
    vm.numObjects + ((ops.countP Op.allocates : Nat) : Int) ≤ vm.maxObjects →
    vm.maxObjects < 2147483648 →
    ∃ vm', run fuel ops vm = Res.ok vm' ∧ vm'.maxObjects = vm.maxObjects ∧
      vm'.numObjects = vm.numObjects + ((ops.countP Op.allocates : Nat) : Int) ∧
      ∀ m, m ≠ Msg.stackOverflow → m ≠ Msg.stackUnderflow →
        vm'.out.count m = vm.out.count m := by
  intro ops
  induction ops with
  | nil =>
    intro vm _ _ _ _
    exact ⟨vm, rfl, rfl, by simp, fun _ _ _ => rfl⟩
  | cons op ops ih =>
    intro vm hops h0 hle hmax
    rw [List.countP_cons] at hle ⊢
    have hne : op.allocates = true → vm.numObjects ≠ vm.maxObjects := by
      intro ha
      simp only [ha, if_true] at hle
      push_cast at hle
      omega
    obtain ⟨vm1, hstep, hm1, hn1, hout1⟩ :=
      step_no_gc fuel vm op (hops op (List.mem_cons_self _ _)) hne
    have hn1' : vm1.numObjects =
        vm.numObjects + ((if op.allocates = true then 1 else 0 : Nat) : Int) := by
      rw [hn1]
      by_cases ha : op.allocates = true
      · simp only [ha, if_true] at hle ⊢
        push_cast at hle ⊢
        exact wrapInt_eq _ (by omega) (by omega)
      · simp only [ha, if_false]
        simp
    obtain ⟨vm', hrun, hm', hn', hout'⟩ := ih vm1
      (fun o ho => hops o (List.mem_cons_of_mem _ ho))
      (by rw [hn1']; omega)
      (by rw [hn1', hm1]; push_cast at hle ⊢; omega)
      (by rw [hm1]; exact hmax)
    refine ⟨vm', by simp only [run, hstep]; exact hrun, hm'.trans hm1, ?_, ?_⟩
    · rw [hn', hn1']
      push_cast
      ring
    · intro m h1 h2
      rw [hout' m h1 h2, hout1 m h1 h2]

theorem step_keeps_cells (fuel : Nat) (vm : VM) (op : Op) (hop : op.isStackOp = true)
    (hne : op.allocates = true → vm.numObjects ≠ vm.maxObjects) (vm' : VM)
    (h : step fuel vm op = Res.ok vm') (p : Ptr) (hp : vm.heap p ≠ none) :
    vm'.heap p ≠ none := by
  cases op with
  | pushINT val a blk =>
    have h1 := newObjectGc_skip fuel vm (hne rfl)
    simp only [step, pushINT, newObject, h1, setValue, allocAt, upd_same,
      Res.ok.injEq] at h
    subst h
    rw [push_heap]
    simp only [upd]
    split
    · exact Option.some_ne_none _
    · exact hp
  | pushPair a blk =>
    have h1 := newObjectGc_skip fuel vm (hne rfl)
    simp only [step, pushPair, newObject, h1, setTail, setHead, allocAt, upd_same,
      pop_heap, Res.ok.injEq] at h
    subst h
    rw [push_heap]
    simp only [upd]
    split
    · exact Option.some_ne_none _
    · exact hp
  | pop =>
    simp only [step, Res.ok.injEq] at h
    subst h
    rw [pop_heap]
    exact hp
  | gc => simp [Op.isStackOp] at hop
  | setTail _ _ => simp [Op.isStackOp] at hop

theorem run_above (fuel : Nat) : ∀ (ops : List Op) (vm : VM),
    (∀ op ∈ ops, op.isStackOp = true) → -2147483648 ≤ vm.maxObjects →
    vm.maxObjects < vm.numObjects →
    vm.numObjects + ((ops.countP Op.allocates : Nat) : Int) ≤ 2147483647 →
    ∃ vm', run fuel ops vm = Res.ok vm' ∧ vm'.maxObjects = vm.maxObjects ∧
      vm'.numObjects = vm.numObjects + ((ops.countP Op.allocates : Nat) : Int) ∧
      (∀ m, m ≠ Msg.stackOverflow → m ≠ Msg.stackUnderflow →
        vm'.out.count m = vm.out.count m) ∧
      ∀ p, vm.heap p ≠ none → vm'.heap p ≠ none := by
  intro ops
  induction ops with
  | nil =>
    intro vm _ _ _ _
    exact ⟨vm, rfl, rfl, by simp, fun _ _ _ => rfl, fun _ h => h⟩
  | cons op ops ih =>
    intro vm hops hlo habove hle
    rw [List.countP_cons] at hle ⊢
    have hne : op.allocates = true → vm.numObjects ≠ vm.maxObjects := by
      intro _
      omega
    have hop := hops op (List.mem_cons_self _ _)
    obtain ⟨vm1, hstep, hm1, hn1, hout1⟩ := step_no_gc fuel vm op hop hne
    have hn1' : vm1.numObjects =
        vm.numObjects + ((if op.allocates = true then 1 else 0 : Nat) : Int) := by
      rw [hn1]
      by_cases ha : op.allocates = true
      · simp only [ha, if_true] at hle ⊢
        push_cast at hle ⊢
        exact wrapInt_eq _ (by omega) (by omega)
      · simp only [ha, if_false]
        simp
    have hge : vm.numObjects ≤ vm1.numObjects := by
      rw [hn1']
      omega
    obtain ⟨vm', hrun, hm', hn', hout', hheap'⟩ := ih vm1
      (fun o ho => hops o (List.mem_cons_of_mem _ ho))
      (by rw [hm1]; exact hlo)
      (by rw [hm1]; omega)
      (by rw [hn1']; push_cast at hle ⊢; omega)
    refine ⟨vm', by simp only [run, hstep]; exact hrun, hm'.trans hm1, ?_, ?_, ?_⟩
    · rw [hn', hn1']
      push_cast
      ring
    · intro m h1 h2
      rw [hout' m h1 h2, hout1 m h1 h2]
    · intro p hp
      exact hheap' p (step_keeps_cells fuel vm op hop hne vm1 hstep p hp)

/-- C12 (allocation trigger), evaluated on the code: the guard in `newObject` is the
equality `numObjects == maxObjects`.  From the empty machine (threshold 8) the calls
`pushINT, pop, gc, pushINT, pop` return a state with count 1 above threshold 0, the one
registered object unreachable; there the count has reached the threshold, yet
`newObject` allocates without collecting and the unreachable object stays allocated.
After three more `pushINT, pop` pairs the count is 4, all four registered objects are
unreachable and still allocated, and "GC needed" has been printed once in the whole
run.  In general `newObject` runs no collection whenever the count differs from the
threshold, and from any state with the count above the threshold no sequence of
`pushINT`, `pushPair` and `pop` calls (short of overflowing the `int` count) runs a
collection or releases a cell.  On a well-formed state with the count equal to the
threshold `newObject` does collect first, and after the allocation the new object
has the requested type and `marked = 0`, is the registry head in front of the
previous head, and the count has grown by one. -/
theorem newObject_trigger_stuck_above :
    (∃ vm1, run 5 [Op.pushINT 1 1 blk0, Op.pop, Op.gc, Op.pushINT 2 2 blk0, Op.pop]
        emptyVM = Res.ok vm1 ∧
      vm1.numObjects = 1 ∧ vm1.maxObjects = 0 ∧ vm1.numObjects ≥ vm1.maxObjects ∧
      vm1.stackSize = 0 ∧ WF vm1 [2] ∧ AllClear vm1 [2] ∧ ¬ Reachable vm1 2 ∧
      vm1.out.count Msg.gcNeeded = 1 ∧
      newObject 5 vm1 ObjectType.OBJ_INT 3 blk0 =
        Res.ok (allocAt vm1 ObjectType.OBJ_INT 3 blk0, 3) ∧
      (allocAt vm1 ObjectType.OBJ_INT 3 blk0).out = vm1.out ∧
      (allocAt vm1 ObjectType.OBJ_INT 3 blk0).heap 2 ≠ none) ∧
    (∃ vm2, run 5 [Op.pushINT 1 1 blk0, Op.pop, Op.gc, Op.pushINT 2 2 blk0, Op.pop,
        Op.pushINT 3 3 blk0, Op.pop, Op.pushINT 4 4 blk0, Op.pop,
        Op.pushINT 5 5 blk0, Op.pop] emptyVM = Res.ok vm2 ∧
      vm2.numObjects = 4 ∧ vm2.maxObjects = 0 ∧ vm2.stackSize = 0 ∧
      WF vm2 [5, 4, 3, 2] ∧ (∀ q ∈ [5, 4, 3, 2], ¬ Reachable vm2 q) ∧
      vm2.out.count Msg.gcNeeded = 1) ∧
    (∀ (fuel : Nat) (vm : VM) (ty : ObjectType) (a : Ptr) (blk : Object),
      vm.numObjects ≠ vm.maxObjects →
      newObject fuel vm ty a blk = Res.ok (allocAt vm ty a blk, a)) ∧
    (∀ (fuel : Nat) (ops : List Op) (vm : VM), (∀ op ∈ ops, op.isStackOp = true) →
      -2147483648 ≤ vm.maxObjects → vm.maxObjects < vm.numObjects →
      vm.numObjects + ((ops.countP Op.allocates : Nat) : Int) ≤ 2147483647 →
      ∃ vm', run fuel ops vm = Res.ok vm' ∧
        vm'.out.count Msg.gcNeeded = vm.out.count Msg.gcNeeded ∧
        vm'.out.count Msg.enteringGc = vm.out.count Msg.enteringGc ∧
        vm'.numObjects = vm.numObjects + ((ops.countP Op.allocates : Nat) : Int) ∧
        vm'.maxObjects = vm.maxObjects ∧
        ∀ p, vm.heap p ≠ none → vm'.heap p ≠ none) ∧
    (∀ (vm : VM) (l : List Ptr) (fuel : Nat) (ty : ObjectType) (a : Ptr) (blk : Object),
      WF vm l → l.length < fuel →
      (vm.numObjects = vm.maxObjects →
        ∃ vm1, gc fuel { vm with out := vm.out ++ [Msg.gcNeeded] } = Res.ok vm1 ∧
          newObject fuel vm ty a blk = Res.ok (allocAt vm1 ty a blk, a)) ∧
      (∃ vm1 vm', newObjectGc fuel vm = Res.ok vm1 ∧
        newObject fuel vm ty a blk = Res.ok (vm', a) ∧
        vm'.firstObject = a ∧
        vm'.heap a = some { blk with type := ty, marked := 0, next := vm1.firstObject } ∧
        (∀ q, q ≠ a → vm'.heap q = vm1.heap q) ∧
        vm'.stack = vm1.stack ∧ vm'.stackSize = vm1.stackSize ∧
        vm'.maxObjects = vm1.maxObjects ∧ vm'.out = vm1.out ∧
        vm'.numObjects = wrapInt (vm1.numObjects + 1) ∧
        (-2147483648 ≤ vm1.numObjects → vm1.numObjects < 2147483647 →
          vm'.numObjects = vm1.numObjects + 1) ∧
        (∀ l1, Registry vm1 l1 → a ≠ NULL → vm1.heap a = none →
          Registry vm' (a :: l1)))) := by
  refine ⟨⟨_, rfl, rfl, rfl, by decide, rfl, by decide, by decide, ?_, by decide, rfl, rfl,
    by decide⟩, ⟨_, rfl, rfl, rfl, rfl, by decide, ?_, by decide⟩, ?_, ?_, ?_⟩
  · intro hr
    unfold Reachable at hr
    exact not_reach_nil _ _ hr
  · intro q _ hr
    unfold Reachable at hr
    exact not_reach_nil _ _ hr
  · intro fuel vm ty a blk hn
    unfold newObject newObjectGc
    rw [if_neg hn]
  · intro fuel ops vm hops hlo habove hle
    obtain ⟨vm', hrun, hm', hn', hout', hheap'⟩ := run_above fuel ops vm hops hlo habove hle
    exact ⟨vm', hrun, hout' _ (by decide) (by decide), hout' _ (by decide) (by decide),
      hn', hm', hheap'⟩
  · intro vm l fuel ty a blk hw hf
    have h := newObject_branches vm l fuel ty a blk hw hf
    exact ⟨h.1, h.2.2⟩

/-- Whenever `gc` returns, `maxObjects` is `2 * numObjects` computed on `int`; if the
count left by the collection is non-negative and its double fits in an `int`, the
threshold is exactly the double, and stack operations going through `newObject` at
most that many times return without running a collection. -/
theorem gc_threshold (vm vm0 : VM) (fuel : Nat) (hgc : gc fuel vm = Res.ok vm0) :
    vm0.maxObjects = wrapInt (2 * vm0.numObjects) ∧
    (0 ≤ vm0.numObjects → vm0.numObjects < 1073741824 →
      vm0.maxObjects = 2 * vm0.numObjects ∧
      ∀ (ops : List Op) (fuel' : Nat), (∀ op ∈ ops, op.isStackOp = true) →
        ((ops.countP Op.allocates : Nat) : Int) ≤ vm0.numObjects →
        ∃ vm', run fuel' ops vm0 = Res.ok vm' ∧
          vm'.out.count Msg.gcNeeded = vm0.out.count Msg.gcNeeded ∧
          vm'.out.count Msg.enteringGc = vm0.out.count Msg.enteringGc ∧
          vm'.numObjects = vm0.numObjects + ((ops.countP Op.allocates : Nat) : Int) ∧
          vm'.maxObjects = vm0.maxObjects) := by
  obtain ⟨t, vm2, _, _, e⟩ := gc_ok hgc
  have hmax : vm0.maxObjects = wrapInt (2 * vm0.numObjects) := by
    rw [e]
  refine ⟨hmax, ?_⟩
  intro h0 hk
  have hmax2 : vm0.maxObjects = 2 * vm0.numObjects := by
    rw [hmax]
    exact wrapInt_eq _ (by omega) (by omega)
  refine ⟨hmax2, ?_⟩
  intro ops fuel' hops hcount
  obtain ⟨vm', hrun, hm', hn', hout'⟩ := run_no_gc fuel' ops vm0 hops h0
    (by rw [hmax2]; omega) (by rw [hmax2]; omega)
  exact ⟨vm', hrun, hout' _ (by decide) (by decide), hout' _ (by decide) (by decide),
    hn', hm'⟩

/-- C13 (threshold growth): on a well-formed state with registry `l`, `gc` returns
once the fuel exceeds the length of `l`, and in the state it returns `maxObjects` is
`2 * numObjects` computed on `int`; if the count `k` left by the collection is
non-negative and `2 * k` fits in an `int`, then `maxObjects` is exactly `2 * k`, and
any sequence of `pushINT`, `pushPair` and `pop` calls that goes through `newObject` at
most `k` times returns without running a collection: no "GC needed" and no
"Entering gc" message is added, the threshold is unchanged and the count has grown by
the number of allocations.  The same holds of the result of any call of `gc` that
returns, well-formed state or not. -/
theorem threshold_growth (vm : VM) (l : List Ptr) (fuel : Nat) (hw : WF vm l)
    (hf : l.length < fuel) :
    (∃ vm0, gc fuel vm = Res.ok vm0 ∧
      vm0.maxObjects = wrapInt (2 * vm0.numObjects) ∧
      (0 ≤ vm0.numObjects → vm0.numObjects < 1073741824 →
        vm0.maxObjects = 2 * vm0.numObjects ∧
        ∀ (ops : List Op) (fuel' : Nat), (∀ op ∈ ops, op.isStackOp = true) →
          ((ops.countP Op.allocates : Nat) : Int) ≤ vm0.numObjects →
          ∃ vm', run fuel' ops vm0 = Res.ok vm' ∧
            vm'.out.count Msg.gcNeeded = vm0.out.count Msg.gcNeeded ∧
            vm'.out.count Msg.enteringGc = vm0.out.count Msg.enteringGc ∧
            vm'.numObjects = vm0.numObjects + ((ops.countP Op.allocates : Nat) : Int) ∧
            vm'.maxObjects = vm0.maxObjects)) ∧
    (∀ (v v0 : VM) (n : Nat), gc n v = Res.ok v0 →
      v0.maxObjects = wrapInt (2 * v0.numObjects) ∧
      (0 ≤ v0.numObjects → v0.numObjects < 1073741824 →
        v0.maxObjects = 2 * v0.numObjects ∧
        ∀ (ops : List Op) (fuel' : Nat), (∀ op ∈ ops, op.isStackOp = true) →
          ((ops.countP Op.allocates : Nat) : Int) ≤ v0.numObjects →
          ∃ vm', run fuel' ops v0 = Res.ok vm' ∧
            vm'.out.count Msg.gcNeeded = v0.out.count Msg.gcNeeded ∧
            vm'.out.count Msg.enteringGc = v0.out.count Msg.enteringGc ∧
            vm'.numObjects = v0.numObjects + ((ops.countP Op.allocates : Nat) : Int) ∧
            vm'.maxObjects = v0.maxObjects)) := by
  obtain ⟨vm0, hgc⟩ := gc_total hw hf
  exact ⟨⟨vm0, hgc, gc_threshold vm vm0 fuel hgc⟩, fun v v0 n h => gc_threshold v v0 n h⟩

/-- Witness for C13: the sample machine is well-formed with a registry of 7 objects;
with fuel 8 its collection returns, leaving 4 objects and threshold 8, and up to 4
further allocations run no collection. -/
theorem threshold_growth_witness :
    WF exVM exReg ∧ exReg.length < 8 ∧
    ∃ vm0, gc 8 exVM = Res.ok vm0 ∧ vm0.numObjects = 4 ∧ vm0.maxObjects = 8 ∧
      ∀ (ops : List Op) (fuel' : Nat), (∀ op ∈ ops, op.isStackOp = true) →
        ((ops.countP Op.allocates : Nat) : Int) ≤ 4 →
        ∃ vm', run fuel' ops vm0 = Res.ok vm' ∧
          vm'.out.count Msg.gcNeeded = vm0.out.count Msg.gcNeeded ∧
          vm'.out.count Msg.enteringGc = vm0.out.count Msg.enteringGc ∧
          vm'.numObjects = 4 + ((ops.countP Op.allocates : Nat) : Int) ∧
          vm'.maxObjects = 8 := by
  refine ⟨by decide, by decide, ?_⟩
  obtain ⟨⟨vm0, h, _, hrest⟩, _⟩ := threshold_growth exVM exReg 8 (by decide) (by decide)
  have hn : vm0.numObjects = 4 := by
    have e : (match gc 8 exVM with
      | Res.ok v => v.numObjects
      | _ => 0) = 4 := by decide
    rw [h] at e
    exact e
  obtain ⟨hmax, hall⟩ := hrest (by rw [hn]; decide) (by rw [hn]; decide)
  rw [hn] at hmax hall
  refine ⟨vm0, h, hn, by rw [hmax]; decide, ?_⟩
  intro ops fuel' hops hc
  obtain ⟨vm', a, b, c, d, e⟩ := hall ops fuel' hops hc
  exact ⟨vm', a, b, c, d, by rw [e, hmax]; decide⟩

/-! ## States with nothing to collect -/

theorem gc_tight {vm : VM} {l : List Ptr} {fuel : Nat} (ht : Tight vm l)
    (hf : l.length < fuel) :
    ∃ vm', gc fuel vm = Res.ok vm' ∧ vm'.heap = vm.heap ∧
      vm'.firstObject = vm.firstObject ∧ vm'.stack = vm.stack ∧
      vm'.stackSize = vm.stackSize ∧ vm'.numObjects = vm.numObjects := by
  obtain ⟨hw, hc, hall⟩ := ht
  obtain ⟨vm', l', hrun, post⟩ := gc_spec hw hc hf
  have hl : l' = l := by
    apply sublist_unique post.sublist (List.Sublist.refl l) (chain_nodup _ _ hw.1)
    intro x
    exact ⟨fun h => post.sublist.subset h, fun h => (post.mem_iff x).2 (hall x h)⟩
  subst hl
  obtain ⟨hfirst, hnext⟩ := chain_first_next l' _ _ post.registry hw.1
  refine ⟨vm', hrun, ?_, hfirst, post.stack_eq, post.stackSize_eq, ?_⟩
  · funext q
    by_cases hq : q ∈ l'
    · obtain ⟨o, o', a, b, c, d⟩ := post.kept q hq
      have hm : o.marked = 0 := by
        have := hc q hq
        simpa [isMarked, a] using this
      rw [a, b]
      congr 1
      exact object_ext c.1 (d.trans hm.symm) (hnext q hq o' o b a) c.2.1 c.2.2.1 c.2.2.2
    · exact post.frame q hq
  · rw [post.numObjects_eq]
    simp [decr]

theorem newObjectGc_tight {vm : VM} {l : List Ptr} {fuel : Nat} (ht : Tight vm l)
    (hf : l.length < fuel) :
    ∃ vm1, newObjectGc fuel vm = Res.ok vm1 ∧ vm1.heap = vm.heap ∧
      vm1.firstObject = vm.firstObject ∧ vm1.stack = vm.stack ∧
      vm1.stackSize = vm.stackSize ∧ vm1.numObjects = vm.numObjects := by
  by_cases hn : vm.numObjects = vm.maxObjects
  · have ht' : Tight { vm with out := vm.out ++ [Msg.gcNeeded] } l := ht
    obtain ⟨vm1, hrun, h⟩ := gc_tight ht' hf
    exact ⟨vm1, by unfold newObjectGc; rw [if_pos hn]; exact hrun, h⟩
  · exact ⟨vm, newObjectGc_skip fuel vm hn, rfl, rfl, rfl, rfl, rfl⟩

theorem wf_of_core {vm vm1 : VM} {l : List Ptr} (hw : WF vm l)
    (h1 : vm1.heap = vm.heap) (h2 : vm1.firstObject = vm.firstObject)
    (h3 : vm1.stack = vm.stack) (h4 : vm1.stackSize = vm.stackSize) : WF vm1 l := by
  unfold WF Registry at *
  rw [h1, h2, h3, h4]
  exact hw

theorem reachable_of_core {vm vm1 : VM} {q : Ptr} (hr : Reachable vm q)
    (h1 : vm1.heap = vm.heap) (h3 : vm1.stack = vm.stack)
    (h4 : vm1.stackSize = vm.stackSize) : Reachable vm1 q := by
  unfold Reachable roots at *
  rw [h1, h3, h4]
  exact hr

theorem tight_of_core {vm vm1 : VM} {l : List Ptr} (ht : Tight vm l)
    (h1 : vm1.heap = vm.heap) (h2 : vm1.firstObject = vm.firstObject)
    (h3 : vm1.stack = vm.stack) (h4 : vm1.stackSize = vm.stackSize) : Tight vm1 l := by
  refine ⟨wf_of_core ht.1 h1 h2 h3 h4, ?_, fun q hq => reachable_of_core (ht.2.2 q hq) h1 h3 h4⟩
  unfold AllClear
  rw [h1]
  exact ht.2.1

theorem wf_extend {vm1 vm' : VM} {l : List Ptr} {a : Ptr} {o : Object}
    (hw : WF vm1 l) (hc : AllClear vm1 l) (ha : a ≠ NULL) (hfree : vm1.heap a = none)
    (hheap : vm'.heap = upd vm1.heap a (some o)) (hfirst : vm'.firstObject = a)
    (hn : o.next = vm1.firstObject) (hm : o.marked = 0)
    (hfields : o.type = ObjectType.OBJ_PAIR → o.head ∈ a :: l ∧ o.tail ∈ a :: l)
    (hsz : vm'.stackSize ≤ STACK_MAX)
    (hst : ∀ i, i < vm'.stackSize → vm'.stack i ∈ a :: l) :
    WF vm' (a :: l) ∧ AllClear vm' (a :: l) := by
  obtain ⟨hreg, hclear⟩ := alloc_inv (o := o) hw.1 hc ha hfree hn hm
  have hal : a ∉ l := by
    intro hmem
    have := (hw.valid a hmem).1
    rw [hfree] at this
    exact Bool.noConfusion this
  refine ⟨⟨?_, hsz, hst, ?_⟩, ?_⟩
  · unfold Registry
    rw [hheap, hfirst]
    exact hreg
  · intro p hp
    rw [hheap]
    rcases List.mem_cons.1 hp with e | e
    · subst e
      unfold fieldsIn
      simp only [upd_same]
      exact hfields
    · have hne : p ≠ a := fun e' => hal (e' ▸ e)
      exact fieldsIn_congr (upd_other _ _ _ _ hne) (fieldsIn_cons a (hw.2.2.2 p e))
  · unfold AllClear
    rw [hheap]
    exact hclear

theorem reach_extend {h : Heap} {a : Ptr} {v : Option Object} {rs rs' : List Ptr}
    (hfree : h a = none) (hroots : ∀ r ∈ rs, Reach (upd h a v) rs' r) {q : Ptr}
    (hr : Reach h rs q) : Reach (upd h a v) rs' q := by
  induction hr with
  | root r hmem => exact hroots r hmem
  | head q o _ ho ht ih =>
    have hne : q ≠ a := fun e => by rw [e, hfree] at ho; cases ho
    exact Reach.head q o ih (by rw [upd_other _ _ _ _ hne]; exact ho) ht
  | tail q o _ ho ht ih =>
    have hne : q ≠ a := fun e => by rw [e, hfree] at ho; cases ho
    exact Reach.tail q o ih (by rw [upd_other _ _ _ _ hne]; exact ho) ht

theorem pushINT_eq (fuel : Nat) (vm vm1 : VM) (val : Int) (a : Ptr) (blk : Object)
    (h1 : newObjectGc fuel vm = Res.ok vm1) (h3 : vm1.stackSize ≠ STACK_MAX) :
    pushINT fuel vm val a blk = Res.ok
      { vm1 with
          stack := fun i => if i = vm1.stackSize then a else vm1.stack i,
          stackSize := vm1.stackSize + 1,
          heap := upd vm1.heap a
            (some { blk with type := ObjectType.OBJ_INT, marked := 0,
                             next := vm1.firstObject, value := val }),
          firstObject := a,
          numObjects := wrapInt (vm1.numObjects + 1) } := by
  simp [pushINT, newObject, allocAt, h1, setValue, push, h3, upd_upd]

theorem pushINT_tight {vm : VM} {l : List Ptr} {fuel : Nat} (val : Int) (a : Ptr)
    (blk : Object) (ht : Tight vm l) (hf : l.length < fuel)
    (hsz : vm.stackSize < STACK_MAX) (ha : a ≠ NULL) (hfree : vm.heap a = none) :
    ∃ vm', pushINT fuel vm val a blk = Res.ok vm' ∧
      vm'.heap = upd vm.heap a
        (some { blk with type := ObjectType.OBJ_INT, marked := 0,
                         next := vm.firstObject, value := val }) ∧
      vm'.firstObject = a ∧
      vm'.stack = (fun i => if i = vm.stackSize then a else vm.stack i) ∧
      vm'.stackSize = vm.stackSize + 1 ∧
      vm'.numObjects = wrapInt (vm.numObjects + 1) ∧ Tight vm' (a :: l) := by
  obtain ⟨vm1, h1, e1, e2, e3, e4, e5⟩ := newObjectGc_tight ht hf
  have ht1 : Tight vm1 l := tight_of_core ht e1 e2 e3 e4
  have hfree1 : vm1.heap a = none := by rw [e1]; exact hfree
  have hrun := pushINT_eq fuel vm vm1 val a blk h1 (by rw [e4]; exact Nat.ne_of_lt hsz)
  refine ⟨_, hrun, by rw [e1, e2], rfl, by rw [e3, e4], by rw [e4], by rw [e5], ?_⟩
  have hst : ∀ i, i < vm1.stackSize + 1 →
      (if i = vm1.stackSize then a else vm1.stack i) ∈ a :: l := by
    intro i hi
    by_cases e : i = vm1.stackSize
    · simp [e]
    · rw [if_neg e]
      exact List.mem_cons_of_mem _ (ht1.1.2.2.1 i (by omega))
  obtain ⟨hw', hc'⟩ := @wf_extend vm1 { vm1 with
      stack := fun i => if i = vm1.stackSize then a else vm1.stack i,
      stackSize := vm1.stackSize + 1,
      heap := upd vm1.heap a
        (some { blk with type := ObjectType.OBJ_INT, marked := 0,
                         next := vm1.firstObject, value := val }),
      firstObject := a,
      numObjects := wrapInt (vm1.numObjects + 1) } l a _
    ht1.1 ht1.2.1 ha hfree1 rfl rfl rfl rfl
    (fun h => by cases h) (by have := e4 ▸ hsz; exact this) hst
  refine ⟨hw', hc', ?_⟩
  intro q hq
  rcases List.mem_cons.1 hq with e | e
  · subst e
    exact Reach.root _ ((mem_roots _ _).2 ⟨vm1.stackSize, Nat.lt_succ_self _, by simp⟩)
  · refine reach_extend hfree1 ?_ (ht1.2.2 q e)
    intro r hr
    obtain ⟨i, hi, e'⟩ := (mem_roots vm1 r).1 hr
    refine Reach.root _ ((mem_roots _ _).2 ⟨i, Nat.lt_succ_of_lt hi, ?_⟩)
    have : i ≠ vm1.stackSize := Nat.ne_of_lt hi
    simp [this, e']

theorem pushPair_tight {vm : VM} {l : List Ptr} {fuel : Nat} (a : Ptr)
    (blk : Object) (ht : Tight vm l) (hf : l.length < fuel)
    (h2 : 2 ≤ vm.stackSize) (ha : a ≠ NULL) (hfree : vm.heap a = none) :
    ∃ vm', pushPair fuel vm a blk = Res.ok (vm', a) ∧
      vm'.heap = upd vm.heap a
        (some { blk with type := ObjectType.OBJ_PAIR, marked := 0,
                         next := vm.firstObject,
                         head := vm.stack (vm.stackSize - 2),
                         tail := vm.stack (vm.stackSize - 1) }) ∧
      vm'.firstObject = a ∧
      vm'.stack = (fun i => if i = vm.stackSize - 2 then a else vm.stack i) ∧
      vm'.stackSize = vm.stackSize - 1 ∧
      vm'.numObjects = wrapInt (vm.numObjects + 1) ∧ Tight vm' (a :: l) := by
  obtain ⟨vm1, h1, e1, e2, e3, e4, e5⟩ := newObjectGc_tight ht hf
  have ht1 : Tight vm1 l := tight_of_core ht e1 e2 e3 e4
  have hfree1 : vm1.heap a = none := by rw [e1]; exact hfree
  have h21 : 2 ≤ vm1.stackSize := by rw [e4]; exact h2
  have hrun := pushPair_eq fuel vm vm1 a blk h1 h21 ht1.1.2.1
  refine ⟨_, hrun, by rw [e1, e2, e3, e4], rfl, by rw [e3, e4], by rw [e4], by rw [e5], ?_⟩
  have hx : vm1.stack (vm1.stackSize - 2) ∈ l := ht1.1.2.2.1 _ (by omega)
  have hy : vm1.stack (vm1.stackSize - 1) ∈ l := ht1.1.2.2.1 _ (by omega)
  have hst : ∀ i, i < vm1.stackSize - 1 →
      (if i = vm1.stackSize - 2 then a else vm1.stack i) ∈ a :: l := by
    intro i hi
    by_cases e : i = vm1.stackSize - 2
    · simp [e]
    · rw [if_neg e]
      exact List.mem_cons_of_mem _ (ht1.1.2.2.1 i (by omega))
  obtain ⟨hw', hc'⟩ := @wf_extend vm1 { vm1 with
      stack := fun i => if i = vm1.stackSize - 2 then a else vm1.stack i,
      stackSize := vm1.stackSize - 1,
      heap := upd vm1.heap a
        (some { blk with type := ObjectType.OBJ_PAIR, marked := 0,
                         next := vm1.firstObject,
                         head := vm1.stack (vm1.stackSize - 2),
                         tail := vm1.stack (vm1.stackSize - 1) }),
      firstObject := a,
      numObjects := wrapInt (vm1.numObjects + 1) } l a _
    ht1.1 ht1.2.1 ha hfree1 rfl rfl rfl rfl
    (fun _ => ⟨List.mem_cons_of_mem _ hx, List.mem_cons_of_mem _ hy⟩)
    (by have := ht1.1.2.1; show vm1.stackSize - 1 ≤ STACK_MAX; omega) hst
  refine ⟨hw', hc', ?_⟩
  have hroot : Reach (upd vm1.heap a
      (some { blk with type := ObjectType.OBJ_PAIR, marked := 0,
                       next := vm1.firstObject,
                       head := vm1.stack (vm1.stackSize - 2),
                       tail := vm1.stack (vm1.stackSize - 1) }))
      (roots { vm1 with
        stack := fun i => if i = vm1.stackSize - 2 then a else vm1.stack i,
        stackSize := vm1.stackSize - 1 }) a := by
    refine Reach.root _ ((mem_roots _ _).2 ⟨vm1.stackSize - 2, ?_, by simp⟩)
    show vm1.stackSize - 2 < vm1.stackSize - 1
    omega
  intro q hq
  rcases List.mem_cons.1 hq with e | e
  · subst e
    exact hroot
  · refine reach_extend hfree1 ?_ (ht1.2.2 q e)
    intro r hr
    obtain ⟨i, hi, e'⟩ := (mem_roots vm1 r).1 hr
    by_cases hi2 : i < vm1.stackSize - 2
    · refine Reach.root _ ((mem_roots _ _).2 ⟨i, ?_, ?_⟩)
      · show i < vm1.stackSize - 1
        omega
      · have : i ≠ vm1.stackSize - 2 := Nat.ne_of_lt hi2
        simp [this, e']
    · by_cases hi3 : i = vm1.stackSize - 2
      · have := Reach.head a _ hroot (upd_same _ _ _) rfl
        rw [← e', hi3]
        exact this
      · have hi4 : i = vm1.stackSize - 1 := by omega
        have := Reach.tail a _ hroot (upd_same _ _ _) rfl
        rw [← e', hi4]
        exact this

theorem setTail_spec {vm : VM} {l : List Ptr} {object v : Ptr} (hw : WF vm l)
    (hc : AllClear vm l) (ho : object ∈ l) (hv : v ∈ l) :
    ∃ o, vm.heap object = some o ∧
      setTail vm object v =
        Res.ok { vm with heap := upd vm.heap object (some { o with tail := v }) } ∧
      WF { vm with heap := upd vm.heap object (some { o with tail := v }) } l ∧
      AllClear { vm with heap := upd vm.heap object (some { o with tail := v }) } l := by
  have hsome := (hw.valid object ho).1
  cases hobj : vm.heap object with
  | none => simp [hobj] at hsome
  | some o =>
    refine ⟨o, rfl, setTail_ok v hobj, ⟨?_, hw.2.1, hw.2.2.1, ?_⟩, ?_⟩
    · show chain (upd vm.heap object (some { o with tail := v })) vm.firstObject l = true
      apply chain_congr l _ _ hw.1
      intro q hq
      by_cases e : q = object
      · subst e
        exact ⟨o, _, hobj, upd_same _ _ _, rfl⟩
      · have hs := (hw.valid q hq).1
        cases hq' : vm.heap q with
        | none => simp [hq'] at hs
        | some oq => exact ⟨oq, oq, rfl, by rw [upd_other _ _ _ _ e]; exact hq', rfl⟩
    · intro p hp
      show fieldsIn (upd vm.heap object (some { o with tail := v })) l p
      by_cases e : p = object
      · subst e
        have := hw.2.2.2 p hp
        unfold fieldsIn at this ⊢
        simp only [hobj] at this
        simp only [upd_same]
        intro hty
        exact ⟨(this hty).1, hv⟩
      · exact fieldsIn_congr (upd_other _ _ _ _ e) (hw.2.2.2 p hp)
    · intro p hp
      show isMarked (upd vm.heap object (some { o with tail := v })) p = false
      by_cases e : p = object
      · subst e
        have := hc p hp
        simp only [isMarked, hobj] at this
        simpa [isMarked] using this
      · rw [isMarked_congr (upd_other _ _ _ _ e)]
        exact hc p hp

/-! ## The scenarios of the test functions -/

theorem tight_empty {vm0 : VM} (h0 : vm0.stackSize = 0) (h1 : vm0.firstObject = NULL) :
    Tight vm0 [] := by
  refine ⟨⟨?_, by rw [h0]; exact Nat.zero_le _, ?_, by simp⟩, by simp [AllClear], by simp⟩
  · unfold Registry
    rw [h1]
    rfl
  · intro i hi
    rw [h0] at hi
    exact absurd hi (Nat.not_lt_zero i)

theorem setTail_step {vm : VM} {l : List Ptr} {object v : Ptr} (hw : WF vm l)
    (hc : AllClear vm l) (ho : object ∈ l) (hv : v ∈ l) :
    ∃ o vm', vm.heap object = some o ∧ setTail vm object v = Res.ok vm' ∧
      vm'.heap = upd vm.heap object (some { o with tail := v }) ∧
      vm'.stack = vm.stack ∧ vm'.stackSize = vm.stackSize ∧
      vm'.firstObject = vm.firstObject ∧ vm'.numObjects = vm.numObjects ∧
      WF vm' l ∧ AllClear vm' l := by
  obtain ⟨o, h1, h2, h3, h4⟩ := setTail_spec hw hc ho hv
  exact ⟨o, _, h1, h2, rfl, rfl, rfl, rfl, rfl, h3, h4⟩

theorem test4_build (vm0 : VM) (a1 a2 p a3 a4 q : Ptr) (b1 b2 b3 b4 b5 b6 : Object) (fuel : Nat)
    (h0 : vm0.stackSize = 0) (h1 : vm0.firstObject = NULL) (h2 : vm0.numObjects = 0)
    (hfresh : ∀ x ∈ [a1, a2, p, a3, a4, q], vm0.heap x = none ∧ x ≠ NULL)
    (hnd : [a1, a2, p, a3, a4, q].Nodup) (hf : 7 ≤ fuel) :
    ∃ vm6, run fuel [Op.pushINT 1 a1 b1, Op.pushINT 2 a2 b2, Op.pushPair p b3,
        Op.pushINT 3 a3 b4, Op.pushINT 4 a4 b5, Op.pushPair q b6] vm0 = Res.ok vm6 ∧
      Tight vm6 [q, a4, a3, p, a2, a1] ∧ vm6.numObjects = 6 ∧ vm6.stackSize = 2 ∧
      vm6.stack 0 = p ∧ vm6.stack 1 = q ∧
      (∃ o, vm6.heap a1 = some o ∧ o.type = ObjectType.OBJ_INT ∧ o.value = 1) ∧
      (∃ o, vm6.heap a2 = some o ∧ o.type = ObjectType.OBJ_INT ∧ o.value = 2) ∧
      (∃ o, vm6.heap a3 = some o ∧ o.type = ObjectType.OBJ_INT ∧ o.value = 3) ∧
      (∃ o, vm6.heap a4 = some o ∧ o.type = ObjectType.OBJ_INT ∧ o.value = 4) ∧
      (∃ o, vm6.heap p = some o ∧ o.type = ObjectType.OBJ_PAIR ∧ o.head = a1 ∧ o.tail = a2) ∧
      (∃ o, vm6.heap q = some o ∧ o.type = ObjectType.OBJ_PAIR ∧ o.head = a3 ∧
        o.tail = a4) := by
  simp only [List.nodup_cons, List.mem_cons, List.mem_singleton, List.not_mem_nil, or_false,
    not_or, List.nodup_nil, and_true, not_false_eq_true] at hnd
  simp only [List.mem_cons, List.mem_singleton, List.not_mem_nil, or_false, forall_eq_or_imp,
    forall_eq] at hfresh
  obtain ⟨⟨n12, n1p, n13, n14, n1q⟩, ⟨n2p, n23, n24, n2q⟩, ⟨np3, np4, npq⟩, ⟨n34, n3q⟩, n4q⟩ :=
    hnd
  obtain ⟨⟨f1, z1⟩, ⟨f2, z2⟩, ⟨fp, zp⟩, ⟨f3, z3⟩, ⟨f4, z4⟩, fq, zq⟩ := hfresh
  have t0 := tight_empty h0 h1
  obtain ⟨vm1, r1, H1, F1, S1, Z1, N1, T1⟩ :=
    @pushINT_tight vm0 [] fuel 1 a1 b1 t0 (by simp; omega) (by rw [h0]; decide) z1 f1
  rw [h0] at S1 Z1
  rw [h2] at N1
  have Z1' : vm1.stackSize = 1 := Z1
  have K10 : vm1.stack 0 = a1 := by rw [S1]; simp
  have g2 : vm1.heap a2 = none := by rw [H1, upd_other _ _ _ _ (Ne.symm n12)]; exact f2
  obtain ⟨vm2, r2, H2, F2, S2, Z2, N2, T2⟩ :=
    @pushINT_tight vm1 [a1] fuel 2 a2 b2 T1 (by simp; omega) (by rw [Z1']; decide) z2 g2
  rw [Z1'] at S2 Z2
  have Z2' : vm2.stackSize = 2 := Z2
  have K20 : vm2.stack 0 = a1 := by rw [S2]; simp [K10]
  have K21 : vm2.stack 1 = a2 := by rw [S2]; simp
  have g3 : vm2.heap p = none := by
    rw [H2, upd_other _ _ _ _ (Ne.symm n2p), H1, upd_other _ _ _ _ (Ne.symm n1p)]; exact fp
  obtain ⟨vm3, r3, H3, F3, S3, Z3, N3, T3⟩ :=
    @pushPair_tight vm2 [a2, a1] fuel p b3 T2 (by simp; omega) (by rw [Z2']) zp g3
  rw [Z2'] at S3 Z3 H3
  simp only [Nat.sub_self, Nat.reduceSub, K20, K21] at S3 Z3 H3
  have K30 : vm3.stack 0 = p := by rw [S3]; simp
  have g4 : vm3.heap a3 = none := by
    rw [H3, upd_other _ _ _ _ (Ne.symm np3), H2, upd_other _ _ _ _ (Ne.symm n23), H1,
      upd_other _ _ _ _ (Ne.symm n13)]
    exact f3
  obtain ⟨vm4, r4, H4, F4, S4, Z4, N4, T4⟩ :=
    @pushINT_tight vm3 [p, a2, a1] fuel 3 a3 b4 T3 (by simp; omega) (by rw [Z3]; decide) z3 g4
  rw [Z3] at S4 Z4
  have Z4' : vm4.stackSize = 2 := Z4
  have K40 : vm4.stack 0 = p := by rw [S4]; simp [K30]
  have K41 : vm4.stack 1 = a3 := by rw [S4]; simp
  have g5 : vm4.heap a4 = none := by
    rw [H4, upd_other _ _ _ _ (Ne.symm n34), H3, upd_other _ _ _ _ (Ne.symm np4), H2,
      upd_other _ _ _ _ (Ne.symm n24), H1, upd_other _ _ _ _ (Ne.symm n14)]
    exact f4
  obtain ⟨vm5, r5, H5, F5, S5, Z5, N5, T5⟩ :=
    @pushINT_tight vm4 [a3, p, a2, a1] fuel 4 a4 b5 T4 (by simp; omega)
      (by rw [Z4']; decide) z4 g5
  rw [Z4'] at S5 Z5
  have Z5' : vm5.stackSize = 3 := Z5
  have K50 : vm5.stack 0 = p := by rw [S5]; simp [K40]
  have K51 : vm5.stack 1 = a3 := by rw [S5]; simp [K41]
  have K52 : vm5.stack 2 = a4 := by rw [S5]; simp
  have g6 : vm5.heap q = none := by
    rw [H5, upd_other _ _ _ _ (Ne.symm n4q), H4, upd_other _ _ _ _ (Ne.symm n3q), H3,
      upd_other _ _ _ _ (Ne.symm npq), H2, upd_other _ _ _ _ (Ne.symm n2q), H1,
      upd_other _ _ _ _ (Ne.symm n1q)]
    exact fq
  obtain ⟨vm6, r6, H6, F6, S6, Z6, N6, T6⟩ :=
    @pushPair_tight vm5 [a4, a3, p, a2, a1] fuel q b6 T5 (by simp; omega)
      (by rw [Z5']; decide) zq g6
  rw [Z5'] at S6 Z6 H6
  simp only [Nat.reduceSub, K51, K52] at S6 Z6 H6
  have K60 : vm6.stack 0 = p := by rw [S6]; simp [K50]
  have K61 : vm6.stack 1 = q := by rw [S6]; simp
  have hnum : vm6.numObjects = 6 := by
    rw [N6, N5, N4, N3, N2, N1]
    decide
  refine ⟨vm6, ?_, T6, hnum, Z6, K60, K61, ?_, ?_, ?_, ?_, ?_, ?_⟩
  · simp only [run, step, r1, r2, r3, r4, r5, r6]
  · exact ⟨_, by rw [H6, upd_other _ _ _ _ n1q, H5, upd_other _ _ _ _ n14, H4,
      upd_other _ _ _ _ n13, H3, upd_other _ _ _ _ n1p, H2, upd_other _ _ _ _ n12, H1,
      upd_same], rfl, rfl⟩
  · exact ⟨_, by rw [H6, upd_other _ _ _ _ n2q, H5, upd_other _ _ _ _ n24, H4,
      upd_other _ _ _ _ n23, H3, upd_other _ _ _ _ n2p, H2, upd_same], rfl, rfl⟩
  · exact ⟨_, by rw [H6, upd_other _ _ _ _ n3q, H5, upd_other _ _ _ _ n34, H4,
      upd_same], rfl, rfl⟩
  · exact ⟨_, by rw [H6, upd_other _ _ _ _ n4q, H5, upd_same], rfl, rfl⟩
  · exact ⟨_, by rw [H6, upd_other _ _ _ _ npq, H5, upd_other _ _ _ _ np4, H4,
      upd_other _ _ _ _ np3, H3, upd_same], rfl, rfl, rfl⟩
  · exact ⟨_, by rw [H6, upd_same], rfl, rfl, rfl⟩

theorem run_append_ok (fuel : Nat) : ∀ (xs ys : List Op) (vm v : VM),
    run fuel xs vm = Res.ok v → run fuel (xs ++ ys) vm = run fuel ys v := by
  intro xs
  induction xs with
  | nil =>
    intro ys vm v h
    simp only [run, Res.ok.injEq] at h
    rw [h]
    rfl
  | cons x xs ih =>
    intro ys vm v h
    simp only [List.cons_append, run] at h ⊢
    cases hs : step fuel vm x with
    | fault => simp [hs] at h
    | timeout => simp [hs] at h
    | ok vm1 =>
      simp only [hs] at h ⊢
      exact ih ys vm1 v h

/-- C17 (scenario D, rooted mutual cycle): from any machine with an empty root stack,
an empty registry and `numObjects == 0` (any threshold, any console, any stack array
contents), with `malloc` returning six addresses that are free and non-null, the
calls of `test4` up to and including `gc` return; the registry is then exactly
`b, 3, a, 1` in registry order, `numObjects == 4`, the integers 2 and 4 have been
released, `a = (1, b)` and `b = (3, a)`, and the stack still holds `a` and `b`. -/
theorem scenario_D (vm0 : VM) (a1 a2 p a3 a4 q : Ptr) (b1 b2 b3 b4 b5 b6 : Object)
    (fuel : Nat)
    (h0 : vm0.stackSize = 0) (h1 : vm0.firstObject = NULL) (h2 : vm0.numObjects = 0)
    (hfresh : ∀ x ∈ [a1, a2, p, a3, a4, q], vm0.heap x = none ∧ x ≠ NULL)
    (hnd : [a1, a2, p, a3, a4, q].Nodup) (hf : 7 ≤ fuel) :
    ∃ vm', run fuel (test4Ops a1 a2 p a3 a4 q b1 b2 b3 b4 b5 b6) vm0 = Res.ok vm' ∧
      Registry vm' [q, a3, p, a1] ∧ vm'.numObjects = 4 ∧
      vm'.heap a2 = none ∧ vm'.heap a4 = none ∧
      (∃ oa ob o1 o3, vm'.heap p = some oa ∧ vm'.heap q = some ob ∧
        vm'.heap a1 = some o1 ∧ vm'.heap a3 = some o3 ∧
        oa.type = ObjectType.OBJ_PAIR ∧ oa.head = a1 ∧ oa.tail = q ∧
        ob.type = ObjectType.OBJ_PAIR ∧ ob.head = a3 ∧ ob.tail = p ∧
        o1.type = ObjectType.OBJ_INT ∧ o1.value = 1 ∧
        o3.type = ObjectType.OBJ_INT ∧ o3.value = 3) ∧
      vm'.stackSize = 2 ∧ vm'.stack 0 = p ∧ vm'.stack 1 = q := by
  obtain ⟨vm6, r6, T6, N6, Z6, K60, K61, ⟨o1, G1, ty1, v1⟩, _, ⟨o3, G3, ty3, v3⟩, _,
    ⟨oP, GP, tyP, hdP, _⟩, ⟨oQ, GQ, tyQ, hdQ, _⟩⟩ :=
    test4_build vm0 a1 a2 p a3 a4 q b1 b2 b3 b4 b5 b6 fuel h0 h1 h2 hfresh hnd hf
  simp only [List.nodup_cons, List.mem_cons, List.mem_singleton, List.not_mem_nil, or_false,
    not_or, List.nodup_nil, and_true, not_false_eq_true] at hnd
  obtain ⟨⟨n12, n1p, n13, n14, n1q⟩, ⟨n2p, n23, n24, n2q⟩, ⟨np3, np4, npq⟩, ⟨n34, n3q⟩, n4q⟩ :=
    hnd
  obtain ⟨oP', vm7, hP, e7, H7, S7, Z7, F7, N7, W7, C7⟩ :=
    @setTail_step vm6 [q, a4, a3, p, a2, a1] p q T6.1 T6.2.1 (by simp) (by simp)
  rw [GP] at hP
  cases hP
  have hQ7 : vm7.heap q = some oQ := by
    rw [H7, upd_other _ _ _ _ (Ne.symm npq)]; exact GQ
  obtain ⟨oQ', vm8, hQ, e8, H8, S8, Z8, F8, N8, W8, C8⟩ :=
    @setTail_step vm7 [q, a4, a3, p, a2, a1] q p W7 C7 (by simp) (by simp)
  rw [hQ7] at hQ
  cases hQ
  have Ep : vm8.heap p = some { oP with tail := q } := by
    rw [H8, upd_other _ _ _ _ npq, H7, upd_same]
  have Eq : vm8.heap q = some { oQ with tail := p } := by
    rw [H8, upd_same]
  have E1 : vm8.heap a1 = some o1 := by
    rw [H8, upd_other _ _ _ _ n1q, H7, upd_other _ _ _ _ n1p]; exact G1
  have E3 : vm8.heap a3 = some o3 := by
    rw [H8, upd_other _ _ _ _ n3q, H7, upd_other _ _ _ _ (Ne.symm np3)]; exact G3
  have hroots : roots vm8 = [p, q] := by
    unfold roots
    rw [Z8, Z7, Z6, S8, S7]
    simp [List.range_succ, K60, K61]
  have hrp : Reachable vm8 p := Reach.root p (by rw [hroots]; simp)
  have hrq : Reachable vm8 q := Reach.root q (by rw [hroots]; simp)
  have hr1 : Reachable vm8 a1 := by
    have := Reach.head p _ hrp Ep tyP
    rwa [show ({ oP with tail := q } : Object).head = a1 from hdP] at this
  have hr3 : Reachable vm8 a3 := by
    have := Reach.head q _ hrq Eq tyQ
    rwa [show ({ oQ with tail := p } : Object).head = a3 from hdQ] at this
  have hin : ∀ x, Reachable vm8 x → x ∈ [q, a3, p, a1] := by
    intro x hx
    refine reach_within (S := [q, a3, p, a1]) ?_ ?_ hx
    · intro r hr
      rw [hroots] at hr
      simp at hr ⊢
      tauto
    · intro y hy
      simp only [List.mem_cons, List.mem_singleton, List.not_mem_nil, or_false] at hy
      unfold fieldsIn
      rcases hy with e | e | e | e
      · subst e
        simp only [Eq]
        intro _
        simp [hdQ]
      · subst e
        simp only [E3]
        intro h
        rw [ty3] at h
        cases h
      · subst e
        simp only [Ep]
        intro _
        simp [hdP]
      · subst e
        simp only [E1]
        intro h
        rw [ty1] at h
        cases h
  have hiff : ∀ x, Reachable vm8 x ↔ x ∈ [q, a3, p, a1] := by
    intro x
    refine ⟨hin x, ?_⟩
    intro hx
    simp only [List.mem_cons, List.mem_singleton, List.not_mem_nil, or_false] at hx
    rcases hx with e | e | e | e
    · rw [e]; exact hrq
    · rw [e]; exact hr3
    · rw [e]; exact hrp
    · rw [e]; exact hr1
  obtain ⟨vmF, l', rF, post⟩ := @gc_spec vm8 [q, a4, a3, p, a2, a1] fuel W8 C8
    (by simp; omega)
  have hl' : l' = [q, a3, p, a1] := by
    rw [sublist_eq_filter post.sublist (chain_nodup _ _ W8.1)]
    have hcongr : [q, a4, a3, p, a2, a1].filter (fun x => decide (x ∈ l')) =
        [q, a4, a3, p, a2, a1].filter (fun x => decide (x ∈ [q, a3, p, a1])) := by
      apply List.filter_congr
      intro x _
      have : x ∈ l' ↔ x ∈ [q, a3, p, a1] := (post.mem_iff x).trans (hiff x)
      simp only [this]
    rw [hcongr]
    simp [List.filter_cons, n12, n1p, n13, n14, n1q, n2p, n23, n24, n2q, np3, np4, npq,
      n34, n3q, n4q, Ne.symm n12, Ne.symm n1p, Ne.symm n13, Ne.symm n14, Ne.symm n1q,
      Ne.symm n2p, Ne.symm n23, Ne.symm n24, Ne.symm n2q, Ne.symm np3, Ne.symm np4,
      Ne.symm npq, Ne.symm n34, Ne.symm n3q, Ne.symm n4q]
  subst hl'
  have hrun : run fuel (test4Ops a1 a2 p a3 a4 q b1 b2 b3 b4 b5 b6) vm0 = Res.ok vmF := by
    have := run_append_ok fuel _ [Op.setTail p q, Op.setTail q p, Op.gc] vm0 vm6 r6
    unfold test4Ops
    simp only [List.cons_append, List.nil_append] at this
    rw [this]
    simp only [run, step, e7, e8, rF]
  obtain ⟨xp, xp', ap, bp, cp, _⟩ := post.kept p (by simp)
  obtain ⟨xq, xq', aq, bq, cq, _⟩ := post.kept q (by simp)
  obtain ⟨x1, x1', a1', b1', c1, _⟩ := post.kept a1 (by simp)
  obtain ⟨x3, x3', a3', b3', c3, _⟩ := post.kept a3 (by simp)
  rw [Ep] at ap
  rw [Eq] at aq
  rw [E1] at a1'
  rw [E3] at a3'
  cases ap
  cases aq
  cases a1'
  cases a3'
  refine ⟨vmF, hrun, post.registry, ?_, ?_, ?_, ?_, ?_, ?_, ?_⟩
  · rw [post.numObjects_eq, N8, N7, N6]
    show decr 2 6 = 4
    decide
  · exact post.freed a2 (by simp) (by simp [n2q, n23, n2p, Ne.symm n12])
  · exact post.freed a4 (by simp) (by simp [n4q, Ne.symm n34, Ne.symm np4, Ne.symm n14])
  · exact ⟨xp', xq', x1', x3', bp, bq, b1', b3', cp.1.trans tyP, cp.2.2.1.trans hdP,
      cp.2.2.2, cq.1.trans tyQ, cq.2.2.1.trans hdQ, cq.2.2.2, c1.1.trans ty1,
      c1.2.1.trans v1, c3.1.trans ty3, c3.2.1.trans v3⟩
  · rw [post.stackSize_eq, Z8, Z7, Z6]
  · rw [post.stack_eq, S8, S7, K60]
  · rw [post.stack_eq, S8, S7, K61]

/-- Witness for C17: threshold 2 (so that collections run while the pairs are being
built), addresses 1 to 6. -/
theorem scenario_D_witness :
    ∃ vm', run 7 (test4Ops 1 2 3 4 5 6 blk0 blk0 blk0 blk0 blk0 blk0) (emptyWith 2) =
        Res.ok vm' ∧
      Registry vm' [6, 4, 3, 1] ∧ vm'.numObjects = 4 ∧
      vm'.heap 2 = none ∧ vm'.heap 5 = none ∧
      (∃ oa ob o1 o3, vm'.heap 3 = some oa ∧ vm'.heap 6 = some ob ∧
        vm'.heap 1 = some o1 ∧ vm'.heap 4 = some o3 ∧
        oa.type = ObjectType.OBJ_PAIR ∧ oa.head = 1 ∧ oa.tail = 6 ∧
        ob.type = ObjectType.OBJ_PAIR ∧ ob.head = 4 ∧ ob.tail = 3 ∧
        o1.type = ObjectType.OBJ_INT ∧ o1.value = 1 ∧
        o3.type = ObjectType.OBJ_INT ∧ o3.value = 3) ∧
      vm'.stackSize = 2 ∧ vm'.stack 0 = 3 ∧ vm'.stack 1 = 6 :=
  scenario_D (emptyWith 2) 1 2 3 4 5 6 blk0 blk0 blk0 blk0 blk0 blk0 7 rfl rfl rfl
    (by decide) (by decide) (by decide)

/-! ## The live-object count -/

theorem filter_length_add (l : List Ptr) (f : Ptr → Bool) :
    (l.filter f).length + l.countP (fun q => !f q) = l.length := by
  have h1 := length_sub_filter l f
  have h2 := List.length_filter_le f l
  omega

theorem sweep_count {vm vm' : VM} {l : List Ptr} {fuel : Nat} (hreg : Registry vm l)
    (hcount : vm.numObjects = (l.length : Int)) (hsmall : l.length < 2147483648)
    (hrun : sweep fuel vm = Res.ok vm') :
    Registry vm' (l.filter (isMarked vm.heap)) ∧
      vm'.numObjects = ((l.filter (isMarked vm.heap)).length : Int) := by
  have sp := sweep_post_of_ok hreg hrun
  obtain ⟨p', hp', hc'⟩ := sp.chain_eq
  simp only [loadLoc, Option.some.injEq] at hp'
  subst hp'
  refine ⟨hc', ?_⟩
  have hadd := filter_length_add l (isMarked vm.heap)
  rw [sp.numObjects_eq, hcount]
  unfold pending
  rw [decr_eq _ _ (by omega) (by omega)]
  omega

theorem gc_count {vm vm' : VM} {l : List Ptr} {fuel : Nat} (hreg : Registry vm l)
    (hcount : vm.numObjects = (l.length : Int)) (hsmall : l.length < 2147483648)
    (hrun : gc fuel vm = Res.ok vm') :
    ∃ l', Registry vm' l' ∧ vm'.numObjects = (l'.length : Int) ∧ l'.length ≤ l.length := by
  obtain ⟨t, vm2, _, hs, e⟩ := gc_ok hrun
  subst e
  have hreg2 : Registry { vm with
      heap := markSet vm.heap t,
      out := vm.out ++ [Msg.enteringGc] ++ [Msg.markingObjects] } l :=
    chain_markSet t l _ hreg
  obtain ⟨a, b⟩ := sweep_count hreg2 hcount hsmall hs
  exact ⟨_, a, b, List.length_filter_le _ _⟩

theorem newObjectGc_count {vm vm1 : VM} {l : List Ptr} {fuel : Nat} (hreg : Registry vm l)
    (hcount : vm.numObjects = (l.length : Int)) (hsmall : l.length < 2147483648)
    (hrun : newObjectGc fuel vm = Res.ok vm1) :
    ∃ l1, Registry vm1 l1 ∧ vm1.numObjects = (l1.length : Int) ∧ l1.length ≤ l.length := by
  rcases newObjectGc_cases hrun with ⟨_, e⟩ | ⟨_, hg⟩
  · subst e
    exact ⟨l, hreg, hcount, le_refl _⟩
  · have hreg' : Registry { vm with out := vm.out ++ [Msg.gcNeeded] } l := hreg
    exact gc_count hreg' hcount hsmall hg

theorem pushINT_counts {fuel : Nat} {vm vm' : VM} {a : Ptr} {val : Int} {blk : Object}
    (h : pushINT fuel vm val a blk = Res.ok vm') :
    ∃ vm1, newObjectGc fuel vm = Res.ok vm1 ∧ vm'.firstObject = a ∧
      vm'.numObjects = wrapInt (vm1.numObjects + 1) ∧
      vm'.heap = upd vm1.heap a
        (some { blk with type := ObjectType.OBJ_INT, marked := 0,
                         next := vm1.firstObject, value := val }) := by
  unfold pushINT newObject at h
  cases h1 : newObjectGc fuel vm with
  | fault => simp [h1] at h
  | timeout => simp [h1] at h
  | ok vm1 =>
    simp only [h1] at h
    have hA : (allocAt vm1 ObjectType.OBJ_INT a blk).heap a =
        some { blk with type := ObjectType.OBJ_INT, marked := 0, next := vm1.firstObject } := by
      simp [allocAt]
    rw [setValue_ok _ hA] at h
    simp only [Res.ok.injEq] at h
    subst h
    exact ⟨vm1, rfl, by simp [allocAt], by simp [allocAt], by simp [allocAt, upd_upd]⟩

theorem pushPair_counts {fuel : Nat} {vm vm' : VM} {a p : Ptr} {blk : Object}
    (h : pushPair fuel vm a blk = Res.ok (vm', p)) :
    ∃ vm1 x y, newObjectGc fuel vm = Res.ok vm1 ∧ p = a ∧ vm'.firstObject = a ∧
      vm'.numObjects = wrapInt (vm1.numObjects + 1) ∧
      vm'.heap = upd vm1.heap a
        (some { blk with type := ObjectType.OBJ_PAIR, marked := 0,
                         next := vm1.firstObject, head := x, tail := y }) := by
  unfold pushPair newObject at h
  cases h1 : newObjectGc fuel vm with
  | fault => simp [h1] at h
  | timeout => simp [h1] at h
  | ok vm1 =>
    simp only [h1] at h
    simp [setTail, setHead, allocAt] at h
    obtain ⟨e1, e2⟩ := h
    subst e1
    subst e2
    exact ⟨vm1, _, _, rfl, rfl, by simp, by simp, by simp [upd_upd]; rfl⟩

theorem alloc_count {vm1 vm' : VM} {l l1 : List Ptr} {a : Ptr} {o : Object}
    (hreg : Registry vm1 l1) (hcount : vm1.numObjects = (l1.length : Int))
    (hle : l1.length ≤ l.length) (hsmall : l.length < 2147483647)
    (ha : a ≠ NULL) (hfree : vm1.heap a = none)
    (hfirst : vm'.firstObject = a) (hnum : vm'.numObjects = wrapInt (vm1.numObjects + 1))
    (hheap : vm'.heap = upd vm1.heap a (some o)) (hn : o.next = vm1.firstObject) :
    Registry vm' (a :: l1) ∧ vm'.numObjects = ((a :: l1).length : Int) := by
  constructor
  · unfold Registry
    rw [hheap, hfirst]
    exact chain_alloc hreg ha hfree hn
  · rw [hnum, hcount, wrapInt_eq _ (by omega) (by omega)]
    simp

theorem pop_stackSize (vm : VM) : (pop vm).1.stackSize = vm.stackSize - 1 := by
  unfold pop
  split
  · rename_i h
    simp [h]
  · rfl

theorem pop_wf {vm : VM} {l : List Ptr} (hw : WF vm l) : WF (pop vm).1 l := by
  unfold WF Registry at *
  rw [pop_heap, pop_firstObject, pop_stack, pop_stackSize]
  exact ⟨hw.1, by have := hw.2.1; omega, fun i hi => hw.2.2.1 i (by omega), hw.2.2.2⟩

theorem two_ints (vm0 : VM) (a1 a2 : Ptr) (b1 b2 : Object) (fuel : Nat)
    (h0 : vm0.stackSize = 0) (h1 : vm0.firstObject = NULL) (h2 : vm0.numObjects = 0)
    (f1 : vm0.heap a1 = none) (z1 : a1 ≠ NULL) (f2 : vm0.heap a2 = none) (z2 : a2 ≠ NULL)
    (n12 : a1 ≠ a2) (hf : 3 ≤ fuel) :
    ∃ vm2, run fuel [Op.pushINT 1 a1 b1, Op.pushINT 2 a2 b2] vm0 = Res.ok vm2 ∧
      Tight vm2 [a2, a1] ∧ vm2.numObjects = 2 ∧ vm2.stackSize = 2 := by
  have t0 := tight_empty h0 h1
  obtain ⟨vm1, r1, H1, _, _, Z1, N1, T1⟩ :=
    @pushINT_tight vm0 [] fuel 1 a1 b1 t0 (by simp; omega) (by rw [h0]; decide) z1 f1
  rw [h0] at Z1
  rw [h2] at N1
  have Z1' : vm1.stackSize = 1 := Z1
  have g2 : vm1.heap a2 = none := by rw [H1, upd_other _ _ _ _ (Ne.symm n12)]; exact f2
  obtain ⟨vm2, r2, _, _, _, Z2, N2, T2⟩ :=
    @pushINT_tight vm1 [a1] fuel 2 a2 b2 T1 (by simp; omega) (by rw [Z1']; decide) z2 g2
  rw [Z1'] at Z2
  refine ⟨vm2, by simp only [run, step, r1, r2], T2, ?_, Z2⟩
  rw [N2, N1]
  decide

/-- C20 (live-count invariant): if `numObjects` equals the length of the registry
list (which is below `INT_MAX`), then whenever `sweep`, `gc`, `newObject`, `pushINT`
or `pushPair` returns (the allocating ones with a free non-null `malloc` address) and
after `push` and `pop`, `numObjects` again equals the length of the registry list;
`sweep` returns on every registry and the others on every well-formed state.  From
any empty machine (any threshold), `pushINT 1, pushINT 2, gc` ends with
`numObjects == 2` and `pushINT 1, pushINT 2, pop, pop, gc` with `numObjects == 0`. -/
theorem live_count_invariant :
    (∀ (vm : VM) (l : List Ptr), Registry vm l → vm.numObjects = (l.length : Int) →
      l.length < 2147483647 →
      (∀ fuel vm', sweep fuel vm = Res.ok vm' →
        ∃ l', Registry vm' l' ∧ vm'.numObjects = (l'.length : Int)) ∧
      (∀ fuel vm', gc fuel vm = Res.ok vm' →
        ∃ l', Registry vm' l' ∧ vm'.numObjects = (l'.length : Int)) ∧
      (∀ fuel ty a blk vm' p, a ≠ NULL →
        (∀ vm1, newObjectGc fuel vm = Res.ok vm1 → vm1.heap a = none) →
        newObject fuel vm ty a blk = Res.ok (vm', p) →
        ∃ l', Registry vm' l' ∧ vm'.numObjects = (l'.length : Int)) ∧
      (∀ fuel val a blk vm', a ≠ NULL →
        (∀ vm1, newObjectGc fuel vm = Res.ok vm1 → vm1.heap a = none) →
        pushINT fuel vm val a blk = Res.ok vm' →
        ∃ l', Registry vm' l' ∧ vm'.numObjects = (l'.length : Int)) ∧
      (∀ fuel a blk vm' p, a ≠ NULL →
        (∀ vm1, newObjectGc fuel vm = Res.ok vm1 → vm1.heap a = none) →
        pushPair fuel vm a blk = Res.ok (vm', p) →
        ∃ l', Registry vm' l' ∧ vm'.numObjects = (l'.length : Int)) ∧
      (∀ v, Registry (push vm v) l ∧ (push vm v).numObjects = (l.length : Int)) ∧
      (Registry (pop vm).1 l ∧ (pop vm).1.numObjects = (l.length : Int)) ∧
      (∀ fuel, l.length < fuel →
        (∃ vm', sweep fuel vm = Res.ok vm') ∧
        (WF vm l →
          (∃ vm', gc fuel vm = Res.ok vm') ∧
          (∀ ty a blk, ∃ r, newObject fuel vm ty a blk = Res.ok r) ∧
          (∀ val a blk, ∃ r, pushINT fuel vm val a blk = Res.ok r) ∧
          (∀ a blk, ∃ r, pushPair fuel vm a blk = Res.ok r)))) ∧
    (∀ (vm0 : VM) (a1 a2 : Ptr) (b1 b2 : Object) (fuel : Nat),
      vm0.stackSize = 0 → vm0.firstObject = NULL → vm0.numObjects = 0 →
      vm0.heap a1 = none → a1 ≠ NULL → vm0.heap a2 = none → a2 ≠ NULL → a1 ≠ a2 →
      3 ≤ fuel →
      (∃ vm', run fuel (test1Ops a1 a2 b1 b2) vm0 = Res.ok vm' ∧
        Registry vm' [a2, a1] ∧ vm'.numObjects = 2) ∧
      (∃ vm', run fuel (test2Ops a1 a2 b1 b2) vm0 = Res.ok vm' ∧
        Registry vm' [] ∧ vm'.numObjects = 0)) := by
  constructor
  · intro vm l hreg hcount hsmall
    have hsmall' : l.length < 2147483648 := by omega
    refine ⟨?_, ?_, ?_, ?_, ?_, ?_, ?_, ?_⟩
    · intro fuel vm' h
      obtain ⟨a, b⟩ := sweep_count hreg hcount hsmall' h
      exact ⟨_, a, b⟩
    · intro fuel vm' h
      obtain ⟨l', a, b, _⟩ := gc_count hreg hcount hsmall' h
      exact ⟨l', a, b⟩
    · intro fuel ty a blk vm' p ha hfresh hrun
      obtain ⟨vm1, h1, _, e⟩ := newObject_ok hrun
      subst e
      obtain ⟨l1, hr1, hc1, hle⟩ := newObjectGc_count hreg hcount hsmall' h1
      obtain ⟨x, y⟩ := @alloc_count vm1 (allocAt vm1 ty a blk) l l1 a _ hr1 hc1 hle hsmall ha
        (hfresh vm1 h1) rfl rfl rfl rfl
      exact ⟨_, x, y⟩
    · intro fuel val a blk vm' ha hfresh hrun
      obtain ⟨vm1, h1, e1, e2, e3⟩ := pushINT_counts hrun
      obtain ⟨l1, hr1, hc1, hle⟩ := newObjectGc_count hreg hcount hsmall' h1
      obtain ⟨x, y⟩ := alloc_count hr1 hc1 hle hsmall ha (hfresh vm1 h1) e1 e2 e3 rfl
      exact ⟨_, x, y⟩
    · intro fuel a blk vm' p ha hfresh hrun
      obtain ⟨vm1, hd, tl, h1, _, e1, e2, e3⟩ := pushPair_counts hrun
      obtain ⟨l1, hr1, hc1, hle⟩ := newObjectGc_count hreg hcount hsmall' h1
      obtain ⟨x, y⟩ := alloc_count hr1 hc1 hle hsmall ha (hfresh vm1 h1) e1 e2 e3 rfl
      exact ⟨_, x, y⟩
    · intro v
      refine ⟨?_, by rw [push_numObjects]; exact hcount⟩
      unfold Registry
      rw [push_heap, push_firstObject]
      exact hreg
    · refine ⟨?_, by rw [pop_numObjects]; exact hcount⟩
      unfold Registry
      rw [pop_heap, pop_firstObject]
      exact hreg
    · intro fuel hf
      constructor
      · obtain ⟨vm', h, _⟩ := sweepLoop_spec l fuel vm Loc.first vm.firstObject rfl hreg
          (by simp) hf
        exact ⟨vm', h⟩
      · intro hw
        obtain ⟨vm1, h1⟩ := newObjectGc_total hw hf
        refine ⟨gc_total hw hf, ?_, ?_, ?_⟩
        · intro ty a blk
          exact ⟨(allocAt vm1 ty a blk, a), by simp only [newObject, h1]⟩
        · intro val a blk
          exact pushINT_total a val blk h1
        · intro a blk
          obtain ⟨r, hr⟩ := pushPair_total a blk h1
          exact ⟨_, hr⟩
  · intro vm0 a1 a2 b1 b2 fuel h0 h1 h2 f1 z1 f2 z2 n12 hf
    obtain ⟨vm2, r2, T2, N2, Z2⟩ := two_ints vm0 a1 a2 b1 b2 fuel h0 h1 h2 f1 z1 f2 z2 n12 hf
    constructor
    · obtain ⟨vm', rg, e1, e2, _, _, e5⟩ := @gc_tight vm2 [a2, a1] fuel T2 (by simp; omega)
      refine ⟨vm', ?_, ?_, by rw [e5, N2]⟩
      · have := run_append_ok fuel _ [Op.gc] vm0 vm2 r2
        unfold test1Ops
        simp only [List.cons_append, List.nil_append] at this
        rw [this]
        simp only [run, step, rg]
      · unfold Registry
        rw [e1, e2]
        exact T2.1.1
    · have hw4 : WF (pop (pop vm2).1).1 [a2, a1] := pop_wf (pop_wf T2.1)
      have hc4 : AllClear (pop (pop vm2).1).1 [a2, a1] := by
        unfold AllClear
        rw [pop_heap, pop_heap]
        exact T2.2.1
      have hz4 : (pop (pop vm2).1).1.stackSize = 0 := by
        rw [pop_stackSize, pop_stackSize, Z2]
      obtain ⟨vm', l', rg, post⟩ := @gc_spec _ [a2, a1] fuel hw4 hc4 (by simp; omega)
      have hnil : l' = [] := by
        apply List.eq_nil_iff_forall_not_mem.2
        intro x hx
        have hr := (post.mem_iff x).1 hx
        unfold Reachable roots at hr
        rw [hz4] at hr
        exact not_reach_nil _ _ hr
      subst hnil
      refine ⟨vm', ?_, post.registry, ?_⟩
      · have := run_append_ok fuel _ [Op.pop, Op.pop, Op.gc] vm0 vm2 r2
        unfold test2Ops
        simp only [List.cons_append, List.nil_append] at this
        rw [this]
        simp only [run, step, rg]
      · rw [post.numObjects_eq, pop_numObjects, pop_numObjects, N2]
        show decr 2 2 = 0
        decide

/-- Witness for C20: the sample machine (7 registered objects, count 7) is collected
and the count again equals the registry length; `test1` and `test2` are run from an
empty machine with threshold 1, so that the second `pushINT` collects first. -/
theorem live_count_invariant_witness :
    exVM.numObjects = (exReg.length : Int) ∧
    (∃ vm' l', gc 8 exVM = Res.ok vm' ∧ Registry vm' l' ∧
      vm'.numObjects = (l'.length : Int)) ∧
    (∃ vm', run 3 (test1Ops 1 2 blk0 blk0) (emptyWith 1) = Res.ok vm' ∧
      Registry vm' [2, 1] ∧ vm'.numObjects = 2) ∧
    (∃ vm', run 3 (test2Ops 1 2 blk0 blk0) (emptyWith 1) = Res.ok vm' ∧
      Registry vm' [] ∧ vm'.numObjects = 0) := by
  have h := live_count_invariant
  have hg := h.1 exVM exReg (by decide) (by decide) (by decide)
  obtain ⟨vm', hrun⟩ := ((hg.2.2.2.2.2.2.2 8 (by decide)).2 (by decide)).1
  obtain ⟨l', a, b⟩ := hg.2.1 8 vm' hrun
  have hs := h.2 (emptyWith 1) 1 2 blk0 blk0 3 rfl rfl rfl rfl (by decide) rfl (by decide)
    (by decide) (by decide)
  exact ⟨by decide, ⟨vm', l', hrun, a, b⟩, hs.1, hs.2⟩

/-! ## Collections after a stack underflow in `pushPair` -/

theorem push_wf {vm : VM} {l : List Ptr} {v : Ptr} (hw : WF vm l) (hv : v ∈ l) :
    WF (push vm v) l := by
  refine ⟨?_, ?_, ?_, ?_⟩
  · unfold Registry
    rw [push_heap, push_firstObject]
    exact hw.1
  · unfold push
    split
    · exact hw.2.1
    · rename_i h
      have := hw.2.1
      show vm.stackSize + 1 ≤ STACK_MAX
      omega
  · unfold push
    split
    · exact hw.2.2.1
    · intro i hi
      have hi' : i < vm.stackSize + 1 := hi
      show (if i = vm.stackSize then v else vm.stack i) ∈ l
      by_cases e : i = vm.stackSize
      · rw [if_pos e]; exact hv
      · rw [if_neg e]; exact hw.2.2.1 i (by omega)
  · rw [push_heap]
    exact hw.2.2.2

theorem pushINT_spec {vm : VM} {l : List Ptr} {fuel : Nat} (val : Int) (a : Ptr)
    (blk : Object) (hw : WF vm l) (hc : AllClear vm l) (hf : l.length < fuel)
    (ha : a ≠ NULL) (hfresh : ∀ vm1, newObjectGc fuel vm = Res.ok vm1 → vm1.heap a = none) :
    ∃ vm' l1, pushINT fuel vm val a blk = Res.ok vm' ∧ WF vm' (a :: l1) ∧
      AllClear vm' (a :: l1) ∧ l1.length ≤ l.length := by
  by_cases hn : vm.numObjects = vm.maxObjects
  · have hw0 : WF { vm with out := vm.out ++ [Msg.gcNeeded] } l := hw
    have hc0 : AllClear { vm with out := vm.out ++ [Msg.gcNeeded] } l := hc
    obtain ⟨vm1, l1, hrun, post⟩ := gc_spec hw0 hc0 hf
    have h1 : newObjectGc fuel vm = Res.ok vm1 := by
      unfold newObjectGc; rw [if_pos hn]; exact hrun
    obtain ⟨hwx, hcx⟩ := @wf_extend vm1
      { allocAt vm1 ObjectType.OBJ_INT a blk with
        heap := upd vm1.heap a
          (some { blk with type := ObjectType.OBJ_INT, marked := 0,
                           next := vm1.firstObject, value := val }) } l1 a _
      post.wf post.clear ha (hfresh vm1 h1) rfl rfl rfl rfl (fun h => by cases h)
      post.wf.2.1 (fun i hi => List.mem_cons_of_mem _ (post.wf.2.2.1 i hi))
    refine ⟨_, l1, ?_, push_wf hwx (List.mem_cons_self _ _), ?_, post.sublist.length_le⟩
    · simp [pushINT, newObject, h1, setValue, allocAt, upd_upd]
    · unfold AllClear
      rw [push_heap]
      exact hcx
  · have h1 : newObjectGc fuel vm = Res.ok vm := newObjectGc_skip fuel vm hn
    obtain ⟨hwx, hcx⟩ := @wf_extend vm
      { allocAt vm ObjectType.OBJ_INT a blk with
        heap := upd vm.heap a
          (some { blk with type := ObjectType.OBJ_INT, marked := 0,
                           next := vm.firstObject, value := val }) } l a _
      hw hc ha (hfresh vm h1) rfl rfl rfl rfl (fun h => by cases h)
      hw.2.1 (fun i hi => List.mem_cons_of_mem _ (hw.2.2.1 i hi))
    refine ⟨_, l, ?_, push_wf hwx (List.mem_cons_self _ _), ?_, le_refl _⟩
    · simp [pushINT, newObject, h1, setValue, allocAt, upd_upd]
    · unfold AllClear
      rw [push_heap]
      exact hcx

theorem newObjectGc_length_le {vm vm1 : VM} {l l1 : List Ptr} {fuel : Nat}
    (hw : WF vm l) (hc : AllClear vm l) (hf : l.length < fuel)
    (h1 : newObjectGc fuel vm = Res.ok vm1) (hr1 : Registry vm1 l1) :
    l1.length ≤ l.length := by
  rcases newObjectGc_cases h1 with ⟨_, e⟩ | ⟨_, hg⟩
  · subst e
    rw [chain_unique _ _ _ hr1 hw.1]
  · have hw0 : WF { vm with out := vm.out ++ [Msg.gcNeeded] } l := hw
    have hc0 : AllClear { vm with out := vm.out ++ [Msg.gcNeeded] } l := hc
    obtain ⟨vm2, l2, hrun, post⟩ := gc_spec hw0 hc0 hf
    rw [hrun] at hg
    cases hg
    rw [chain_unique _ _ _ hr1 post.registry]
    exact post.sublist.length_le

theorem safe_runs (fuel : Nat) : ∀ (ops : List Op) (vm : VM) (l : List Ptr),
    WF vm l → AllClear vm l → Admissible fuel ops vm → l.length + ops.length < fuel →
    ∃ vm' l', run fuel ops vm = Res.ok vm' ∧ WF vm' l' ∧ AllClear vm' l' ∧
      l'.length ≤ l.length + ops.length := by
  intro ops
  induction ops with
  | nil =>
    intro vm l hw hc _ _
    exact ⟨vm, l, rfl, hw, hc, by simp⟩
  | cons op ops ih =>
    intro vm l hw hc hadm hf
    obtain ⟨hop, hrest⟩ := hadm
    simp only [List.length_cons] at hf
    have hfl : l.length < fuel := by omega
    have key : ∃ vm1 l1, step fuel vm op = Res.ok vm1 ∧ WF vm1 l1 ∧ AllClear vm1 l1 ∧
        l1.length ≤ l.length + 1 := by
      cases op with
      | pushINT val a blk =>
        obtain ⟨ha, hfresh⟩ := hop
        obtain ⟨vm1, l1, h, hw1, hc1, hle⟩ := pushINT_spec val a blk hw hc hfl ha hfresh
        exact ⟨vm1, a :: l1, h, hw1, hc1, by simp; omega⟩
      | pushPair a blk =>
        obtain ⟨h2, ha, hfresh⟩ := hop
        obtain ⟨vm1, l1, vm', h1, hrun, hw1, _, _, hw', hc', _⟩ :=
          pushPair_spec a blk hw hc hfl h2 ha hfresh
        refine ⟨vm', a :: l1, by simp only [step, hrun], hw', hc', ?_⟩
        have hle : l1.length ≤ l.length := newObjectGc_length_le hw hc hfl h1 hw1.1
        simp
        omega
      | pop =>
        refine ⟨(pop vm).1, l, rfl, pop_wf hw, ?_, by omega⟩
        unfold AllClear
        rw [pop_heap]
        exact hc
      | gc =>
        obtain ⟨vm1, l1, hrun, post⟩ := gc_spec hw hc hfl
        exact ⟨vm1, l1, hrun, post.wf, post.clear, by have := post.sublist.length_le; omega⟩
      | setTail _ _ => exact absurd hop (by simp)
    obtain ⟨vm1, l1, hstep, hw1, hc1, hle1⟩ := key
    obtain ⟨vm', l', hrun, hw', hc', hle'⟩ := ih vm1 l1 hw1 hc1 (hrest vm1 hstep) (by omega)
    refine ⟨vm', l', by simp only [run, hstep]; exact hrun, hw', hc', ?_⟩
    simp only [List.length_cons]
    omega

theorem admissible_example :
    Admissible 8 [Op.pushINT 1 1 blk0, Op.pushINT 2 2 blk0, Op.pushPair 3 blk0, Op.gc]
      emptyVM := by
  refine ⟨⟨by decide, ?_⟩, ?_⟩
  · intro vm1 h
    cases h
    rfl
  · intro vm1 h
    cases h
    refine ⟨⟨by decide, ?_⟩, ?_⟩
    · intro vm1 h
      cases h
      rfl
    · intro vm2 h
      cases h
      refine ⟨⟨by decide, by decide, ?_⟩, ?_⟩
      · intro vm1 h
        cases h
        rfl
      · intro vm3 h
        cases h
        exact ⟨trivial, fun _ _ => trivial⟩

/-- C11 (collect is always safe), evaluated on the code: from the empty machine the
single call `pushPair` returns a state whose only root entry is a registered pair
with `NULL` head and tail, and the following `gc` dereferences the null field; the
same happens after `pushINT 1, pushPair`, where the head of the new pair is `NULL`.
On every sequence of `pushINT`, `pushPair`, `pop` and `gc` calls from an empty machine
in which `pushPair` always finds two root entries, the final state is well-formed
(every root entry and pair field is a registered object) and `gc` returns. -/
theorem gc_unsafe_after_pushPair_underflow :
    emptyVM.stackSize = 0 ∧ emptyVM.firstObject = NULL ∧ emptyVM.numObjects = 0 ∧
    (∃ vm1, run 5 [Op.pushPair 1 blk0] emptyVM = Res.ok vm1 ∧
      Registry vm1 [1] ∧ vm1.stackSize = 1 ∧ vm1.stack 0 = 1 ∧
      vm1.heap 1 = some ⟨ObjectType.OBJ_PAIR, 0, NULL, 0, NULL, NULL⟩ ∧
      ¬ WF vm1 [1]) ∧
    Res.isFault (run 5 [Op.pushPair 1 blk0, Op.gc] emptyVM) = true ∧
    (∃ vm2, run 5 [Op.pushINT 1 1 blk0, Op.pushPair 2 blk0] emptyVM = Res.ok vm2 ∧
      Registry vm2 [2, 1] ∧ vm2.stackSize = 1 ∧ vm2.stack 0 = 2 ∧
      vm2.heap 2 = some ⟨ObjectType.OBJ_PAIR, 0, 1, 0, NULL, 1⟩ ∧
      ¬ WF vm2 [2, 1]) ∧
    Res.isFault (run 5 [Op.pushINT 1 1 blk0, Op.pushPair 2 blk0, Op.gc] emptyVM) = true ∧
    (∀ (thr : Int) (ops : List Op) (fuel : Nat),
      Admissible fuel ops (emptyWith thr) → ops.length < fuel →
      ∃ vm' l', run fuel ops (emptyWith thr) = Res.ok vm' ∧ WF vm' l' ∧
        AllClear vm' l' ∧ ∃ vm'', gc fuel vm' = Res.ok vm'') := by
  refine ⟨rfl, rfl, rfl, ⟨_, rfl, by decide, rfl, rfl, rfl, by decide⟩, by decide,
    ⟨_, rfl, by decide, rfl, rfl, rfl, by decide⟩, by decide, ?_⟩
  intro thr ops fuel hadm hf
  have t0 : Tight (emptyWith thr) [] := tight_empty rfl rfl
  obtain ⟨vm', l', hrun, hw', hc', hle⟩ :=
    safe_runs fuel ops (emptyWith thr) [] t0.1 t0.2.1 hadm (by simpa using hf)
  have hl : l'.length < fuel := by
    simp only [List.length_nil, Nat.zero_add] at hle
    omega
  exact ⟨vm', l', hrun, hw', hc', gc_total hw' hl⟩

end GC
